import Mathlib

/-!
Verification development for the hypergraph extraction / partition pipeline.

Shallow embedding of

* `OpenStaAdapter::extractNetlistData` and `OpenStaAdapter::buildHypergraph`
  (`src/adapter/OpenStaAdapter.cpp`),
* `TritonPartCore::partition`, `performSimplePartition`, `evaluatePartition`,
  `reportPartitionMetrics`, `writePartitionResult`
  (`partitioner/TritonPartCore.cpp`),
* `parseArgs`, `runPartition` and the solution reader of `runEvaluate`
  (`src/main.cpp`),
* `extractTimingPathsFromSTA`, `buildInstanceToIdMap`, `buildNetToIdMap`
  (`src/adapter/OpenStaAdapter_timing.cpp`) and `OpenStaAdapter::getCriticalPaths`.

Conventions of the embedding.

* C++ `int` is `Int` (no wrap-around is modelled: ids count design objects).
* C++ `float` is `ℚ` (exact arithmetic).
* `std::vector<T>` is `List T`, `push_back` appends at the end.
* `std::set<int>` is a strictly increasing `List Int` (its iteration order).
* `std::map<K, int>` is an association list, the newest binding first.
* Pointers into the timing engine (`sta::Instance*`, `sta::Net*`, ...) are
  natural-number handles; a null pointer is `none`.
* A text file is a `List Char`; `operator<<` and `operator>>` on integers
  are `showInt` and `readInt`.
* The timing engine (`sta::Network`) is not part of the repository: it is the
  input of the extraction and is modelled by the record `Network` of the
  queries the code makes.
-/

namespace par

/-! ## Data model (`partitioner/adapter/NetlistAdapter.h`) -/

/-- The record `struct Instance` of `NetlistAdapter.h`. -/
structure Instance where
  name : String
  cell_type : String
  id : Int
  is_sequential : Bool
  is_macro : Bool
  area : ℚ
deriving DecidableEq, Repr

/-- The record `struct Net` of `NetlistAdapter.h`. -/
structure Net where
  name : String
  id : Int
  instances : List Int
  pins : List String
  weight : ℚ
deriving DecidableEq, Repr

/-- The record `struct Pin` of `NetlistAdapter.h`. -/
structure Pin where
  name : String
  instance_id : Int
  net_id : Int
  is_input : Bool
  is_output : Bool
deriving DecidableEq, Repr

/-! ## The engine interface consumed by the adapter -/

/-- Handle for `sta::Instance*`. -/
abbrev StaInstance := Nat
/-- Handle for `sta::Cell*`. -/
abbrev StaCell := Nat
/-- Handle for `sta::Port*`. -/
abbrev StaPort := Nat
/-- Handle for `sta::Net*`. -/
abbrev StaNet := Nat
/-- Handle for `sta::Pin*`. -/
abbrev StaPin := Nat

/-- The two queries the code makes on a `sta::PortDirection`. -/
structure PortDirection where
  isInput : Bool
  isOutput : Bool
deriving DecidableEq, Repr

/-- The three queries the code makes on a `sta::LibertyCell`. -/
structure LibertyCell where
  hasSequentials : Bool
  isMacro : Bool
  area : ℚ
deriving DecidableEq, Repr

/-- The queries of `sta::Network` used by `extractNetlistData`; every field is
the method of the same name (`cellOf` is `cell(Instance*)`, `cellName` is
`name(Cell*)`, `portName` is `name(Port*)`, `instanceOf` is `instance(Pin*)`,
`netPathName` is `pathName(Net*)`; an iterator is the list it enumerates,
the same list on every call). -/
structure Network where
  topInstance : Option StaInstance
  cellOf : StaInstance → Option StaCell
  cellName : StaCell → String
  portIterator : StaCell → List StaPort
  isBus : StaPort → Bool
  memberIterator : StaPort → List StaPort
  portName : StaPort → String
  leafInstanceIterator : List StaInstance
  libertyCell : StaInstance → Option LibertyCell
  pathName : StaInstance → String
  pinIterator : StaInstance → List StaPin
  net : StaPin → Option StaNet
  highestConnectedNet : StaNet → StaNet
  isPower : StaNet → Bool
  isGround : StaNet → Bool
  connectedPinIterator : StaNet → List StaPin
  instanceOf : StaPin → Option StaInstance
  direction : StaPin → PortDirection
  isTopLevelPort : StaPin → Bool
  port : StaPin → Option StaPort
  netPathName : StaNet → String

/-! ## Containers -/

/-- `std::map::find`: the newest binding of `k`, if any. -/
def mapFind (m : List (Nat × Int)) (k : Nat) : Option Int :=
  match m with
  | [] => none
  | (k', v) :: rest => if k' = k then some v else mapFind rest k

/-- `m[k] = v` on a `std::map`. -/
def mapSet (m : List (Nat × Int)) (k : Nat) (v : Int) : List (Nat × Int) :=
  (k, v) :: m

/-- `std::set<int>::insert`, on the increasing list of the elements. -/
def setInsert (x : Int) : List Int → List Int
  | [] => [x]
  | y :: ys =>
    if x < y then x :: y :: ys
    else if x = y then y :: ys
    else y :: setInsert x ys

/-! ## `OpenStaAdapter::extractNetlistData`, steps 1 and 2: the vertices -/

/-- Locals of steps 1 and 2: `instances_`, `inst_id`, `port_count`,
`port_to_id`, `inst_to_id`, `skipped_no_liberty`. -/
structure VertexScan where
  instances_ : List Instance
  inst_id : Int
  port_count : Int
  port_to_id : List (StaPort × Int)
  inst_to_id : List (StaInstance × Int)
  skipped_no_liberty : Int
deriving DecidableEq, Repr

/-- The body shared by the two port branches (lines 307-318 and 323-334):
push a `PORT` vertex of area 0 and bind the port to the id. -/
def addPort (nw : Network) (st : VertexScan) (p : StaPort) : VertexScan :=
  { st with
    instances_ := st.instances_ ++
      [{ name := nw.portName p, cell_type := "PORT", id := st.inst_id,
         is_sequential := false, is_macro := false, area := 0 }]
    port_to_id := mapSet st.port_to_id p st.inst_id
    inst_id := st.inst_id + 1
    port_count := st.port_count + 1 }

/-- One turn of the port loop (lines 296-336): a bus is expanded into its
member bits, any other port is added itself. -/
def visitPort (nw : Network) (st : VertexScan) (p : StaPort) : VertexScan :=
  if nw.isBus p then (nw.memberIterator p).foldl (addPort nw) st
  else addPort nw st p

/-- One turn of the leaf loop of step 2 (lines 347-379). -/
def visitLeafInstance (nw : Network) (st : VertexScan) (sta_inst : StaInstance) :
    VertexScan :=
  match nw.libertyCell sta_inst with
  | none => { st with skipped_no_liberty := st.skipped_no_liberty + 1 }
  | some lib_cell =>
    { st with
      instances_ := st.instances_ ++
        [{ name := nw.pathName sta_inst
           cell_type := match nw.cellOf sta_inst with
             | some c => nw.cellName c
             | none => ""
           id := st.inst_id
           is_sequential := lib_cell.hasSequentials
           is_macro := lib_cell.isMacro
           area := lib_cell.area }]
      inst_to_id := mapSet st.inst_to_id sta_inst st.inst_id
      inst_id := st.inst_id + 1 }

/-- Step 1 (lines 283-338): the ports of the top cell, if there is one. -/
def extractPorts (nw : Network) (top_inst : StaInstance) : VertexScan :=
  let s0 : VertexScan :=
    { instances_ := [], inst_id := 0, port_count := 0, port_to_id := [],
      inst_to_id := [], skipped_no_liberty := 0 }
  match nw.cellOf top_inst with
  | some top_cell => (nw.portIterator top_cell).foldl (visitPort nw) s0
  | none => s0

/-- Steps 1 and 2 (lines 283-380). -/
def extractVertices (nw : Network) (top_inst : StaInstance) : VertexScan :=
  nw.leafInstanceIterator.foldl (visitLeafInstance nw) (extractPorts nw top_inst)

/-! ## `OpenStaAdapter::extractNetlistData`, step 3: the nets -/

/-- One turn of the connected-pin loop (lines 443-474) on the pair
`(driver_id, loads_id)`. -/
def scanConnectedPin (nw : Network) (inst_to_id : List (StaInstance × Int))
    (port_to_id : List (StaPort × Int)) (st : Int × List Int) (conn_pin : StaPin) :
    Int × List Int :=
  match (nw.instanceOf conn_pin).bind (mapFind inst_to_id) with
  | some vertex_id =>
    if (nw.direction conn_pin).isOutput then (vertex_id, st.2)
    else (st.1, setInsert vertex_id st.2)
  | none =>
    if nw.isTopLevelPort conn_pin then
      match (nw.port conn_pin).bind (mapFind port_to_id) with
      | some vertex_id =>
        if (nw.direction conn_pin).isInput then (vertex_id, st.2)
        else (st.1, setInsert vertex_id st.2)
      | none => st
    else st

/-- The connected-pin loop (lines 438-475), started at `driver_id = -1` and an
empty load set. -/
def scanNet (nw : Network) (inst_to_id : List (StaInstance × Int))
    (port_to_id : List (StaPort × Int)) (highest_net : StaNet) : Int × List Int :=
  (nw.connectedPinIterator highest_net).foldl
    (scanConnectedPin nw inst_to_id port_to_id) (-1, [])

/-- Lines 478-486: the membership list built from the driver and the loads. -/
def buildHyperedge (driver_id : Int) (loads_id : List Int) : List Int :=
  if driver_id ≠ -1 ∧ loads_id ≠ [] then
    driver_id :: loads_id.filter (fun load_id => load_id ≠ driver_id)
  else []

/-- Locals of step 3: `nets_`, `net_id`, the three counters, `processed_nets`
and `net_to_id_map`. -/
structure NetScan where
  nets_ : List Net
  net_id : Int
  skipped_single : Int
  skipped_no_driver : Int
  skipped_power : Int
  processed_nets : List StaNet
  net_to_id_map : List (StaNet × Int)
deriving DecidableEq, Repr

/-- Lines 431-507: what is done with a canonical net seen for the first
time (after it has been put into `processed_nets`). -/
def processNet (nw : Network) (inst_to_id : List (StaInstance × Int))
    (port_to_id : List (StaPort × Int)) (st : NetScan) (highest_net : StaNet) : NetScan :=
  if nw.isPower highest_net || nw.isGround highest_net then
    { st with skipped_power := st.skipped_power + 1 }
  else
    let hyperedge :=
      buildHyperedge (scanNet nw inst_to_id port_to_id highest_net).1
        (scanNet nw inst_to_id port_to_id highest_net).2
    if hyperedge.length ≥ 2 then
      { st with
        nets_ := st.nets_ ++
          [{ name := nw.netPathName highest_net, id := st.net_id,
             instances := hyperedge, pins := [], weight := 1 }]
        net_to_id_map := mapSet st.net_to_id_map highest_net st.net_id
        net_id := st.net_id + 1 }
    else if hyperedge.length = 1 then
      { st with skipped_single := st.skipped_single + 1 }
    else
      { st with skipped_no_driver := st.skipped_no_driver + 1 }

/-- One turn of the pin loop (lines 420-510). -/
def visitPin (nw : Network) (inst_to_id : List (StaInstance × Int))
    (port_to_id : List (StaPort × Int)) (st : NetScan) (pin : StaPin) : NetScan :=
  match nw.net pin with
  | none => st
  | some pin_net =>
    let highest_net := nw.highestConnectedNet pin_net
    if highest_net ∈ st.processed_nets then st
    else
      processNet nw inst_to_id port_to_id
        { st with processed_nets := highest_net :: st.processed_nets } highest_net

/-- One turn of the second leaf loop (lines 410-512): only instances bound in
`inst_to_id` are visited. -/
def visitLeafPins (nw : Network) (inst_to_id : List (StaInstance × Int))
    (port_to_id : List (StaPort × Int)) (st : NetScan) (sta_inst : StaInstance) : NetScan :=
  match mapFind inst_to_id sta_inst with
  | none => st
  | some _ => (nw.pinIterator sta_inst).foldl (visitPin nw inst_to_id port_to_id) st

/-- The state at line 405, before the second leaf loop. -/
def NetScan.init : NetScan :=
  { nets_ := [], net_id := 0, skipped_single := 0, skipped_no_driver := 0,
    skipped_power := 0, processed_nets := [], net_to_id_map := [] }

/-- Step 3 (lines 396-513). -/
def extractNets (nw : Network) (inst_to_id : List (StaInstance × Int))
    (port_to_id : List (StaPort × Int)) : NetScan :=
  nw.leafInstanceIterator.foldl (visitLeafPins nw inst_to_id port_to_id) NetScan.init

/-! ## The adapter object and `extractNetlistData` -/

/-- The members of `OpenStaAdapter` (`OpenStaAdapter.h`); `sta_impl_` is
`none` for the null pointer and otherwise holds `sta_impl_->network_`. -/
structure OpenStaAdapter where
  sta_impl_ : Option Network
  instances_ : List Instance
  nets_ : List Net
  pins_ : List Pin
  data_cached_ : Bool

/-- Lines 253-262: the ten dummy instances. -/
def dummyInstances : List Instance :=
  (List.range 10).map fun i =>
    { name := "dummy_inst_" ++ toString i, cell_type := "DUMMY_CELL", id := (i : Int),
      is_sequential := false, is_macro := false, area := 1 }

/-- Lines 264-272: the eight dummy nets. -/
def dummyNets : List Net :=
  (List.range 8).map fun i =>
    { name := "dummy_net_" ++ toString i, id := (i : Int),
      instances := [(i : Int), ((i : Int) + 1) % 10], pins := [], weight := 1 }

/-- The locals of step 3 at line 513, on a design with top instance
`top_inst`: step 3 run with the two lookups left by steps 1 and 2. -/
def linkedNetScan (nw : Network) (top_inst : StaInstance) : NetScan :=
  extractNets nw (extractVertices nw top_inst).inst_to_id
    (extractVertices nw top_inst).port_to_id

/-- `OpenStaAdapter::extractNetlistData` (lines 235-521). -/
def OpenStaAdapter.extractNetlistData (a : OpenStaAdapter) : OpenStaAdapter :=
  match a.sta_impl_ with
  | none => a
  | some nw =>
    match nw.topInstance with
    | none =>
      { a with instances_ := dummyInstances, nets_ := dummyNets, pins_ := [],
               data_cached_ := true }
    | some top_inst =>
      { a with instances_ := (extractVertices nw top_inst).instances_,
               nets_ := (linkedNetScan nw top_inst).nets_, pins_ := [],
               data_cached_ := true }

/-- `OpenStaAdapter::getInstances`. -/
def OpenStaAdapter.getInstances (a : OpenStaAdapter) : List Instance := a.instances_

/-- `OpenStaAdapter::getNets`. -/
def OpenStaAdapter.getNets (a : OpenStaAdapter) : List Net := a.nets_

/-! ## The hypergraph and `buildHypergraph` -/

/-- Modelled from the spec: the class `Hypergraph` (header `src/Hypergraph.h`)
is not among the sources. It is modelled as the record of the arguments its
constructor receives in `buildHypergraph`: per-vertex weight vectors, the
hyperedges as membership lists of vertex ids, and per-hyperedge weight
vectors. -/
structure Hypergraph where
  vertex_dimensions : Int
  hyperedge_dimensions : Int
  placement_dimensions : Int
  hyperedges : List (List Int)
  vertex_weights : List (List ℚ)
  hyperedge_weights : List (List ℚ)
  fixed_attr : List Int
  community_attr : List Int
  placement_attr : List (List ℚ)
deriving DecidableEq, Repr

/-- `GetNumVertices()`. -/
def Hypergraph.GetNumVertices (hg : Hypergraph) : Nat := hg.vertex_weights.length

/-- `GetNumHyperedges()`. -/
def Hypergraph.GetNumHyperedges (hg : Hypergraph) : Nat := hg.hyperedges.length

/-- `Vertices(e)`. -/
def Hypergraph.Vertices (hg : Hypergraph) (e : Nat) : List Int := hg.hyperedges.getD e []

/-- `GetVertexWeights(v)[0]`: the first weight dimension of vertex `v`. -/
def Hypergraph.vertexWeight (hg : Hypergraph) (v : Nat) : ℚ :=
  (hg.vertex_weights.getD v []).headD 0

/-- `GetHyperedgeWeights(e)[0]`: the first weight dimension of hyperedge `e`. -/
def Hypergraph.hyperedgeWeight (hg : Hypergraph) (e : Nat) : ℚ :=
  (hg.hyperedge_weights.getD e []).headD 0

/-- Line 601: the weight given to a vertex. -/
def vertexWeightOf (inst : Instance) : ℚ :=
  if inst.area > 0 then inst.area else 1

/-- `OpenStaAdapter::buildHypergraph` (lines 580-649); `none` is the null
pointer returned when no netlist data is cached. -/
def OpenStaAdapter.buildHypergraph (a : OpenStaAdapter) : Option Hypergraph :=
  if a.data_cached_ = false then none
  else
    some
      { vertex_dimensions := 1
        hyperedge_dimensions := 1
        placement_dimensions := 0
        hyperedges :=
          (a.nets_.filter fun net => decide (net.instances.length ≥ 2)).map
            fun net => net.instances
        vertex_weights := a.instances_.map fun inst => [vertexWeightOf inst]
        hyperedge_weights :=
          (a.nets_.filter fun net => decide (net.instances.length ≥ 2)).map
            fun net => [net.weight]
        fixed_attr := []
        community_attr := []
        placement_attr := [] }

/-! ## `TritonPartCore` (`partitioner/TritonPartCore.cpp`) -/

/-- Modelled from the spec: `struct TimingPath` is declared in the absent
header `src/Hypergraph.h`; it carries the slack, the vertex sequence `path`
and the hyperedge sequence `arcs`. -/
structure TimingPath where
  path : List Int
  arcs : List Int
  slack : ℚ
deriving DecidableEq, Repr

/-- The standard library's generator with its distribution, as used by
`performSimplePartition`: `seed s` is the state of `std::mt19937 gen(s)` and
`draw a b g` is the value of `dis(gen)` for
`std::uniform_int_distribution<> dis(a, b)` together with the next state. -/
structure RandomEngine where
  State : Type
  seed : Int → State
  draw : Int → Int → State → Int × State

/-- The contract of `std::uniform_int_distribution`: for `a ≤ b` every value
drawn lies in the closed range from `a` to `b`. -/
def RandomEngine.InRange (R : RandomEngine) : Prop :=
  ∀ a b g, a ≤ b → a ≤ (R.draw a b g).1 ∧ (R.draw a b g).1 ≤ b

/-- The data members of `TritonPartCore` (`TritonPartCore.h`) that the
modelled methods read or write. -/
structure TritonPartCore where
  adapter_ : Option OpenStaAdapter
  hypergraph_ : Option Hypergraph
  partition_ : List Int
  num_parts_ : Int
  balance_ : ℚ
  timing_aware_ : Bool
  max_iterations_ : Int
  seed_ : Int
  timing_paths_ : List TimingPath
  cutsize_ : ℚ
  num_cuts_ : Int

/-- Lines 356-358: the total vertex weight. -/
def totalVertexWeight (hg : Hypergraph) : ℚ :=
  (List.range hg.GetNumVertices).foldl (fun total_weight v => total_weight + hg.vertexWeight v) 0

/-- Lines 367-375: the index of the partition of minimum accumulated weight,
found by a scan from partition 1 upwards that moves only on a strictly
smaller weight. The pair is `(best_part, min_weight)`. -/
def findBestPart (part_weights : List ℚ) (num_parts_ : Int) : Nat :=
  ((List.range' 1 (num_parts_.toNat - 1)).foldl
    (fun (acc : Nat × ℚ) p =>
      if part_weights.getD p 0 < acc.2 then (p, part_weights.getD p 0) else acc)
    (0, part_weights.getD 0 0)).1

/-- Locals of the placement loop: the generator, `part_weights` and the
member `partition_`. -/
structure SimpleScan (σ : Type) where
  gen : σ
  part_weights : List ℚ
  partition_ : List Int

/-- One turn of the placement loop (lines 363-386). -/
def placeVertex (R : RandomEngine) (hg : Hypergraph) (num_parts_ : Int) (balance_ : ℚ)
    (target_weight : ℚ) (st : SimpleScan R.State) (v : Nat) : SimpleScan R.State :=
  let vertex_weight := hg.vertexWeight v
  let best_part := findBestPart st.part_weights num_parts_
  if st.part_weights.getD best_part 0 + vertex_weight ≤ target_weight * balance_ then
    { st with
      partition_ := st.partition_.set v (best_part : Int)
      part_weights :=
        st.part_weights.set best_part (st.part_weights.getD best_part 0 + vertex_weight) }
  else
    let r := R.draw 0 (num_parts_ - 1) st.gen
    { gen := r.2
      partition_ := st.partition_.set v r.1
      part_weights :=
        st.part_weights.set r.1.toNat (st.part_weights.getD r.1.toNat 0 + vertex_weight) }

/-- The locals at the end of `performSimplePartition` (lines 348-386) run on
hypergraph `hg` with member `partition_` as given. -/
def simpleScan (R : RandomEngine) (hg : Hypergraph) (num_parts_ : Int) (balance_ : ℚ)
    (seed_ : Int) (partition_ : List Int) : SimpleScan R.State :=
  (List.range hg.GetNumVertices).foldl
    (placeVertex R hg num_parts_ balance_ (totalVertexWeight hg / (num_parts_ : ℚ)))
    { gen := R.seed seed_
      part_weights := List.replicate num_parts_.toNat 0
      partition_ := partition_ }

/-- `TritonPartCore::performSimplePartition` (lines 344-389); it is only
called with a hypergraph present, without one the model leaves the object
unchanged. -/
def TritonPartCore.performSimplePartition (R : RandomEngine) (c : TritonPartCore) :
    TritonPartCore :=
  match c.hypergraph_ with
  | none => c
  | some hg =>
    { c with
      partition_ := (simpleScan R hg c.num_parts_ c.balance_ c.seed_ c.partition_).partition_ }

/-- `TritonPartCore::performMultilevelPartition` (lines 391-398). -/
def TritonPartCore.performMultilevelPartition (R : RandomEngine) (c : TritonPartCore) :
    TritonPartCore :=
  c.performSimplePartition R

/-- Lines 188-195: the set of partition labels of the members of a hyperedge
that have an entry in `partition_`. -/
def partsInEdge (partition_ : List Int) (members : List Int) : List Int :=
  members.foldl
    (fun parts_in_edge v =>
      if v < (partition_.length : Int) then setInsert (partition_.getD v.toNat 0) parts_in_edge
      else parts_in_edge)
    []

/-- One turn of the hyperedge loop (lines 187-202) on `(num_cuts_, cutsize_)`. -/
def countCut (hg : Hypergraph) (partition_ : List Int) (acc : Int × ℚ) (e : Nat) : Int × ℚ :=
  if (partsInEdge partition_ (hg.Vertices e)).length > 1 then
    (acc.1 + 1, acc.2 + hg.hyperedgeWeight e)
  else acc

/-- Lines 205-212: the per-partition weights accumulated for the balance
report. The source reads `partition_[v]` for every vertex `v`; the model
reads 0 where the vector has no entry. -/
def evalPartWeights (hg : Hypergraph) (partition_ : List Int) (num_parts_ : Int) : List ℚ :=
  (List.range hg.GetNumVertices).foldl
    (fun part_weights v =>
      part_weights.set (partition_.getD v 0).toNat
        (part_weights.getD (partition_.getD v 0).toNat 0 + hg.vertexWeight v))
    (List.replicate num_parts_.toNat 0)

/-- `TritonPartCore::evaluatePartition` (lines 175-223): the object it leaves
when no access is out of range. The members it writes are `num_cuts_` and
`cutsize_`. The balance loop of lines 204-220 writes locals only and its
figures are logged, but it reads `partition_[v]` and writes
`part_weights[partition_[v]]` without a guard; `evaluatePartitionChecked`
tells whether a run stays in range. -/
def TritonPartCore.evaluatePartition (c : TritonPartCore) : TritonPartCore :=
  match c.hypergraph_ with
  | none => c
  | some hg =>
    if c.partition_ = [] then c
    else
      { c with
        num_cuts_ :=
          ((List.range hg.GetNumHyperedges).foldl (countCut hg c.partition_) (0, 0)).1
        cutsize_ :=
          ((List.range hg.GetNumHyperedges).foldl (countCut hg c.partition_) (0, 0)).2 }

/-- `TritonPartCore::partition` (lines 123-161) with its boolean result;
`initializePartitioner` only builds the evaluator object, which none of the
modelled methods reads. -/
def TritonPartCore.partition (R : RandomEngine) (c : TritonPartCore) : TritonPartCore × Bool :=
  match c.hypergraph_ with
  | none => (c, false)
  | some hg =>
    let c1 := { c with partition_ := List.replicate hg.GetNumVertices 0 }
    let c2 :=
      if hg.GetNumVertices < 100 then c1.performSimplePartition R
      else c1.performMultilevelPartition R
    (c2.evaluatePartition, true)

/-- `TritonPartCore::getPartitionAssignment`. -/
def TritonPartCore.getPartitionAssignment (c : TritonPartCore) : List Int := c.partition_

/-! ## Concrete designs used to exercise the theorems -/

/-- A small linked design. Top instance 0 of cell 0 with the ports `a`
(handle 1, an input) and the two-bit output bus `d` (handle 2, bits 3 and 4).
Leaves: 10 (`u1`, library cell of area 2), 11 (`u2`, no library cell),
12 (`u3`, library cell of area 3). Nets: 1 joins port `a` and the input of
`u1`; 2 joins the output of `u1` and the inputs of `u2` and `u3`; 3 joins the
output of `u3` and bit `d[0]`. -/
def designA : Network where
  topInstance := some 0
  cellOf := fun i => if i = 0 then some 0 else if i = 10 ∨ i = 12 then some 1 else none
  cellName := fun c => if c = 0 then "top" else "BUF"
  portIterator := fun c => if c = 0 then [1, 2] else []
  isBus := fun p => p = 2
  memberIterator := fun p => if p = 2 then [3, 4] else []
  portName := fun p => if p = 1 then "a" else if p = 3 then "d[0]" else if p = 4 then "d[1]" else "d"
  leafInstanceIterator := [10, 11, 12]
  libertyCell := fun i =>
    if i = 10 then some { hasSequentials := false, isMacro := false, area := 2 }
    else if i = 12 then some { hasSequentials := true, isMacro := false, area := 3 }
    else none
  pathName := fun i => if i = 10 then "u1" else if i = 11 then "u2" else "u3"
  pinIterator := fun i =>
    if i = 10 then [101, 102] else if i = 11 then [111] else if i = 12 then [121, 122] else []
  net := fun p =>
    if p = 101 ∨ p = 1 then some 1
    else if p = 102 ∨ p = 111 ∨ p = 121 then some 2
    else if p = 122 ∨ p = 3 then some 3
    else none
  highestConnectedNet := fun n => n
  isPower := fun _ => false
  isGround := fun _ => false
  connectedPinIterator := fun n =>
    if n = 1 then [1, 101] else if n = 2 then [102, 111, 121] else if n = 3 then [122, 3] else []
  instanceOf := fun p =>
    if p = 101 ∨ p = 102 then some 10
    else if p = 111 then some 11
    else if p = 121 ∨ p = 122 then some 12
    else if p = 1 ∨ p = 3 ∨ p = 4 then some 0
    else none
  direction := fun p =>
    if p = 102 ∨ p = 122 ∨ p = 3 ∨ p = 4 then { isInput := false, isOutput := true }
    else { isInput := true, isOutput := false }
  isTopLevelPort := fun p => p = 1 ∨ p = 3 ∨ p = 4
  port := fun p => if p = 1 ∨ p = 3 ∨ p = 4 then some p else none
  netPathName := fun n => if n = 1 then "a" else if n = 2 then "n2" else "d[0]"

/-- A design that is not linked: the engine has no top instance. -/
def designUnlinked : Network :=
  { designA with topInstance := none }

/-- A freshly constructed adapter (`data_cached_ = false`, empty caches) whose
engine holds the network `nw`. -/
def OpenStaAdapter.fresh (nw : Network) : OpenStaAdapter :=
  { sta_impl_ := some nw, instances_ := [], nets_ := [], pins_ := [], data_cached_ := false }

/-! ## Vocabulary for stating what the extraction leaves behind -/

/-- The well-formedness of a stored net: at least two members, no member
twice. -/
def Net.WellFormed (net : Net) : Prop :=
  2 ≤ net.instances.length ∧ net.instances.Nodup

/-- The top-level ports in enumeration order, every bus replaced in place by
its member bits. -/
def expandedPorts (nw : Network) (top_inst : StaInstance) : List StaPort :=
  match nw.cellOf top_inst with
  | some top_cell =>
    (nw.portIterator top_cell).flatMap fun p => if nw.isBus p then nw.memberIterator p else [p]
  | none => []

/-- The leaf instances that have a library cell, in leaf enumeration order,
each with its library cell. -/
def libraryLeaves (nw : Network) : List (StaInstance × LibertyCell) :=
  nw.leafInstanceIterator.filterMap fun i => (nw.libertyCell i).map fun lc => (i, lc)

/-- The vertex record of a port bit that received the id `id`. -/
def portVertex (nw : Network) (id : Int) (p : StaPort) : Instance :=
  { name := nw.portName p, cell_type := "PORT", id := id,
    is_sequential := false, is_macro := false, area := 0 }

/-- The vertex record of a library-backed leaf that received the id `id`. -/
def cellVertex (nw : Network) (id : Int) (il : StaInstance × LibertyCell) : Instance :=
  { name := nw.pathName il.1
    cell_type := match nw.cellOf il.1 with
      | some c => nw.cellName c
      | none => ""
    id := id
    is_sequential := il.2.hasSequentials
    is_macro := il.2.isMacro
    area := il.2.area }

/-- The records `mk start x0, mk (start + 1) x1, ...` of a list `x0, x1, ...`. -/
def numbered {α β : Type} (mk : Int → α → β) (start : Int) : List α → List β
  | [] => []
  | x :: xs => mk start x :: numbered mk (start + 1) xs

/-- The `std::map` obtained by binding the handles of a list to `start`,
`start + 1`, ... in list order. -/
def numberedMap (start : Int) : List Nat → List (Nat × Int)
  | [] => []
  | x :: xs => numberedMap (start + 1) xs ++ [(x, start)]

/-- The role in which the connected-pin loop (lines 443-474) takes a pin:
as the driver, as a load, or not at all. -/
inductive PinRole where
  | driver (vertex_id : Int)
  | load (vertex_id : Int)
  | unresolved
deriving DecidableEq, Repr

/-- The branch of lines 445-473 a connected pin falls into: the pin of a
bound leaf instance drives when its direction is output and loads otherwise;
failing that, the pin of a bound top-level port drives when its direction is
input and loads otherwise. -/
def pinRole (nw : Network) (inst_to_id : List (StaInstance × Int))
    (port_to_id : List (StaPort × Int)) (conn_pin : StaPin) : PinRole :=
  match (nw.instanceOf conn_pin).bind (mapFind inst_to_id) with
  | some vertex_id =>
    if (nw.direction conn_pin).isOutput then PinRole.driver vertex_id
    else PinRole.load vertex_id
  | none =>
    if nw.isTopLevelPort conn_pin then
      match (nw.port conn_pin).bind (mapFind port_to_id) with
      | some vertex_id =>
        if (nw.direction conn_pin).isInput then PinRole.driver vertex_id
        else PinRole.load vertex_id
      | none => PinRole.unresolved
    else PinRole.unresolved

/-- The vertex of a pin taken as driver. -/
def PinRole.driverId : PinRole → Option Int
  | PinRole.driver v => some v
  | _ => none

/-- The vertex of a pin taken as load. -/
def PinRole.loadId : PinRole → Option Int
  | PinRole.load v => some v
  | _ => none

/-- A design with one library-backed leaf `u1` (handle 10) and one net
(handle 1) whose only connected pin is the pin 101 of `u1`, of direction
`dir`: a floating input or a dangling output. There are no ports. -/
def designOnePin (dir : PortDirection) : Network where
  topInstance := some 0
  cellOf := fun i => if i = 0 then some 0 else some 1
  cellName := fun c => if c = 0 then "top" else "BUF"
  portIterator := fun _ => []
  isBus := fun _ => false
  memberIterator := fun _ => []
  portName := fun _ => ""
  leafInstanceIterator := [10]
  libertyCell := fun i =>
    if i = 10 then some { hasSequentials := false, isMacro := false, area := 2 } else none
  pathName := fun _ => "u1"
  pinIterator := fun i => if i = 10 then [101] else []
  net := fun p => if p = 101 then some 1 else none
  highestConnectedNet := fun n => n
  isPower := fun _ => false
  isGround := fun _ => false
  connectedPinIterator := fun n => if n = 1 then [101] else []
  instanceOf := fun p => if p = 101 then some 10 else none
  direction := fun _ => dir
  isTopLevelPort := fun _ => false
  port := fun _ => none
  netPathName := fun _ => "n1"

/-- A design with one library-backed leaf `u1` (handle 10) whose output pin
102 is wired back to its own input pin 101 by the net 1. There are no
ports. -/
def designSelfLoop : Network where
  topInstance := some 0
  cellOf := fun i => if i = 0 then some 0 else some 1
  cellName := fun c => if c = 0 then "top" else "INV"
  portIterator := fun _ => []
  isBus := fun _ => false
  memberIterator := fun _ => []
  portName := fun _ => ""
  leafInstanceIterator := [10]
  libertyCell := fun i =>
    if i = 10 then some { hasSequentials := false, isMacro := false, area := 2 } else none
  pathName := fun _ => "u1"
  pinIterator := fun i => if i = 10 then [101, 102] else []
  net := fun p => if p = 101 ∨ p = 102 then some 1 else none
  highestConnectedNet := fun n => n
  isPower := fun _ => false
  isGround := fun _ => false
  connectedPinIterator := fun n => if n = 1 then [101, 102] else []
  instanceOf := fun p => if p = 101 ∨ p = 102 then some 10 else none
  direction := fun p =>
    if p = 102 then { isInput := false, isOutput := true }
    else { isInput := true, isOutput := false }
  isTopLevelPort := fun _ => false
  port := fun _ => none
  netPathName := fun _ => "n1"

/-- The canonical nets met by the pin traversal of step 3 (lines 410-426),
one entry for every pin that has a net, in traversal order. -/
def reachedNets (nw : Network) (inst_to_id : List (StaInstance × Int)) : List StaNet :=
  nw.leafInstanceIterator.flatMap fun sta_inst =>
    match mapFind inst_to_id sta_inst with
    | none => []
    | some _ =>
      (nw.pinIterator sta_inst).filterMap fun pin => (nw.net pin).map nw.highestConnectedNet

/-- The distinct entries of a list, in the order of their first occurrence;
`firstOccurrencesFrom seen l` continues after `seen`. -/
def firstOccurrencesFrom (seen l : List Nat) : List Nat :=
  l.foldl (fun seen x => if x ∈ seen then seen else seen ++ [x]) seen

/-- The distinct entries of a list, in the order of their first occurrence. -/
def firstOccurrences (l : List Nat) : List Nat := firstOccurrencesFrom [] l

/-- The canonical nets in the order in which the pin traversal discovers
them. -/
def discoveredNets (nw : Network) (inst_to_id : List (StaInstance × Int)) : List StaNet :=
  firstOccurrences (reachedNets nw inst_to_id)

/-- The membership list the net loop builds for a canonical net (lines
438-486). -/
def hyperedgeOf (nw : Network) (inst_to_id : List (StaInstance × Int))
    (port_to_id : List (StaPort × Int)) (n : StaNet) : List Int :=
  buildHyperedge (scanNet nw inst_to_id port_to_id n).1 (scanNet nw inst_to_id port_to_id n).2

/-- The four ways the processing of a canonical net can end (lines 432-507). -/
inductive NetOutcome where
  | skippedPower
  | emitted
  | skippedSingle
  | skippedNoDriver
deriving DecidableEq, Repr

/-- The branch of lines 432-507 a canonical net ends in. -/
def netOutcome (nw : Network) (inst_to_id : List (StaInstance × Int))
    (port_to_id : List (StaPort × Int)) (n : StaNet) : NetOutcome :=
  if nw.isPower n || nw.isGround n then NetOutcome.skippedPower
  else if (hyperedgeOf nw inst_to_id port_to_id n).length ≥ 2 then NetOutcome.emitted
  else if (hyperedgeOf nw inst_to_id port_to_id n).length = 1 then NetOutcome.skippedSingle
  else NetOutcome.skippedNoDriver

/-- The record pushed for an emitted canonical net that received the id
`id` (lines 490-494). -/
def netRecord (nw : Network) (inst_to_id : List (StaInstance × Int))
    (port_to_id : List (StaPort × Int)) (id : Int) (n : StaNet) : Net :=
  { name := nw.netPathName n, id := id, instances := hyperedgeOf nw inst_to_id port_to_id n,
    pins := [], weight := 1 }

/-- The body of the pin loop from line 428 on, for the canonical net of the
pin. -/
def visitNet (nw : Network) (inst_to_id : List (StaInstance × Int))
    (port_to_id : List (StaPort × Int)) (st : NetScan) (highest_net : StaNet) : NetScan :=
  if highest_net ∈ st.processed_nets then st
  else
    processNet nw inst_to_id port_to_id
      { st with processed_nets := highest_net :: st.processed_nets } highest_net

/-- The locals of step 3 written out for the canonical nets `seen`
discovered so far: the emitted ones carry the ids 0, 1, ... in order, and
every counter counts the nets of its outcome. -/
def NetScan.ClosedForm (nw : Network) (inst_to_id : List (StaInstance × Int))
    (port_to_id : List (StaPort × Int)) (seen : List StaNet) (st : NetScan) : Prop :=
  st.processed_nets = seen.reverse ∧
  st.nets_ = numbered (netRecord nw inst_to_id port_to_id) 0
    (seen.filter fun n => netOutcome nw inst_to_id port_to_id n = NetOutcome.emitted) ∧
  st.net_id =
    ((seen.filter fun n =>
      netOutcome nw inst_to_id port_to_id n = NetOutcome.emitted).length : Int) ∧
  st.net_to_id_map = numberedMap 0
    (seen.filter fun n => netOutcome nw inst_to_id port_to_id n = NetOutcome.emitted) ∧
  st.skipped_power =
    ((seen.filter fun n =>
      netOutcome nw inst_to_id port_to_id n = NetOutcome.skippedPower).length : Int) ∧
  st.skipped_single =
    ((seen.filter fun n =>
      netOutcome nw inst_to_id port_to_id n = NetOutcome.skippedSingle).length : Int) ∧
  st.skipped_no_driver =
    ((seen.filter fun n =>
      netOutcome nw inst_to_id port_to_id n = NetOutcome.skippedNoDriver).length : Int)

/-- A concrete generator for exercising the theorems: a linear congruential
state, the value drawn from the range `a..b` is `a` plus the state modulo the
width of the range. -/
def lcgEngine : RandomEngine where
  State := Nat
  seed := fun s => s.toNat
  draw := fun a b g =>
    (a + ((g % (b - a + 1).toNat : Nat) : Int), (g * 1103515245 + 12345) % 2147483648)

/-- The hypergraph of scenario A: four vertices of weight 1 and the two
hyperedges `{0, 1}` and `{2, 3}` of weight 1. -/
def hypergraphA : Hypergraph :=
  { vertex_dimensions := 1, hyperedge_dimensions := 1, placement_dimensions := 0,
    hyperedges := [[0, 1], [2, 3]], vertex_weights := [[1], [1], [1], [1]],
    hyperedge_weights := [[1], [1]], fixed_attr := [], community_attr := [],
    placement_attr := [] }

/-- A `TritonPartCore` as its constructor leaves it (lines 21-29), then given
a hypergraph, a number of partitions, a balance factor and a seed. -/
def TritonPartCore.ofHypergraph (hg : Hypergraph) (num_parts : Int) (balance : ℚ)
    (seed : Int) : TritonPartCore :=
  { adapter_ := none, hypergraph_ := some hg, partition_ := [], num_parts_ := num_parts,
    balance_ := balance, timing_aware_ := false, max_iterations_ := 10, seed_ := seed,
    timing_paths_ := [], cutsize_ := 0, num_cuts_ := 0 }

/-! ## More of `TritonPartCore`: construction, hypergraph build, metrics -/

/-- The constructor `TritonPartCore::TritonPartCore` (lines 21-29). -/
def TritonPartCore.new : TritonPartCore :=
  { adapter_ := none, hypergraph_ := none, partition_ := [], num_parts_ := 2,
    balance_ := 11 / 10, timing_aware_ := false, max_iterations_ := 10, seed_ := 0,
    timing_paths_ := [], cutsize_ := 0, num_cuts_ := 0 }

/-- `TritonPartCore::setAdapter` (lines 34-36). -/
def TritonPartCore.setAdapter (c : TritonPartCore) (adapter : OpenStaAdapter) :
    TritonPartCore :=
  { c with adapter_ := some adapter }

/-- `TritonPartCore::buildHypergraph` (lines 62-86) with its boolean result:
the member `hypergraph_` is assigned before it is tested. -/
def TritonPartCore.buildHypergraph (c : TritonPartCore) : TritonPartCore × Bool :=
  match c.adapter_ with
  | none => (c, false)
  | some adapter =>
    match adapter.buildHypergraph with
    | none => ({ c with hypergraph_ := none }, false)
    | some hg => ({ c with hypergraph_ := some hg }, true)

/-- `TritonPartCore::getCutsize`. -/
def TritonPartCore.getCutsize (c : TritonPartCore) : ℚ := c.cutsize_

/-- `TritonPartCore::getNumCuts`. -/
def TritonPartCore.getNumCuts (c : TritonPartCore) : Int := c.num_cuts_

/-- Lines 188-195 with the reads of `partition_` checked: `none` when an
entry outside the vector is read. The guard of line 192 compares only from
above, so a negative member id is read. -/
def partsInEdgeChecked (partition_ : List Int) (members : List Int) : Option (List Int) :=
  members.foldlM
    (fun parts_in_edge v =>
      if v < (partition_.length : Int) then
        if v < 0 then none
        else some (setInsert (partition_.getD v.toNat 0) parts_in_edge)
      else some parts_in_edge)
    []

/-- Lines 205-212 with the reads of `partition_` and the accesses to
`part_weights` checked: `none` when `partition_[v]` is read for a vertex
without entry, or when the label read is no index of `part_weights`. -/
def evalPartWeightsChecked (hg : Hypergraph) (partition_ : List Int) (num_parts_ : Int) :
    Option (List ℚ) :=
  (List.range hg.GetNumVertices).foldlM
    (fun part_weights v =>
      match partition_[v]? with
      | none => none
      | some p =>
        if 0 ≤ p ∧ p.toNat < part_weights.length then
          some (part_weights.set p.toNat (part_weights.getD p.toNat 0 + hg.vertexWeight v))
        else none)
    (List.replicate num_parts_.toNat 0)

/-- `TritonPartCore::evaluatePartition` with every access to `partition_` and
`part_weights` checked: `none` when the run makes an access out of range,
otherwise the object left by `evaluatePartition`. -/
def TritonPartCore.evaluatePartitionChecked (c : TritonPartCore) : Option TritonPartCore :=
  match c.hypergraph_ with
  | none => some c
  | some hg =>
    if c.partition_ = [] then some c
    else if (List.range hg.GetNumHyperedges).all
        (fun e => (partsInEdgeChecked c.partition_ (hg.Vertices e)).isSome) then
      match evalPartWeightsChecked hg c.partition_ c.num_parts_ with
      | none => none
      | some _ => some c.evaluatePartition
    else none

/-- An adapter on which no netlist was read: `buildHypergraph` returns the
null pointer. -/
def OpenStaAdapter.noData : OpenStaAdapter :=
  { sta_impl_ := none, instances_ := [], nets_ := [], pins_ := [], data_cached_ := false }

/-- An adapter whose cached design has no port and no library-backed leaf:
`buildHypergraph` returns a hypergraph without vertices and hyperedges. -/
def OpenStaAdapter.emptyDesign : OpenStaAdapter :=
  { sta_impl_ := none, instances_ := [], nets_ := [], pins_ := [], data_cached_ := true }

/-- A hypergraph with two vertices of weight 1 joined by one hyperedge. -/
def hypergraphSmall : Hypergraph :=
  { vertex_dimensions := 1, hyperedge_dimensions := 1, placement_dimensions := 0,
    hyperedges := [[0, 1]], vertex_weights := [[1], [1]],
    hyperedge_weights := [[1]], fixed_attr := [], community_attr := [],
    placement_attr := [] }

/-- An adapter whose cached design is scenario A: four cells of area 1 and
the two nets `{0, 1}` and `{2, 3}`; its `buildHypergraph` returns
`hypergraphA`. -/
def OpenStaAdapter.scenarioA : OpenStaAdapter :=
  { sta_impl_ := none
    instances_ := (List.range 4).map fun i =>
      { name := "u" ++ toString i, cell_type := "BUF", id := (i : Int),
        is_sequential := false, is_macro := false, area := 1 }
    nets_ :=
      [{ name := "n0", id := 0, instances := [0, 1], pins := [], weight := 1 },
       { name := "n1", id := 1, instances := [2, 3], pins := [], weight := 1 }]
    pins_ := []
    data_cached_ := true }

/-- Lines 252-257: the set of partition labels of the vertices of a timing
path that have an entry in `partition_`. -/
def partsInPath (partition_ : List Int) (path : List Int) : List Int :=
  path.foldl
    (fun parts_in_path v =>
      if v < (partition_.length : Int) then setInsert (partition_.getD v.toNat 0) parts_in_path
      else parts_in_path)
    []

/-- Lines 250-261: the local `critical_cuts` after the loop over the timing
paths. -/
def criticalCuts (partition_ : List Int) (timing_paths_ : List TimingPath) : Int :=
  timing_paths_.foldl
    (fun critical_cuts path =>
      if (partsInPath partition_ path.path).length > 1 then critical_cuts + 1
      else critical_cuts)
    0

/-- Lines 237-242: the number of entries of `partition_` per partition. -/
def partSizes (partition_ : List Int) (num_parts_ : Int) : List Int :=
  partition_.foldl
    (fun part_sizes p =>
      if 0 ≤ p ∧ p < num_parts_ then part_sizes.set p.toNat (part_sizes.getD p.toNat 0 + 1)
      else part_sizes)
    (List.replicate num_parts_.toNat 0)

/-- What `reportPartitionMetrics` writes to the report. -/
structure PartitionReport where
  num_parts : Int
  num_vertices : Nat
  num_hyperedges : Nat
  cutsize : ℚ
  cut_hyperedges : Int
  part_sizes : List Int
  critical_paths_cut : Option (Int × Nat)
deriving DecidableEq, Repr

/-- `TritonPartCore::reportPartitionMetrics` (lines 225-267): the figures it
reports; `none` without hypergraph, which the source dereferences. The line
on critical paths (`critical_cuts / timing_paths_.size()`) is written only
for a timing-aware object with at least one path. -/
def TritonPartCore.reportPartitionMetrics (c : TritonPartCore) : Option PartitionReport :=
  match c.hypergraph_ with
  | none => none
  | some hg =>
    some
      { num_parts := c.num_parts_
        num_vertices := hg.GetNumVertices
        num_hyperedges := hg.GetNumHyperedges
        cutsize := c.cutsize_
        cut_hyperedges := c.num_cuts_
        part_sizes := partSizes c.partition_ c.num_parts_
        critical_paths_cut :=
          if c.timing_aware_ = true ∧ c.timing_paths_ ≠ [] then
            some (criticalCuts c.partition_ c.timing_paths_, c.timing_paths_.length)
          else none }

/-- The distinct partition labels carried by a list of vertex ids: the
labels of those ids that are vertices with an entry in the assignment. -/
def distinctLabels (partition_ : List Int) (vertices : List Int) : Finset Int :=
  (vertices.filterMap fun v => if 0 ≤ v then partition_[v.toNat]? else none).toFinset

/-- A list of vertex ids is cut by an assignment when it carries more than
one distinct partition label. -/
def IsCutBy (partition_ : List Int) (vertices : List Int) : Prop :=
  1 < (distinctLabels partition_ vertices).card

instance (partition_ : List Int) (vertices : List Int) :
    Decidable (IsCutBy partition_ vertices) := by
  unfold IsCutBy
  infer_instance

/-- The hyperedges (by index) that are cut by an assignment. -/
def cutHyperedges (hg : Hypergraph) (partition_ : List Int) : List Nat :=
  (List.range hg.GetNumHyperedges).filter fun e => decide (IsCutBy partition_ (hg.Vertices e))

/-- The timing paths that are cut by an assignment. -/
def cutPaths (partition_ : List Int) (timing_paths_ : List TimingPath) : List TimingPath :=
  timing_paths_.filter fun path => decide (IsCutBy partition_ path.path)

/-- The hypergraph without vertices and hyperedges that `buildHypergraph`
returns for `OpenStaAdapter.emptyDesign`. -/
def hypergraphEmpty : Hypergraph :=
  { vertex_dimensions := 1, hyperedge_dimensions := 1, placement_dimensions := 0,
    hyperedges := [], vertex_weights := [], hyperedge_weights := [], fixed_attr := [],
    community_attr := [], placement_attr := [] }

/-- The two timing paths of scenario C: one with slack -0.02 through the
vertices 0 and 1, one with slack 1 through the vertices 0, 2 and 3. -/
def timingPathsC : List TimingPath :=
  [{ path := [0, 1], arcs := [], slack := -1 / 50 }, { path := [0, 2, 3], arcs := [], slack := 1 }]

/-! ## The partition pass as specified -/

/-- The partition of minimum accumulated weight, the lowest index among
ties: the first index whose weight is at most every weight. -/
def leastMinPartition (part_weights : List ℚ) : Nat :=
  ((List.range part_weights.length).find? fun p =>
    (List.range part_weights.length).all fun q =>
      decide (part_weights.getD p 0 ≤ part_weights.getD q 0)).getD 0

/-- One step of the specified pass: the vertex goes to the partition of
minimum accumulated weight if that keeps the partition's weight within
`target * balance`, and otherwise to the partition drawn from the generator;
its weight is added to the partition chosen. -/
def specPlaceVertex (R : RandomEngine) (hg : Hypergraph) (num_parts : Int) (balance : ℚ)
    (target : ℚ) (st : SimpleScan R.State) (v : Nat) : SimpleScan R.State :=
  if st.part_weights.getD (leastMinPartition st.part_weights) 0 + hg.vertexWeight v ≤
      target * balance then
    { gen := st.gen
      partition_ := st.partition_.set v (leastMinPartition st.part_weights : Int)
      part_weights :=
        st.part_weights.set (leastMinPartition st.part_weights)
          (st.part_weights.getD (leastMinPartition st.part_weights) 0 + hg.vertexWeight v) }
  else
    { gen := (R.draw 0 (num_parts - 1) st.gen).2
      partition_ := st.partition_.set v (R.draw 0 (num_parts - 1) st.gen).1
      part_weights :=
        st.part_weights.set (R.draw 0 (num_parts - 1) st.gen).1.toNat
          (st.part_weights.getD (R.draw 0 (num_parts - 1) st.gen).1.toNat 0 +
            hg.vertexWeight v) }

/-- The specified single pass over the vertices in id order, with
`target = total vertex weight / num_parts`. -/
def specAssign (R : RandomEngine) (hg : Hypergraph) (num_parts : Int) (balance : ℚ)
    (seed : Int) : List Int :=
  ((List.range hg.GetNumVertices).foldl
    (specPlaceVertex R hg num_parts balance
      ((hg.vertex_weights.map fun w => w.headD 0).sum / (num_parts : ℚ)))
    { gen := R.seed seed
      part_weights := List.replicate num_parts.toNat 0
      partition_ := List.replicate hg.GetNumVertices 0 }).partition_

/-- The locals of `performSimplePartition`, as run by `partition`, after the
vertices `0, ..., k - 1` have been placed. -/
def placementAfter (R : RandomEngine) (hg : Hypergraph) (num_parts_ : Int) (balance_ : ℚ)
    (seed_ : Int) (k : Nat) : SimpleScan R.State :=
  (List.range k).foldl
    (placeVertex R hg num_parts_ balance_ (totalVertexWeight hg / (num_parts_ : ℚ)))
    { gen := R.seed seed_
      part_weights := List.replicate num_parts_.toNat 0
      partition_ := List.replicate hg.GetNumVertices 0 }

/-- Vertex `v` is placed by the greedy branch: the test of line 378 holds in
the state in which `v` is visited. -/
def PlacedGreedily (R : RandomEngine) (hg : Hypergraph) (num_parts_ : Int) (balance_ : ℚ)
    (seed_ : Int) (v : Nat) : Prop :=
  (placementAfter R hg num_parts_ balance_ seed_ v).part_weights.getD
      (findBestPart (placementAfter R hg num_parts_ balance_ seed_ v).part_weights num_parts_)
      0 + hg.vertexWeight v ≤
    totalVertexWeight hg / (num_parts_ : ℚ) * balance_

/-- A hypergraph with three vertices of the weights 1, 3 and 3 and one
hyperedge. -/
def hypergraphB : Hypergraph :=
  { vertex_dimensions := 1, hyperedge_dimensions := 1, placement_dimensions := 0,
    hyperedges := [[0, 1, 2]], vertex_weights := [[1], [3], [3]],
    hyperedge_weights := [[1]], fixed_attr := [], community_attr := [],
    placement_attr := [] }

/-! ## The result file: `writePartitionResult` and the solution reader of `runEvaluate`

Text is a list of characters. The formatting and the extraction of integers
belong to the standard library (`operator<<`, `operator>>` in the classic
locale) and are modelled here: an `int` is written in decimal with a leading
`-` when negative, and is read by skipping white space, taking an optional
sign and the longest run of decimal digits, failing when there is no digit
or when the value does not fit 32 bits. -/

/-- The line terminator written by `std::endl` and consumed by
`std::getline`. -/
def newline : Char := Char.ofNat 10

/-- The decimal digit `d` as a character. -/
def digitChar (d : Nat) : Char := Char.ofNat (48 + d)

/-- The decimal digits of `n`, most significant first; `fuel` bounds their
number. -/
def showNatAux : Nat → Nat → List Char
  | 0, _ => []
  | fuel + 1, n =>
    if n < 10 then [digitChar n] else showNatAux fuel (n / 10) ++ [digitChar (n % 10)]

/-- `out << n` for an unsigned value (`size_t`). -/
def showNat (n : Nat) : List Char := showNatAux (n + 1) n

/-- `out << i` for an `int`. -/
def showInt (i : Int) : List Char :=
  if i < 0 then '-' :: showNat i.natAbs else showNat i.toNat

/-- `std::isspace` in the classic locale: space, tab, line feed, vertical
tab, form feed, carriage return. -/
def isSpace (ch : Char) : Bool :=
  ch = ' ' || ch = Char.ofNat 9 || ch = Char.ofNat 10 || ch = Char.ofNat 11 ||
    ch = Char.ofNat 12 || ch = Char.ofNat 13

/-- The value of a run of decimal digits. -/
def digitsValue (digits : List Char) : Nat :=
  digits.foldl (fun acc d => 10 * acc + (d.toNat - 48)) 0

/-- The digits of `iss >> value` after white space and sign: the longest run
of digits is consumed; the extraction fails without a digit and when the
value does not fit an `int`. -/
def readDigits (negative : Bool) (s : List Char) : Option (Int × List Char) :=
  if s.takeWhile Char.isDigit = [] then none
  else if negative then
    if (digitsValue (s.takeWhile Char.isDigit) : Int) ≤ 2147483648 then
      some (-(digitsValue (s.takeWhile Char.isDigit) : Int), s.dropWhile Char.isDigit)
    else none
  else
    if (digitsValue (s.takeWhile Char.isDigit) : Int) ≤ 2147483647 then
      some ((digitsValue (s.takeWhile Char.isDigit) : Int), s.dropWhile Char.isDigit)
    else none

/-- `iss >> value` for an `int`: the value read and the rest of the stream,
`none` when the extraction fails. -/
def readInt (s : List Char) : Option (Int × List Char) :=
  match s.dropWhile isSpace with
  | [] => none
  | ch :: rest =>
    if ch = '-' then readDigits true rest
    else if ch = '+' then readDigits false rest
    else readDigits false (ch :: rest)

/-- The lines that successive calls of `std::getline` return; `current`
holds, reversed, the characters of the line being read. -/
def getLinesAux (current : List Char) : List Char → List (List Char)
  | [] => if current = [] then [] else [current.reverse]
  | ch :: rest =>
    if ch = newline then current.reverse :: getLinesAux [] rest
    else getLinesAux (ch :: current) rest

/-- The lines of a text as `std::getline` returns them. -/
def getLines (text : List Char) : List (List Char) := getLinesAux [] text

/-- The body of the reading loop of `runEvaluate` (main.cpp, lines 383-399)
on the vector `solution`. -/
def readSolutionLine (solution : List Int) (line : List Char) : List Int :=
  if line = [] ∨ line.head? = some '#' then solution
  else
    match readInt line with
    | none => solution
    | some (first_val, rest) =>
      match readInt rest with
      | some (second_val, _) => solution ++ [second_val]
      | none => solution ++ [first_val]

/-- The reading loop of `runEvaluate` (main.cpp, lines 381-400), continued
from the vector `solution`. -/
def readSolutionFrom (solution : List Int) (text : List Char) : List Int :=
  (getLines text).foldl readSolutionLine solution

/-- The vector `solution` that `runEvaluate` loads from the text of a
solution file (main.cpp, lines 374-401). -/
def readSolution (text : List Char) : List Int := readSolutionFrom [] text

/-- Lines 290-292 of `writePartitionResult`: the lines `v partition_[v]`,
for the entries from index `start` on. -/
def vertexLines (start : Nat) : List Int → List Char
  | [] => []
  | p :: rest =>
    showNat start ++ ' ' :: showInt p ++ newline :: vertexLines (start + 1) rest

/-- Lines 301-303 of `writePartitionResult`: the lines `name partition_[i]`
for the indices that both vectors have. -/
def nameLines : List Instance → List Int → List Char
  | inst :: instances, p :: rest =>
    inst.name.toList ++ ' ' :: showInt p ++ newline :: nameLines instances rest
  | _, _ => []

/-- Lines 295-305 of `writePartitionResult`: the second section, written when
there is an adapter whose instance list is not empty and as long as the
partition vector. -/
def instanceSection (adapter_ : Option OpenStaAdapter) (partition_ : List Int) : List Char :=
  match adapter_ with
  | none => []
  | some adapter =>
    if adapter.getInstances ≠ [] ∧ adapter.getInstances.length = partition_.length then
      newline :: ("# Instance names mapping".toList ++ newline ::
        ("# Format: instance_name partition_id".toList ++ newline ::
          nameLines adapter.getInstances partition_))
    else []

/-- Lines 281-287 of `writePartitionResult`: the header. `showFloat` is the
standard library's formatting of a `float`. -/
def resultHeader (showFloat : ℚ → List Char) (c : TritonPartCore) (hg : Hypergraph) :
    List Char :=
  "# TritonPart Partition Result".toList ++ newline ::
    ("# Partitions: ".toList ++ showInt c.num_parts_ ++ newline ::
      ("# Vertices: ".toList ++ showNat hg.GetNumVertices ++ newline ::
        ("# Hyperedges: ".toList ++ showNat hg.GetNumHyperedges ++ newline ::
          ("# Cutsize: ".toList ++ showFloat c.cutsize_ ++ newline ::
            ("# Format: vertex_id partition_id".toList ++ [newline, newline])))))

/-- `TritonPartCore::writePartitionResult` (lines 269-311): the text written
to the file when it can be opened; `none` without hypergraph, which the
source dereferences. -/
def TritonPartCore.writePartitionResult (showFloat : ℚ → List Char) (c : TritonPartCore) :
    Option (List Char) :=
  match c.hypergraph_ with
  | none => none
  | some hg =>
    some (resultHeader showFloat c hg ++
      (vertexLines 0 c.partition_ ++ instanceSection c.adapter_ c.partition_))

/-- A line of a solution file in the two-column format: a blank line, a
comment line `#...`, or a data line `<vertex_id> <partition_id>`. -/
inductive SolutionLine where
  | blank
  | comment (text : List Char)
  | data (vertex_id : Int) (partition_id : Int)
deriving DecidableEq, Repr

/-- The characters of a line of a solution file. -/
def SolutionLine.render : SolutionLine → List Char
  | SolutionLine.blank => []
  | SolutionLine.comment text => '#' :: text
  | SolutionLine.data vertex_id partition_id => showInt vertex_id ++ ' ' :: showInt partition_id

/-- The pair written on a data line. -/
def SolutionLine.entry : SolutionLine → Option (Int × Int)
  | SolutionLine.data vertex_id partition_id => some (vertex_id, partition_id)
  | _ => none

/-- A line that the format allows: a comment holds no line terminator and
the two numbers of a data line are 32-bit values. -/
def SolutionLine.WellFormed : SolutionLine → Prop
  | SolutionLine.blank => True
  | SolutionLine.comment text => newline ∉ text
  | SolutionLine.data vertex_id partition_id =>
    (-2147483648 ≤ vertex_id ∧ vertex_id ≤ 2147483647) ∧
      (-2147483648 ≤ partition_id ∧ partition_id ≤ 2147483647)

/-- The text of a solution file with the given lines, each ended by a line
terminator. -/
def renderSolutionFile (lines : List SolutionLine) : List Char :=
  lines.flatMap fun line => line.render ++ [newline]

/-- An instance name whose line `name partition_id` is read as data: after
optional leading white space it is at its end, or continues with a digit, or
with a sign followed by a digit. -/
def startsLikeNumber (name : List Char) : Bool :=
  match name.dropWhile isSpace with
  | [] => true
  | ch :: rest =>
    ch.isDigit || ((ch = '-' || ch = '+') &&
      match rest with
      | [] => false
      | d :: _ => d.isDigit)

/-- An adapter whose cached design has the single cell `7` (an instance name
that is a number) and no net. -/
def OpenStaAdapter.numericName : OpenStaAdapter :=
  { sta_impl_ := none
    instances_ :=
      [{ name := "7", cell_type := "BUF", id := 0, is_sequential := false,
         is_macro := false, area := 1 }]
    nets_ := []
    pins_ := []
    data_cached_ := true }

/-- A formatting of `float` values for exercising the theorems: every value
is written as `0`. -/
def showFloatZero : ℚ → List Char := fun _ => "0".toList

/-! ## The balance figures of `evaluatePartition` -/

/-- Lines 204-214 of `evaluatePartition`: the local `avg_weight`, the total
of the vertex weights accumulated by the balance loop divided by
`num_parts_`. -/
def evalAvgWeight (hg : Hypergraph) (num_parts_ : Int) : ℚ :=
  (List.range hg.GetNumVertices).foldl
    (fun total_weight v => total_weight + hg.vertexWeight v) 0 / (num_parts_ : ℚ)

/-- Lines 215-220 of `evaluatePartition`: the local `max_imbalance`, the
largest `|part_weights[p] - avg_weight| / avg_weight` over the partitions. -/
def evalMaxImbalance (hg : Hypergraph) (partition_ : List Int) (num_parts_ : Int) : ℚ :=
  (List.range num_parts_.toNat).foldl
    (fun max_imbalance p =>
      max max_imbalance
        (|(evalPartWeights hg partition_ num_parts_).getD p 0 - evalAvgWeight hg num_parts_| /
          evalAvgWeight hg num_parts_))
    0

/-! ## The command line (`src/main.cpp`) -/

/-- The enumeration `Mode`. -/
inductive Mode where
  | PARTITION
  | EVALUATE
  | HELP
deriving DecidableEq, Repr

/-- The record `struct Options`. -/
structure Options where
  mode : Mode
  verilog_file : String
  top_module : String
  liberty_files : List String
  sdc_file : String
  num_parts : Int
  balance_constraint : ℚ
  seed : Int
  top_n : Int
  timing_aware : Bool
  extra_delay : ℚ
  guardband : Bool
  solution_file : String
  hypergraph_file : String
  hypergraph_int_weight_file : String
  debug : Bool
deriving DecidableEq, Repr

/-- The member initialisers of `struct Options` (lines 28-52): what
`Options opts;` holds. -/
def Options.initial : Options :=
  { mode := Mode.PARTITION, verilog_file := "", top_module := "", liberty_files := [],
    sdc_file := "", num_parts := 2, balance_constraint := 2, seed := 0, top_n := 100000,
    timing_aware := false, extra_delay := 1 / 1000000000, guardband := false,
    solution_file := "partition.part", hypergraph_file := "",
    hypergraph_int_weight_file := "", debug := false }

/-- `std::atoi`: white space is skipped, an optional sign and the longest run
of digits are converted, and 0 is returned when there is no digit. The
standard leaves the result undefined when the value does not fit an `int`;
the model returns 0 there. -/
def atoi (s : String) : Int :=
  match readInt s.toList with
  | some (value, _) => value
  | none => 0

/-- The option loop of `parseArgs` (lines 120-164) on the arguments not yet
read; `atof` is the standard library's `std::atof`. An option that takes a
value and stands last is reported as unknown and skipped. -/
def parseOptions (atof : String → ℚ) : List String → Options → Options
  | [], opts => opts
  | [arg], opts =>
    if arg = "-t" then { opts with timing_aware := true }
    else if arg = "--guardband" then { opts with guardband := true }
    else if arg = "-d" then { opts with debug := true }
    else if arg = "-h" ∨ arg = "--help" then { opts with mode := Mode.HELP }
    else opts
  | arg :: value :: rest, opts =>
    if arg = "-v" then parseOptions atof rest { opts with verilog_file := value }
    else if arg = "-m" then parseOptions atof rest { opts with top_module := value }
    else if arg = "-l" then
      parseOptions atof rest { opts with liberty_files := opts.liberty_files ++ [value] }
    else if arg = "-s" then parseOptions atof rest { opts with sdc_file := value }
    else if arg = "-n" then parseOptions atof rest { opts with num_parts := atoi value }
    else if arg = "-b" then
      parseOptions atof rest { opts with balance_constraint := atof value }
    else if arg = "--seed" then parseOptions atof rest { opts with seed := atoi value }
    else if arg = "-t" then parseOptions atof (value :: rest) { opts with timing_aware := true }
    else if arg = "--top_n" then parseOptions atof rest { opts with top_n := atoi value }
    else if arg = "--extra_delay" then
      parseOptions atof rest { opts with extra_delay := atof value }
    else if arg = "--guardband" then
      parseOptions atof (value :: rest) { opts with guardband := true }
    else if arg = "-o" then parseOptions atof rest { opts with solution_file := value }
    else if arg = "--solution" then
      parseOptions atof rest { opts with solution_file := value }
    else if arg = "--hypergraph" then
      parseOptions atof rest { opts with hypergraph_file := value }
    else if arg = "--hypergraph_int" then
      parseOptions atof rest { opts with hypergraph_int_weight_file := value }
    else if arg = "-d" then parseOptions atof (value :: rest) { opts with debug := true }
    else if arg = "-h" ∨ arg = "--help" then { opts with mode := Mode.HELP }
    else parseOptions atof (value :: rest) opts

/-- The function `parseArgs` (lines 94-167) on the argument vector `argv`
(the program name first). -/
def parseArgs (atof : String → ℚ) (argv : List String) : Options :=
  match argv with
  | [] => { Options.initial with mode := Mode.HELP }
  | [_] => { Options.initial with mode := Mode.HELP }
  | _ :: cmd :: rest =>
    if cmd = "partition" then
      parseOptions atof rest { Options.initial with mode := Mode.PARTITION }
    else if cmd = "evaluate" then
      parseOptions atof rest { Options.initial with mode := Mode.EVALUATE }
    else if cmd = "-h" ∨ cmd = "--help" ∨ cmd = "help" then
      { Options.initial with mode := Mode.HELP }
    else if cmd.toList.head? = some '-' then
      parseOptions atof (cmd :: rest) { Options.initial with mode := Mode.PARTITION }
    else { Options.initial with mode := Mode.HELP }

/-- `TritonPartCore::setNumPartitions` (`TritonPartCore.h`). -/
def TritonPartCore.setNumPartitions (c : TritonPartCore) (num_parts : Int) : TritonPartCore :=
  { c with num_parts_ := num_parts }

/-- `TritonPartCore::setBalance` (`TritonPartCore.h`). -/
def TritonPartCore.setBalance (c : TritonPartCore) (balance : ℚ) : TritonPartCore :=
  { c with balance_ := balance }

/-- `TritonPartCore::setTimingAware` (`TritonPartCore.h`). -/
def TritonPartCore.setTimingAware (c : TritonPartCore) (enable : Bool) : TritonPartCore :=
  { c with timing_aware_ := enable }

/-- `TritonPartCore::setMaxIterations` (`TritonPartCore.h`). -/
def TritonPartCore.setMaxIterations (c : TritonPartCore) (max_iter : Int) : TritonPartCore :=
  { c with max_iterations_ := max_iter }

/-- The count that step 3 keeps for an outcome: `nets_.size()` for the
emitted nets and the counter of the same name for the others. -/
def NetScan.count (st : NetScan) : NetOutcome → Int
  | NetOutcome.emitted => (st.nets_.length : Int)
  | NetOutcome.skippedPower => st.skipped_power
  | NetOutcome.skippedSingle => st.skipped_single
  | NetOutcome.skippedNoDriver => st.skipped_no_driver

/-! ## Timing paths (`src/adapter/OpenStaAdapter_timing.cpp`)

The timing engine is not part of the repository. Besides the record `Network`
the code queries the instance hierarchy (`netIterator`, `childIterator`), the
path search and the expanded paths; these are inputs of the model. -/

/-- Handle for `sta::Path*`. -/
abbrev StaPath := Nat

/-- The queries the code makes on a `sta::PathEnd`: `path()`, a null pointer
being `none`, and `slack(sta)`. -/
structure PathEnd where
  path : Option StaPath
  slack : ℚ
deriving DecidableEq, Repr

/-- The queries `extractTimingPathsFromSTA` makes on `sta::Sta` besides
`network()`: `hasSearch` tells whether `sta->search()` is not null,
`findPathEnds group_count` is the sequence returned by
`search->findPathEnds(...)` (all other arguments are constants of the code),
`expanded path` lists the points `expanded.path(i)` of
`sta::PathExpanded expanded(path, sta)`, and `pin` is `path_at_i->pin(sta)`;
a null pointer is `none`. -/
structure Sta where
  hasSearch : Bool
  findPathEnds : Int → List (Option PathEnd)
  expanded : StaPath → List (Option StaPath)
  pin : StaPath → Option StaPin

/-- The instance hierarchy as `buildNetToIdMap` walks it: an instance with
the nets enumerated by `netIterator(inst)` and the subtrees of the instances
enumerated by `childIterator(inst)`, in enumeration order. -/
inductive InstanceTree where
  | node (inst : StaInstance) (nets : List StaNet) (children : List InstanceTree)

/-- `std::map<std::string, int>::find`: the newest binding of `k`, if any. -/
def nameFind (m : List (String × Int)) (k : String) : Option Int :=
  match m with
  | [] => none
  | (k', v) :: rest => if k' = k then some v else nameFind rest k

/-- The loops `name_to_id[records[i].name] = i` (lines 198-200 and 233-235),
continued from index `start` with the map `name_to_id`. -/
def nameToIdFrom {α : Type} (name : α → String) (start : Nat) (name_to_id : List (String × Int)) :
    List α → List (String × Int)
  | [] => name_to_id
  | record :: rest =>
    nameToIdFrom name (start + 1) ((name record, (start : Int)) :: name_to_id) rest

/-- The map `name_to_id` after the loop over all records. -/
def nameToId {α : Type} (name : α → String) (records : List α) : List (String × Int) :=
  nameToIdFrom name 0 [] records

/-- `buildInstanceToIdMap` (lines 185-216); the network pointer is not
null. -/
def buildInstanceToIdMap (nw : Network) (instances : List Instance) :
    List (StaInstance × Int) :=
  match nw.topInstance with
  | none => []
  | some _ =>
    nw.leafInstanceIterator.foldl
      (fun inst_to_id inst =>
        match nameFind (nameToId Instance.name instances) (nw.pathName inst) with
        | some id => mapSet inst_to_id inst id
        | none => inst_to_id)
      []

/-- The body of the net loop of `processNets` (lines 242-253). -/
def mapNetName (nw : Network) (name_to_id : List (String × Int))
    (net_to_id : List (StaNet × Int)) (net : StaNet) : List (StaNet × Int) :=
  match nameFind name_to_id (nw.netPathName (nw.highestConnectedNet net)) with
  | some id => mapSet (mapSet net_to_id net id) (nw.highestConnectedNet net) id
  | none => net_to_id

mutual
/-- The recursive lambda `processNets` (lines 239-264) on the map
`net_to_id`: the nets of the instance, then the child instances. -/
def processNets (nw : Network) (name_to_id : List (String × Int)) :
    InstanceTree → List (StaNet × Int) → List (StaNet × Int)
  | InstanceTree.node _ nets children, net_to_id =>
    processChildren nw name_to_id children (nets.foldl (mapNetName nw name_to_id) net_to_id)
/-- The loop over the child instances (lines 258-263). -/
def processChildren (nw : Network) (name_to_id : List (String × Int)) :
    List InstanceTree → List (StaNet × Int) → List (StaNet × Int)
  | [], net_to_id => net_to_id
  | child :: rest, net_to_id =>
    processChildren nw name_to_id rest (processNets nw name_to_id child net_to_id)
end

/-- `buildNetToIdMap` (lines 220-270); `hierarchy` is the instance tree
below the top instance. -/
def buildNetToIdMap (nw : Network) (hierarchy : InstanceTree) (nets : List Net) :
    List (StaNet × Int) :=
  match nw.topInstance with
  | none => []
  | some _ => processNets nw (nameToId Net.name nets) hierarchy []

/-- Locals of the loop over an expanded path (lines 116-121). -/
structure PathScan where
  path_vertices : List Int
  unique_vertices : List Int
  path_arcs : List Int
  unique_arcs : List Int
deriving DecidableEq, Repr

/-- One turn of the loop over an expanded path (lines 124-161); `nw` is
`sta->network()`. -/
def visitPathPoint (sta : Sta) (nw : Network) (inst_to_id : List (StaInstance × Int))
    (net_to_id : List (StaNet × Int)) (st : PathScan) (path_at_i : Option StaPath) : PathScan :=
  match path_at_i.bind sta.pin with
  | none => st
  | some pin =>
    let st1 :=
      match (nw.instanceOf pin).bind (mapFind inst_to_id) with
      | some vertex_id =>
        if vertex_id ∈ st.unique_vertices then st
        else
          { st with
            path_vertices := st.path_vertices ++ [vertex_id]
            unique_vertices := setInsert vertex_id st.unique_vertices }
      | none => st
    match (nw.net pin).bind (mapFind net_to_id) with
    | some arc_id =>
      if arc_id ∈ st1.unique_arcs then st1
      else
        { st1 with
          path_arcs := st1.path_arcs ++ [arc_id]
          unique_arcs := setInsert arc_id st1.unique_arcs }
    | none => st1

/-- The locals after the loop over the expanded path `path` (lines 113-161). -/
def scanPath (sta : Sta) (nw : Network) (inst_to_id : List (StaInstance × Int))
    (net_to_id : List (StaNet × Int)) (path : StaPath) : PathScan :=
  (sta.expanded path).foldl (visitPathPoint sta nw inst_to_id net_to_id)
    { path_vertices := [], unique_vertices := [], path_arcs := [], unique_arcs := [] }

/-- One turn of the loop over the path ends (lines 96-168) on the vector
`timing_paths`; the counts of critical and non-critical paths are only
logged. -/
def visitPathEnd (sta : Sta) (nw : Network) (inst_to_id : List (StaInstance × Int))
    (net_to_id : List (StaNet × Int)) (timing_paths : List TimingPath)
    (path_end : Option PathEnd) : List TimingPath :=
  match path_end with
  | none => timing_paths
  | some path_end =>
    match path_end.path with
    | none => timing_paths
    | some path =>
      if (scanPath sta nw inst_to_id net_to_id path).path_vertices ≠ [] then
        timing_paths ++
          [{ path := (scanPath sta nw inst_to_id net_to_id path).path_vertices
             arcs := (scanPath sta nw inst_to_id net_to_id path).path_arcs
             slack := path_end.slack }]
      else timing_paths

/-- `extractTimingPathsFromSTA` (lines 29-182); `sta` is `none` for the null
pointer and `nw` is `sta->network()`. -/
def extractTimingPathsFromSTA (sta : Option Sta) (nw : Network)
    (inst_to_id : List (StaInstance × Int)) (net_to_id : List (StaNet × Int))
    (max_paths : Int) : List TimingPath :=
  match sta with
  | none => []
  | some sta =>
    if sta.hasSearch = false then []
    else (sta.findPathEnds max_paths).foldl (visitPathEnd sta nw inst_to_id net_to_id) []

/-- `OpenStaAdapter::getCriticalPaths` (`OpenStaAdapter.cpp`, lines 667-694);
`sta` is `sta_impl_->sta_` and `hierarchy` the instance tree of
`sta_impl_->network_`. -/
def OpenStaAdapter.getCriticalPaths (a : OpenStaAdapter) (sta : Option Sta)
    (hierarchy : InstanceTree) (max_paths : Int) : List TimingPath :=
  match a.sta_impl_ with
  | none => []
  | some nw =>
    if a.data_cached_ = false then []
    else
      extractTimingPathsFromSTA sta nw (buildInstanceToIdMap nw a.instances_)
        (buildNetToIdMap nw hierarchy a.nets_) max_paths

/-- `TritonPartCore::extractTimingPaths` (lines 88-120) with its boolean
result. -/
def TritonPartCore.extractTimingPaths (c : TritonPartCore) (sta : Option Sta)
    (hierarchy : InstanceTree) : TritonPartCore × Bool :=
  match c.adapter_ with
  | none => (c, false)
  | some adapter =>
    if c.timing_aware_ = false then (c, true)
    else ({ c with timing_paths_ := adapter.getCriticalPaths sta hierarchy 100000 }, true)

/-- The function `runPartition` of `main.cpp` (lines 169-264) up to the call
of `partition`: the core object on which `reportPartitionMetrics` and
`writePartitionResult` are then called, `none` when the function returns 1
before. `loaded` is the adapter object after the reads of the Liberty,
Verilog and SDC files, which the timing engine performs. -/
def runPartition (R : RandomEngine) (loaded : OpenStaAdapter) (sta : Option Sta)
    (hierarchy : InstanceTree) (opts : Options) : Option TritonPartCore :=
  let core :=
    (((TritonPartCore.new.setAdapter loaded).setNumPartitions opts.num_parts).setBalance
      opts.balance_constraint).setTimingAware opts.timing_aware
  if core.buildHypergraph.2 = false then none
  else
    let core1 :=
      if opts.timing_aware = true then (core.buildHypergraph.1.extractTimingPaths sta hierarchy).1
      else core.buildHypergraph.1
    if (core1.partition R).2 = false then none
    else some (core1.partition R).1

/-- The function `main` of `main.cpp` in partition mode: the core object left
by `runPartition` for the argument vector `argv`; `none` when the tool prints
the usage or stops with an error. -/
def mainPartition (R : RandomEngine) (atof : String → ℚ) (loaded : OpenStaAdapter)
    (sta : Option Sta) (hierarchy : InstanceTree) (argv : List String) : Option TritonPartCore :=
  if (parseArgs atof argv).mode = Mode.PARTITION ∧ (parseArgs atof argv).verilog_file ≠ "" ∧
      (parseArgs atof argv).top_module ≠ "" ∧ (parseArgs atof argv).liberty_files ≠ [] then
    runPartition R loaded sta hierarchy (parseArgs atof argv)
  else none

/-- A stand-in for `std::atof` for exercising the theorems: every text is
read as 1. -/
def atofOne : String → ℚ := fun _ => 1

/-- An adapter whose cached design has three cells of the areas 1, 3 and 3
and no net; its `buildHypergraph` returns three vertices of these weights. -/
def OpenStaAdapter.threeCells : OpenStaAdapter :=
  { sta_impl_ := none
    instances_ :=
      [{ name := "u0", cell_type := "BUF", id := 0, is_sequential := false,
         is_macro := false, area := 1 },
       { name := "u1", cell_type := "BUF", id := 1, is_sequential := false,
         is_macro := false, area := 3 },
       { name := "u2", cell_type := "BUF", id := 2, is_sequential := false,
         is_macro := false, area := 3 }]
    nets_ := []
    pins_ := []
    data_cached_ := true }

/-- The hypergraph that `buildHypergraph` returns for
`OpenStaAdapter.threeCells`. -/
def hypergraphThreeCells : Hypergraph :=
  { vertex_dimensions := 1, hyperedge_dimensions := 1, placement_dimensions := 0,
    hyperedges := [], vertex_weights := [[1], [3], [3]], hyperedge_weights := [],
    fixed_attr := [], community_attr := [], placement_attr := [] }

/-- A hierarchy that consists of the top instance 0 alone, without nets. -/
def hierarchyEmpty : InstanceTree := InstanceTree.node 0 [] []

/-! ## Vocabulary for the timing paths -/

/-- The entries of a list with every repeat after the first occurrence
removed: the entry at position `i` is kept exactly when it does not occur
before position `i`. -/
def removeRepeats (l : List Int) : List Int :=
  (List.range l.length).filterMap fun i => if l.getD i 0 ∈ l.take i then none else l[i]?

/-- The pins of an expanded path, first to last. -/
def pathPins (sta : Sta) (path : StaPath) : List StaPin :=
  (sta.expanded path).filterMap fun path_at_i => path_at_i.bind sta.pin

/-- The vertex ids to which `inst_to_id` resolves the pins of a list, in the
order of the pins. -/
def resolvedVertices (nw : Network) (inst_to_id : List (StaInstance × Int))
    (pins : List StaPin) : List Int :=
  pins.filterMap fun pin => (nw.instanceOf pin).bind (mapFind inst_to_id)

/-- The hyperedge ids to which `net_to_id` resolves the pins of a list, in
the order of the pins. -/
def resolvedArcs (nw : Network) (net_to_id : List (StaNet × Int)) (pins : List StaPin) :
    List Int :=
  pins.filterMap fun pin => (nw.net pin).bind (mapFind net_to_id)

/-- The timing path specified for a path end: nothing for a null path end, a
null path or an empty vertex sequence, and otherwise the deduplicated vertex
and hyperedge sequences with the slack of the path end. -/
def specTimingPath (sta : Sta) (nw : Network) (inst_to_id : List (StaInstance × Int))
    (net_to_id : List (StaNet × Int)) (path_end : Option PathEnd) : Option TimingPath :=
  path_end.bind fun path_end =>
    path_end.path.bind fun path =>
      if removeRepeats (resolvedVertices nw inst_to_id (pathPins sta path)) = [] then none
      else
        some
          { path := removeRepeats (resolvedVertices nw inst_to_id (pathPins sta path))
            arcs := removeRepeats (resolvedArcs nw net_to_id (pathPins sta path))
            slack := path_end.slack }

mutual
/-- The nets enumerated by the walk of `processNets` over an instance tree,
in the order of the walk. -/
def InstanceTree.nets : InstanceTree → List StaNet
  | InstanceTree.node _ nets children => nets ++ InstanceTree.netsOfList children
/-- The nets enumerated by the walk over a list of instance trees. -/
def InstanceTree.netsOfList : List InstanceTree → List StaNet
  | [] => []
  | child :: rest => child.nets ++ InstanceTree.netsOfList rest
end

/-- The hierarchy of `designA`: the top instance 0 holds the nets 1, 2 and 3
and the three leaves, which hold no nets. -/
def hierarchyA : InstanceTree :=
  InstanceTree.node 0 [1, 2, 3]
    [InstanceTree.node 10 [] [], InstanceTree.node 11 [] [], InstanceTree.node 12 [] []]

/-- A path search on `designA`: a path end of slack -0.02 whose path runs
through port `a` (pin 1), a null point, the pins 101 and 102 of `u1` and the
pin 121 of `u3`; a null path end; a path end without path; and a path end of
slack 1 whose path is the pin 111 of the unbound `u2` alone. -/
def staA : Sta where
  hasSearch := true
  findPathEnds := fun _ =>
    [some { path := some 1, slack := -1 / 50 }, none, some { path := none, slack := 0 },
      some { path := some 2, slack := 1 }]
  expanded := fun path =>
    if path = 1 then [some 11, none, some 12, some 13, some 14]
    else if path = 2 then [some 15] else []
  pin := fun point =>
    if point = 11 then some 1 else if point = 12 then some 101
    else if point = 13 then some 102 else if point = 14 then some 121
    else if point = 15 then some 111 else none

/-- The design `designA` with one more net, 7, inside the leaf `u1`, whose
highest connected net is the net 2. -/
def designAlias : Network :=
  { designA with highestConnectedNet := fun n => if n = 7 then 2 else n }

/-- The hierarchy of `designAlias`: as `hierarchyA`, with the net 7 inside
the leaf `u1`. -/
def hierarchyAlias : InstanceTree :=
  InstanceTree.node 0 [1, 2, 3]
    [InstanceTree.node 10 [7] [], InstanceTree.node 11 [] [], InstanceTree.node 12 [] []]


/-! ## The load set and the membership list -/

/-- A property that holds initially and is kept by every step holds after a
left fold. -/
theorem foldl_preserves {α β : Type} (P : β → Prop) (f : β → α → β) (l : List α) (b : β)
    (h0 : P b) (hstep : ∀ b a, P b → P (f b a)) : P (l.foldl f b) := by
  induction l generalizing b with
  | nil => exact h0
  | cons x xs ih => exact ih (f b x) (hstep b x h0)

theorem mem_setInsert (x y : Int) (l : List Int) : y ∈ setInsert x l ↔ y = x ∨ y ∈ l := by
  induction l with
  | nil => simp [setInsert]
  | cons z zs ih =>
    unfold setInsert
    split_ifs with h1 h2
    · simp
    · subst h2; simp
    · simp only [List.mem_cons, ih]; tauto

theorem setInsert_sorted (x : Int) (l : List Int) (h : l.Pairwise (· < ·)) :
    (setInsert x l).Pairwise (· < ·) := by
  induction l with
  | nil => simp [setInsert]
  | cons z zs ih =>
    rw [List.pairwise_cons] at h
    unfold setInsert
    split_ifs with h1 h2
    · refine List.pairwise_cons.2 ⟨?_, List.pairwise_cons.2 h⟩
      intro a ha
      rcases List.mem_cons.1 ha with rfl | ha
      · exact h1
      · exact lt_trans h1 (h.1 a ha)
    · exact List.pairwise_cons.2 h
    · refine List.pairwise_cons.2 ⟨?_, ih h.2⟩
      intro a ha
      rcases (mem_setInsert x a zs).1 ha with rfl | ha
      · omega
      · exact h.1 a ha

theorem setInsert_ne_nil (x : Int) (l : List Int) : setInsert x l ≠ [] := by
  cases l with
  | nil => simp [setInsert]
  | cons z zs => unfold setInsert; split_ifs <;> simp

/-- The load set kept by the connected-pin loop is strictly increasing. -/
theorem scanNet_sorted (nw : Network) (i2 p2 : List (Nat × Int)) (n : StaNet) :
    (scanNet nw i2 p2 n).2.Pairwise (· < ·) := by
  unfold scanNet
  apply foldl_preserves (fun st : Int × List Int => st.2.Pairwise (· < ·))
  · simp
  · intro st pin hst
    unfold scanConnectedPin
    repeat' split
    all_goals first | exact hst | exact setInsert_sorted _ _ hst

theorem buildHyperedge_nodup (d : Int) (loads : List Int) (h : loads.Pairwise (· < ·)) :
    (buildHyperedge d loads).Nodup := by
  unfold buildHyperedge
  split_ifs with hc
  · refine List.nodup_cons.2 ⟨?_, ?_⟩
    · simp [List.mem_filter]
    · exact (List.Pairwise.imp (fun hab => ne_of_lt hab) h).filter _
  · exact List.nodup_nil

theorem processNet_wellFormed (nw : Network) (i2 p2 : List (Nat × Int)) (st : NetScan)
    (n : StaNet) (h : ∀ net ∈ st.nets_, net.WellFormed) :
    ∀ net ∈ (processNet nw i2 p2 st n).nets_, net.WellFormed := by
  unfold processNet
  dsimp only
  split_ifs with hp h2 h1
  · exact h
  · intro net hnet
    rcases List.mem_append.1 hnet with hnet | hnet
    · exact h net hnet
    · rw [List.mem_singleton] at hnet
      subst hnet
      exact ⟨h2, buildHyperedge_nodup _ _ (scanNet_sorted nw i2 p2 n)⟩
  · exact h
  · exact h

theorem extractNets_wellFormed (nw : Network) (i2 p2 : List (Nat × Int)) :
    ∀ net ∈ (extractNets nw i2 p2).nets_, net.WellFormed := by
  unfold extractNets
  apply foldl_preserves (fun st : NetScan => ∀ net ∈ st.nets_, net.WellFormed)
  · intro net hnet; simp [NetScan.init] at hnet
  · intro st inst hst
    unfold visitLeafPins
    split
    · exact hst
    · apply foldl_preserves (fun st : NetScan => ∀ net ∈ st.nets_, net.WellFormed)
      · exact hst
      · intro st pin hst
        unfold visitPin
        split
        · exact hst
        · dsimp only
          split_ifs
          · exact hst
          · exact processNet_wellFormed nw i2 p2 _ _ hst

theorem dummyNets_wellFormed : ∀ net ∈ dummyNets, net.WellFormed := by
  unfold Net.WellFormed
  decide

/-! ## Well-formed hyperedges -/

/-- Claim C1: on every design handed to it by the engine (with or without a
top instance), every net recorded by `extractNetlistData` has at least two
member vertex ids and no member twice, and so has every hyperedge that
`buildHypergraph` then passes to the hypergraph. -/
theorem extractNetlistData_nets_wellFormed (a : OpenStaAdapter) (nw : Network)
    (h : a.sta_impl_ = some nw) :
    (∀ net ∈ a.extractNetlistData.nets_, 2 ≤ net.instances.length ∧ net.instances.Nodup) ∧
    (∀ hg, a.extractNetlistData.buildHypergraph = some hg →
      ∀ e ∈ hg.hyperedges, 2 ≤ e.length ∧ e.Nodup) := by
  have hnets : ∀ net ∈ a.extractNetlistData.nets_, net.WellFormed := by
    unfold OpenStaAdapter.extractNetlistData
    rw [h]
    dsimp only
    cases nw.topInstance with
    | none => exact dummyNets_wellFormed
    | some top_inst => exact extractNets_wellFormed nw _ _
  refine ⟨hnets, ?_⟩
  intro hg hhg e he
  unfold OpenStaAdapter.buildHypergraph at hhg
  split_ifs at hhg
  simp only [Option.some.injEq] at hhg
  subst hhg
  simp only [List.mem_map, List.mem_filter] at he
  obtain ⟨net, ⟨hmem, _⟩, rfl⟩ := he
  exact hnets net hmem

/-- Witness for C1 on `designA`: three nets are recorded, the hypergraph is
built, and all of them are well formed. -/
theorem extractNetlistData_nets_wellFormed_witness :
    (OpenStaAdapter.fresh designA).sta_impl_ = some designA ∧
    (OpenStaAdapter.fresh designA).extractNetlistData.nets_.length = 3 ∧
    ((OpenStaAdapter.fresh designA).extractNetlistData.buildHypergraph.map
      fun hg => hg.hyperedges) = some [[0, 3], [3, 4], [4, 1]] ∧
    ((∀ net ∈ (OpenStaAdapter.fresh designA).extractNetlistData.nets_,
        2 ≤ net.instances.length ∧ net.instances.Nodup) ∧
      (∀ hg, (OpenStaAdapter.fresh designA).extractNetlistData.buildHypergraph = some hg →
        ∀ e ∈ hg.hyperedges, 2 ≤ e.length ∧ e.Nodup)) :=
  ⟨rfl, by decide, by decide,
    extractNetlistData_nets_wellFormed (OpenStaAdapter.fresh designA) designA rfl⟩

/-! ## Numbered records and lookups -/

theorem numbered_append {α β : Type} (mk : Int → α → β) (s : Int) (l1 l2 : List α) :
    numbered mk s (l1 ++ l2) = numbered mk s l1 ++ numbered mk (s + l1.length) l2 := by
  induction l1 generalizing s with
  | nil => simp [numbered]
  | cons x xs ih =>
    have hs : s + 1 + (xs.length : Int) = s + ((xs.length + 1 : Nat) : Int) := by
      push_cast; ring
    rw [List.cons_append, numbered, numbered, ih, hs, List.length_cons, List.cons_append]

theorem numbered_length {α β : Type} (mk : Int → α → β) (s : Int) (l : List α) :
    (numbered mk s l).length = l.length := by
  induction l generalizing s with
  | nil => rfl
  | cons x xs ih => simp [numbered, ih]

theorem numbered_getElem? {α β : Type} (mk : Int → α → β) (s : Int) (l : List α) (k : Nat) :
    (numbered mk s l)[k]? = (l[k]?).map (mk (s + k)) := by
  induction l generalizing s k with
  | nil => simp [numbered]
  | cons x xs ih =>
    cases k with
    | zero => simp [numbered]
    | succ k =>
      have hs : s + 1 + (k : Int) = s + ((k + 1 : Nat) : Int) := by push_cast; ring
      rw [numbered, List.getElem?_cons_succ, List.getElem?_cons_succ, ih, hs]

theorem numberedMap_append (s : Int) (l1 l2 : List Nat) :
    numberedMap s (l1 ++ l2) = numberedMap (s + l1.length) l2 ++ numberedMap s l1 := by
  induction l1 generalizing s with
  | nil => simp [numberedMap]
  | cons x xs ih =>
    have hs : s + 1 + (xs.length : Int) = s + ((xs.length + 1 : Nat) : Int) := by
      push_cast; ring
    rw [List.cons_append, numberedMap, numberedMap, ih, hs, List.length_cons,
      List.append_assoc]

theorem mapFind_append (m1 m2 : List (Nat × Int)) (k : Nat) :
    mapFind (m1 ++ m2) k = (mapFind m1 k).orElse fun _ => mapFind m2 k := by
  induction m1 with
  | nil => simp [mapFind]
  | cons kv rest ih =>
    obtain ⟨k', v⟩ := kv
    simp only [List.cons_append, mapFind]
    split_ifs
    · simp
    · exact ih

/-- A handle bound in a numbered map sits at the position its id says. -/
theorem mapFind_numberedMap_some (s : Int) (l : List Nat) (i : Nat) (id : Int)
    (h : mapFind (numberedMap s l) i = some id) :
    ∃ k : Nat, l[k]? = some i ∧ id = s + k := by
  induction l generalizing s with
  | nil => simp [numberedMap, mapFind] at h
  | cons x xs ih =>
    rw [numberedMap, mapFind_append] at h
    cases hrec : mapFind (numberedMap (s + 1) xs) i with
    | some v =>
      rw [hrec] at h
      simp only [Option.orElse, Option.some.injEq] at h
      subst h
      obtain ⟨k, hk, hv⟩ := ih (s + 1) hrec
      refine ⟨k + 1, by simpa using hk, ?_⟩
      rw [hv]; push_cast; ring
    | none =>
      rw [hrec] at h
      simp only [Option.orElse, mapFind] at h
      split_ifs at h with hx
      simp only [Option.some.injEq] at h
      exact ⟨0, by simp [hx], by simp [h]⟩

theorem mapFind_numberedMap_none (s : Int) (l : List Nat) (i : Nat) (h : i ∉ l) :
    mapFind (numberedMap s l) i = none := by
  induction l generalizing s with
  | nil => simp [numberedMap, mapFind]
  | cons x xs ih =>
    rw [List.mem_cons, not_or] at h
    rw [numberedMap, mapFind_append, ih (s + 1) h.2]
    simp only [Option.orElse, mapFind]
    rw [if_neg (fun hx => h.1 hx.symm)]

theorem mapFind_numberedMap_isSome (s : Int) (l : List Nat) (i : Nat) (h : i ∈ l) :
    (mapFind (numberedMap s l) i).isSome = true := by
  induction l generalizing s with
  | nil => simp at h
  | cons x xs ih =>
    rw [numberedMap, mapFind_append]
    cases hrec : mapFind (numberedMap (s + 1) xs) i with
    | some v => simp [Option.orElse]
    | none =>
      rcases List.mem_cons.1 h with rfl | h
      · simp [Option.orElse, mapFind]
      · have := ih (s + 1) h
        rw [hrec] at this
        simp at this

/-- In a list without repeats the handle at position `k` is bound to
`start + k`. -/
theorem mapFind_numberedMap_nodup (s : Int) (l : List Nat) (hl : l.Nodup) (k : Nat) (i : Nat)
    (hk : l[k]? = some i) : mapFind (numberedMap s l) i = some (s + k) := by
  induction l generalizing s k with
  | nil => simp at hk
  | cons x xs ih =>
    rw [List.nodup_cons] at hl
    rw [numberedMap, mapFind_append]
    cases k with
    | zero =>
      simp only [List.getElem?_cons_zero, Option.some.injEq] at hk
      subst hk
      rw [mapFind_numberedMap_none _ _ _ hl.1]
      simp [Option.orElse, mapFind]
    | succ k =>
      simp only [List.getElem?_cons_succ] at hk
      rw [ih (s + 1) hl.2 k hk]
      simp only [Option.orElse, Option.some.injEq]
      push_cast; ring

/-! ## Steps 1 and 2 in closed form -/


theorem foldl_addPort (nw : Network) (l : List StaPort) (st : VertexScan) :
    l.foldl (addPort nw) st =
      { instances_ := st.instances_ ++ numbered (portVertex nw) st.inst_id l
        inst_id := st.inst_id + l.length
        port_count := st.port_count + l.length
        port_to_id := numberedMap st.inst_id l ++ st.port_to_id
        inst_to_id := st.inst_to_id
        skipped_no_liberty := st.skipped_no_liberty } := by
  induction l generalizing st with
  | nil => simp [numbered, numberedMap]
  | cons x xs ih =>
    rw [List.foldl_cons, ih]
    simp only [addPort, mapSet, numbered, numberedMap, portVertex, List.length_cons,
      List.append_assoc, List.singleton_append, Nat.cast_add, Nat.cast_one,
      VertexScan.mk.injEq, and_true, true_and]
    refine ⟨by ring, by ring⟩

theorem visitPort_eq (nw : Network) (st : VertexScan) (p : StaPort) :
    visitPort nw st p =
      (if nw.isBus p then nw.memberIterator p else [p]).foldl (addPort nw) st := by
  unfold visitPort
  split_ifs <;> rfl

theorem foldl_visitPort (nw : Network) (ports : List StaPort) (st : VertexScan) :
    ports.foldl (visitPort nw) st =
      (ports.flatMap fun p => if nw.isBus p then nw.memberIterator p else [p]).foldl
        (addPort nw) st := by
  induction ports generalizing st with
  | nil => rfl
  | cons p ps ih =>
    rw [List.foldl_cons, ih, List.flatMap_cons, List.foldl_append, visitPort_eq]

/-- What step 1 leaves: the port records, numbered from 0. -/
theorem extractPorts_eq (nw : Network) (top_inst : StaInstance) :
    extractPorts nw top_inst =
      { instances_ := numbered (portVertex nw) 0 (expandedPorts nw top_inst)
        inst_id := (expandedPorts nw top_inst).length
        port_count := (expandedPorts nw top_inst).length
        port_to_id := numberedMap 0 (expandedPorts nw top_inst)
        inst_to_id := []
        skipped_no_liberty := 0 } := by
  unfold extractPorts expandedPorts
  cases nw.cellOf top_inst with
  | none => simp [numbered, numberedMap]
  | some top_cell => simp [foldl_visitPort, foldl_addPort]

/-- What the leaf loop of step 2 adds to the state it starts from. -/
theorem foldl_visitLeafInstance (nw : Network) (l : List StaInstance) (st : VertexScan) :
    (l.foldl (visitLeafInstance nw) st).instances_ =
        st.instances_ ++ numbered (cellVertex nw) st.inst_id
          (l.filterMap fun i => (nw.libertyCell i).map fun lc => (i, lc)) ∧
      (l.foldl (visitLeafInstance nw) st).inst_to_id =
        numberedMap st.inst_id
          ((l.filterMap fun i => (nw.libertyCell i).map fun lc => (i, lc)).map Prod.fst) ++
          st.inst_to_id ∧
      (l.foldl (visitLeafInstance nw) st).port_to_id = st.port_to_id := by
  induction l generalizing st with
  | nil => simp [numbered, numberedMap]
  | cons x xs ih =>
    rw [List.foldl_cons]
    obtain ⟨h1, h2, h3⟩ := ih (visitLeafInstance nw st x)
    rw [h1, h2, h3]
    unfold visitLeafInstance
    cases hx : nw.libertyCell x with
    | none => simp [List.filterMap_cons, hx]
    | some lc =>
      simp [List.filterMap_cons, hx, numbered, numberedMap, cellVertex, mapSet]

/-- What steps 1 and 2 leave: the port records followed by the records of
the library-backed leaves, and the two lookups. -/
theorem extractVertices_eq (nw : Network) (top_inst : StaInstance) :
    (extractVertices nw top_inst).instances_ =
        numbered (portVertex nw) 0 (expandedPorts nw top_inst) ++
          numbered (cellVertex nw) (expandedPorts nw top_inst).length (libraryLeaves nw) ∧
      (extractVertices nw top_inst).inst_to_id =
        numberedMap (expandedPorts nw top_inst).length ((libraryLeaves nw).map Prod.fst) ∧
      (extractVertices nw top_inst).port_to_id = numberedMap 0 (expandedPorts nw top_inst) := by
  unfold extractVertices libraryLeaves
  obtain ⟨h1, h2, h3⟩ := foldl_visitLeafInstance nw nw.leafInstanceIterator
    (extractPorts nw top_inst)
  rw [h1, h2, h3, extractPorts_eq]
  simp

/-! ## Vertex ids -/


theorem mem_libraryLeaves (nw : Network) (i : StaInstance) (lc : LibertyCell)
    (h : (i, lc) ∈ libraryLeaves nw) : nw.libertyCell i = some lc := by
  unfold libraryLeaves at h
  rw [List.mem_filterMap] at h
  obtain ⟨j, _, hj⟩ := h
  cases hlib : nw.libertyCell j with
  | none => rw [hlib] at hj; simp at hj
  | some lc' =>
    rw [hlib] at hj
    simp only [Option.map_some', Option.some.injEq, Prod.mk.injEq] at hj
    rw [← hj.1, ← hj.2]; exact hlib

theorem libraryLeaves_nodup (nw : Network) (h : nw.leafInstanceIterator.Nodup) :
    ((libraryLeaves nw).map Prod.fst).Nodup := by
  unfold libraryLeaves
  have hmap : (nw.leafInstanceIterator.filterMap fun i =>
      (nw.libertyCell i).map fun lc => (i, lc)).map Prod.fst =
      nw.leafInstanceIterator.filter fun i => (nw.libertyCell i).isSome := by
    generalize nw.leafInstanceIterator = l
    induction l with
    | nil => rfl
    | cons x xs ih =>
      cases hx : nw.libertyCell x with
      | none => simp [List.filterMap_cons, List.filter_cons, hx, ih]
      | some lc => simp [List.filterMap_cons, List.filter_cons, hx, ih]
  rw [hmap]
  exact h.filter _

/-- Claim C6: after `extractNetlistData` on a linked design the vertex ids
are dense and 0-based (`instances_[i].id = i`); the expanded port bits take
the ids `0..P-1` in enumeration order and the library-backed leaves the ids
`P..P+C-1` in leaf enumeration order; a leaf without a library cell is bound
to no id, and every id bound in the two lookups is the position of its
object. -/
theorem extractNetlistData_vertex_ids (a : OpenStaAdapter) (nw : Network)
    (top_inst : StaInstance) (h : a.sta_impl_ = some nw)
    (ht : nw.topInstance = some top_inst) :
    a.extractNetlistData.instances_.length =
        (expandedPorts nw top_inst).length + (libraryLeaves nw).length ∧
      (∀ (i : Nat) (inst : Instance),
        a.extractNetlistData.instances_[i]? = some inst → inst.id = (i : Int)) ∧
      (∀ (k : Nat) (p : StaPort), (expandedPorts nw top_inst)[k]? = some p →
        a.extractNetlistData.instances_[k]? = some (portVertex nw k p)) ∧
      (∀ (k : Nat) (il : StaInstance × LibertyCell), (libraryLeaves nw)[k]? = some il →
        a.extractNetlistData.instances_[(expandedPorts nw top_inst).length + k]? =
          some (cellVertex nw ((expandedPorts nw top_inst).length + k : Nat) il)) ∧
      (∀ i : StaInstance, nw.libertyCell i = none →
        mapFind (extractVertices nw top_inst).inst_to_id i = none) ∧
      (∀ (i : StaInstance) (id : Int),
        mapFind (extractVertices nw top_inst).inst_to_id i = some id →
        ∃ (k : Nat) (lc : LibertyCell), (libraryLeaves nw)[k]? = some (i, lc) ∧
          id = ((expandedPorts nw top_inst).length + k : Nat)) ∧
      (∀ (p : StaPort) (id : Int),
        mapFind (extractVertices nw top_inst).port_to_id p = some id →
        ∃ k : Nat, (expandedPorts nw top_inst)[k]? = some p ∧ id = (k : Int)) ∧
      (nw.leafInstanceIterator.Nodup →
        ∀ (k : Nat) (il : StaInstance × LibertyCell), (libraryLeaves nw)[k]? = some il →
          mapFind (extractVertices nw top_inst).inst_to_id il.1 =
            some (((expandedPorts nw top_inst).length + k : Nat) : Int)) := by
  obtain ⟨hinst, hi2, hp2⟩ := extractVertices_eq nw top_inst
  have hdata : a.extractNetlistData.instances_ = (extractVertices nw top_inst).instances_ := by
    unfold OpenStaAdapter.extractNetlistData
    rw [h]; dsimp only; rw [ht]
  rw [hdata, hinst, hi2, hp2]
  have hlenP := numbered_length (portVertex nw) 0 (expandedPorts nw top_inst)
  refine ⟨?_, ?_, ?_, ?_, ?_, ?_, ?_, ?_⟩
  · rw [List.length_append, numbered_length, numbered_length]
  · intro i inst hget
    by_cases hi : i < (expandedPorts nw top_inst).length
    · rw [List.getElem?_append_left (by omega), numbered_getElem?] at hget
      cases hp : (expandedPorts nw top_inst)[i]? with
      | none => rw [hp] at hget; simp at hget
      | some p =>
        rw [hp] at hget
        simp only [Option.map_some', Option.some.injEq] at hget
        rw [← hget]; simp [portVertex]
    · rw [List.getElem?_append_right (by omega), numbered_getElem?, hlenP] at hget
      cases hp : (libraryLeaves nw)[i - (expandedPorts nw top_inst).length]? with
      | none => rw [hp] at hget; simp at hget
      | some il =>
        rw [hp] at hget
        simp only [Option.map_some', Option.some.injEq] at hget
        rw [← hget]; simp only [cellVertex]; omega
  · intro k p hk
    have hlt : k < (expandedPorts nw top_inst).length := (List.getElem?_eq_some.1 hk).1
    rw [List.getElem?_append_left (by omega), numbered_getElem?, hk]
    simp
  · intro k il hk
    rw [List.getElem?_append_right (by omega), numbered_getElem?, hlenP,
      Nat.add_sub_cancel_left, hk]
    simp
  · intro i hnone
    apply mapFind_numberedMap_none
    intro hmem
    rw [List.mem_map] at hmem
    obtain ⟨⟨j, lc⟩, hjl, rfl⟩ := hmem
    rw [mem_libraryLeaves nw j lc hjl] at hnone
    exact Option.noConfusion hnone
  · intro i id hfind
    obtain ⟨k, hk, hid⟩ := mapFind_numberedMap_some _ _ _ _ hfind
    rw [List.getElem?_map] at hk
    cases hil : (libraryLeaves nw)[k]? with
    | none => rw [hil] at hk; simp at hk
    | some il =>
      rw [hil] at hk
      simp only [Option.map_some', Option.some.injEq] at hk
      obtain ⟨j, lc⟩ := il
      simp only at hk
      subst hk
      exact ⟨k, lc, hil, by rw [hid]; push_cast; rfl⟩
  · intro p id hfind
    obtain ⟨k, hk, hid⟩ := mapFind_numberedMap_some _ _ _ _ hfind
    exact ⟨k, hk, by rw [hid]; simp⟩
  · intro hnodup k il hk
    have := mapFind_numberedMap_nodup (expandedPorts nw top_inst).length
      ((libraryLeaves nw).map Prod.fst) (libraryLeaves_nodup nw hnodup) k il.1
      (by rw [List.getElem?_map, hk]; rfl)
    rw [this]; push_cast; rfl

/-- Witness for C6 on `designA`: three port bits (`a`, `d[0]`, `d[1]`) then
the two library-backed leaves `u1`, `u3`; the leaf `u2` gets no id. -/
theorem extractNetlistData_vertex_ids_witness :
    (OpenStaAdapter.fresh designA).sta_impl_ = some designA ∧
    designA.topInstance = some 0 ∧
    expandedPorts designA 0 = [1, 3, 4] ∧
    (libraryLeaves designA).map Prod.fst = [10, 12] ∧
    designA.leafInstanceIterator.Nodup ∧
    ((OpenStaAdapter.fresh designA).extractNetlistData.instances_.map fun inst => inst.id) =
      [0, 1, 2, 3, 4] ∧
    mapFind (extractVertices designA 0).inst_to_id 11 = none ∧
    mapFind (extractVertices designA 0).inst_to_id 12 = some 4 :=
  ⟨rfl, rfl, by decide, by decide, by decide, by decide,
    (extractNetlistData_vertex_ids (OpenStaAdapter.fresh designA) designA 0 rfl rfl).2.2.2.2.1 11
      (by decide),
    (extractNetlistData_vertex_ids (OpenStaAdapter.fresh designA) designA 0 rfl rfl).2.2.2.2.2.2.2
      (by decide) 1 (12, { hasSequentials := true, isMacro := false, area := 3 }) (by decide)⟩

/-! ## Vertex weights and the unlinked design -/


theorem vertexWeightOf_pos (inst : Instance) : 0 < vertexWeightOf inst := by
  unfold vertexWeightOf
  split_ifs with h
  · exact h
  · exact zero_lt_one

/-- Counterexample to C2 as stated: in the hypergraph built from `designA`
vertex 0 stands for the top-level port `a` (`cell_type` `PORT`, area 0) and
its weight is not 0. -/
theorem buildHypergraph_port_weight_counterexample :
    ¬ (∀ hg, (OpenStaAdapter.fresh designA).extractNetlistData.buildHypergraph = some hg →
        ∀ (v : Nat) (inst : Instance),
          (OpenStaAdapter.fresh designA).extractNetlistData.instances_[v]? = some inst →
          inst.cell_type = "PORT" → inst.area = 0 → hg.vertexWeight v = 0) := by
  intro hall
  have hw := hall
    { vertex_dimensions := 1, hyperedge_dimensions := 1, placement_dimensions := 0,
      hyperedges := [[0, 3], [3, 4], [4, 1]], vertex_weights := [[1], [1], [1], [2], [3]],
      hyperedge_weights := [[1], [1], [1]], fixed_attr := [], community_attr := [],
      placement_attr := [] }
    (by decide) 0 (portVertex designA 0 1) (by decide) (by decide) (by decide)
  revert hw
  decide

/-- Claim C2, amended: in every hypergraph built by `buildHypergraph` there
is one vertex per instance record, the weight of a vertex is the area of its
record when that is positive and 1 otherwise, so every vertex weight is
positive (in particular `≥ 0`), and a vertex standing for a top-level port
(`cell_type` `PORT`, area 0) has weight exactly 1. -/
theorem buildHypergraph_vertex_weights (a : OpenStaAdapter) (hg : Hypergraph)
    (hb : a.buildHypergraph = some hg) :
    hg.GetNumVertices = a.instances_.length ∧
      (∀ v : Nat, v < hg.GetNumVertices → 0 ≤ hg.vertexWeight v ∧ 0 < hg.vertexWeight v) ∧
      (∀ (v : Nat) (inst : Instance), a.instances_[v]? = some inst →
        hg.vertexWeight v = if inst.area > 0 then inst.area else 1) ∧
      (∀ (v : Nat) (inst : Instance), a.instances_[v]? = some inst →
        inst.cell_type = "PORT" → inst.area = 0 → hg.vertexWeight v = 1) := by
  unfold OpenStaAdapter.buildHypergraph at hb
  split_ifs at hb
  simp only [Option.some.injEq] at hb
  subst hb
  have hw : ∀ (v : Nat) (inst : Instance), a.instances_[v]? = some inst →
      Hypergraph.vertexWeight
        { vertex_dimensions := 1, hyperedge_dimensions := 1, placement_dimensions := 0,
          hyperedges := (a.nets_.filter fun net => decide (net.instances.length ≥ 2)).map
            fun net => net.instances,
          vertex_weights := a.instances_.map fun inst => [vertexWeightOf inst],
          hyperedge_weights := (a.nets_.filter fun net => decide (net.instances.length ≥ 2)).map
            fun net => [net.weight],
          fixed_attr := [], community_attr := [], placement_attr := [] } v =
        vertexWeightOf inst := by
    intro v inst hget
    simp [Hypergraph.vertexWeight, List.getD, List.getElem?_map, hget]
  refine ⟨by simp [Hypergraph.GetNumVertices], ?_, ?_, ?_⟩
  · intro v hv
    simp only [Hypergraph.GetNumVertices, List.length_map] at hv
    have hget : a.instances_[v]? = some (a.instances_[v]) := List.getElem?_eq_getElem hv
    rw [hw v _ hget]
    exact ⟨le_of_lt (vertexWeightOf_pos _), vertexWeightOf_pos _⟩
  · intro v inst hget
    rw [hw v inst hget]; rfl
  · intro v inst hget _ harea
    rw [hw v inst hget]
    simp [vertexWeightOf, harea]

/-- Witness for the amended C2 on `designA`: the port bit `d[0]` is
vertex 1 and has weight 1, the cell `u3` is vertex 4 and has its area 3. -/
theorem buildHypergraph_vertex_weights_witness :
    ∃ hg, (OpenStaAdapter.fresh designA).extractNetlistData.buildHypergraph = some hg ∧
      (OpenStaAdapter.fresh designA).extractNetlistData.instances_[1]? =
        some (portVertex designA 1 3) ∧
      hg.vertexWeight 1 = 1 ∧ hg.vertexWeight 4 = 3 ∧ hg.GetNumVertices = 5 :=
  ⟨{ vertex_dimensions := 1, hyperedge_dimensions := 1, placement_dimensions := 0,
      hyperedges := [[0, 3], [3, 4], [4, 1]], vertex_weights := [[1], [1], [1], [2], [3]],
      hyperedge_weights := [[1], [1], [1]], fixed_attr := [], community_attr := [],
      placement_attr := [] },
    by decide, by decide,
    (buildHypergraph_vertex_weights (OpenStaAdapter.fresh designA).extractNetlistData _
      (by decide)).2.2.2 1 (portVertex designA 1 3) (by decide) (by decide) (by decide),
    by decide, by decide⟩

/-- Counterexample to C3 as stated: with no top instance the enumerations
are not empty and `buildHypergraph` does produce a hypergraph. -/
theorem extractNetlistData_unlinked_counterexample :
    designUnlinked.topInstance = none ∧
    ¬ ((OpenStaAdapter.fresh designUnlinked).extractNetlistData.getInstances = [] ∧
        (OpenStaAdapter.fresh designUnlinked).extractNetlistData.getNets = [] ∧
        (OpenStaAdapter.fresh designUnlinked).extractNetlistData.buildHypergraph = none) := by
  decide

/-- Claim C3, amended: when the engine supplies no top-level instance,
`extractNetlistData` fills the caches with dummy data (ten instances with the
ids 0..9 and area 1, eight nets with the ids 0..7, weight 1 and members
`i`, `i + 1`), marks the data as cached, and the subsequent `buildHypergraph`
produces a hypergraph with ten vertices of weight 1 and these eight
hyperedges. -/
theorem extractNetlistData_unlinked_dummy (a : OpenStaAdapter) (nw : Network)
    (h : a.sta_impl_ = some nw) (ht : nw.topInstance = none) :
    (a.extractNetlistData.getInstances.map fun inst => (inst.id, inst.area)) =
        [(0, 1), (1, 1), (2, 1), (3, 1), (4, 1), (5, 1), (6, 1), (7, 1), (8, 1), (9, 1)] ∧
      (a.extractNetlistData.getNets.map fun net => (net.id, net.instances, net.weight)) =
        [(0, [0, 1], 1), (1, [1, 2], 1), (2, [2, 3], 1), (3, [3, 4], 1), (4, [4, 5], 1),
          (5, [5, 6], 1), (6, [6, 7], 1), (7, [7, 8], 1)] ∧
      a.extractNetlistData.data_cached_ = true ∧
      ∃ hg, a.extractNetlistData.buildHypergraph = some hg ∧
        hg.vertex_weights = List.replicate 10 [1] ∧
        hg.hyperedges = [[0, 1], [1, 2], [2, 3], [3, 4], [4, 5], [5, 6], [6, 7], [7, 8]] ∧
        hg.hyperedge_weights = List.replicate 8 [1] := by
  have hdata : a.extractNetlistData =
      { a with instances_ := dummyInstances, nets_ := dummyNets, pins_ := [],
               data_cached_ := true } := by
    unfold OpenStaAdapter.extractNetlistData
    rw [h]; dsimp only; rw [ht]
  rw [hdata]
  have h1 : (dummyInstances.map fun inst => (inst.id, inst.area)) =
      [(0, 1), (1, 1), (2, 1), (3, 1), (4, 1), (5, 1), (6, 1), (7, 1), (8, 1), (9, 1)] := by
    decide
  have h2 : (dummyNets.map fun net => (net.id, net.instances, net.weight)) =
      [(0, [0, 1], 1), (1, [1, 2], 1), (2, [2, 3], 1), (3, [3, 4], 1), (4, [4, 5], 1),
        (5, [5, 6], 1), (6, [6, 7], 1), (7, [7, 8], 1)] := by
    decide
  refine ⟨h1, h2, rfl, ?_⟩
  refine ⟨_, rfl, ?_, ?_, ?_⟩
  · simp only [OpenStaAdapter.buildHypergraph]; decide
  · simp only [OpenStaAdapter.buildHypergraph]; decide
  · simp only [OpenStaAdapter.buildHypergraph]; decide

/-- Witness for the amended C3 on the unlinked design `designUnlinked`. -/
theorem extractNetlistData_unlinked_dummy_witness :
    (OpenStaAdapter.fresh designUnlinked).sta_impl_ = some designUnlinked ∧
    designUnlinked.topInstance = none ∧
    (OpenStaAdapter.fresh designUnlinked).extractNetlistData.getInstances.length = 10 ∧
    (OpenStaAdapter.fresh designUnlinked).extractNetlistData.data_cached_ = true :=
  ⟨rfl, rfl, by decide,
    (extractNetlistData_unlinked_dummy (OpenStaAdapter.fresh designUnlinked) designUnlinked
      rfl rfl).2.2.1⟩

/-! ## The connected-pin loop in closed form -/


/-- The connected-pin step, read through the role of the pin. -/
theorem scanConnectedPin_eq (nw : Network) (i2 p2 : List (Nat × Int)) (st : Int × List Int)
    (cp : StaPin) :
    scanConnectedPin nw i2 p2 st cp =
      match pinRole nw i2 p2 cp with
      | PinRole.driver v => (v, st.2)
      | PinRole.load v => (st.1, setInsert v st.2)
      | PinRole.unresolved => st := by
  unfold scanConnectedPin pinRole
  repeat' split
  all_goals simp_all

theorem getLast?_cons_getD (v d0 : Int) (l : List Int) :
    ((v :: l).getLast?).getD d0 = (l.getLast?).getD v := by
  cases l with
  | nil => simp
  | cons x xs =>
    rw [List.getLast?_cons_cons, List.getLast?_eq_getLast _ (List.cons_ne_nil x xs)]
    rfl

/-- The connected-pin loop in closed form: the driver is the vertex of the
last pin taken as driver (the start value if there is none) and the load set
holds the start set and the vertex of every pin taken as load. -/
theorem foldl_scanConnectedPin (nw : Network) (i2 p2 : List (Nat × Int)) (pins : List StaPin)
    (st : Int × List Int) :
    (pins.foldl (scanConnectedPin nw i2 p2) st).1 =
        ((pins.filterMap fun cp => (pinRole nw i2 p2 cp).driverId).getLast?).getD st.1 ∧
      ∀ v, v ∈ (pins.foldl (scanConnectedPin nw i2 p2) st).2 ↔
        v ∈ st.2 ∨ ∃ cp ∈ pins, pinRole nw i2 p2 cp = PinRole.load v := by
  induction pins generalizing st with
  | nil => simp
  | cons cp rest ih =>
    rw [List.foldl_cons]
    obtain ⟨ih1, ih2⟩ := ih (scanConnectedPin nw i2 p2 st cp)
    refine ⟨?_, ?_⟩
    · rw [ih1, scanConnectedPin_eq]
      cases hrole : pinRole nw i2 p2 cp with
      | driver w =>
        simp only [List.filterMap_cons, hrole, PinRole.driverId]
        rw [getLast?_cons_getD]
      | load w => simp only [List.filterMap_cons, hrole, PinRole.driverId]
      | unresolved => simp only [List.filterMap_cons, hrole, PinRole.driverId]
    · intro v
      rw [ih2, scanConnectedPin_eq]
      cases hrole : pinRole nw i2 p2 cp with
      | driver w => simp [hrole]
      | load w =>
        simp only [mem_setInsert, List.mem_cons, exists_eq_or_imp, hrole, PinRole.load.injEq]
        constructor
        · rintro ((h | h) | h)
          · exact Or.inr (Or.inl h.symm)
          · exact Or.inl h
          · exact Or.inr (Or.inr h)
        · rintro (h | h | h)
          · exact Or.inl (Or.inr h)
          · exact Or.inl (Or.inl h.symm)
          · exact Or.inr h
      | unresolved => simp [hrole]

/-- The driver found for a net: the vertex of the last connected pin taken
as driver, `-1` when no pin is. -/
theorem scanNet_driver (nw : Network) (i2 p2 : List (Nat × Int)) (n : StaNet) :
    (scanNet nw i2 p2 n).1 =
      (((nw.connectedPinIterator n).filterMap fun cp =>
        (pinRole nw i2 p2 cp).driverId).getLast?).getD (-1) :=
  (foldl_scanConnectedPin nw i2 p2 _ _).1

/-- The load set found for a net: the vertices of the connected pins taken as
load. -/
theorem mem_scanNet_loads (nw : Network) (i2 p2 : List (Nat × Int)) (n : StaNet) (v : Int) :
    v ∈ (scanNet nw i2 p2 n).2 ↔
      ∃ cp ∈ nw.connectedPinIterator n, pinRole nw i2 p2 cp = PinRole.load v := by
  have := (foldl_scanConnectedPin nw i2 p2 (nw.connectedPinIterator n) (-1, [])).2 v
  simpa [scanNet] using this

theorem mem_filterMap_driverId (nw : Network) (i2 p2 : List (Nat × Int)) (pins : List StaPin)
    (v : Int) :
    v ∈ pins.filterMap (fun cp => (pinRole nw i2 p2 cp).driverId) ↔
      ∃ cp ∈ pins, pinRole nw i2 p2 cp = PinRole.driver v := by
  rw [List.mem_filterMap]
  constructor
  · rintro ⟨cp, hcp, hd⟩
    refine ⟨cp, hcp, ?_⟩
    cases hrole : pinRole nw i2 p2 cp with
    | driver w => rw [hrole] at hd; simp only [PinRole.driverId, Option.some.injEq] at hd; rw [hd]
    | load w => rw [hrole] at hd; simp [PinRole.driverId] at hd
    | unresolved => rw [hrole] at hd; simp [PinRole.driverId] at hd
  · rintro ⟨cp, hcp, hrole⟩
    exact ⟨cp, hcp, by rw [hrole]; rfl⟩

/-- Either no connected pin is taken as driver and the driver is `-1`, or the
driver is the vertex of a connected pin taken as driver. -/
theorem scanNet_driver_cases (nw : Network) (i2 p2 : List (Nat × Int)) (n : StaNet) :
    ((∀ cp ∈ nw.connectedPinIterator n, (pinRole nw i2 p2 cp).driverId = none) ∧
        (scanNet nw i2 p2 n).1 = -1) ∨
      ∃ cp ∈ nw.connectedPinIterator n,
        pinRole nw i2 p2 cp = PinRole.driver (scanNet nw i2 p2 n).1 := by
  rw [scanNet_driver]
  cases hl : ((nw.connectedPinIterator n).filterMap fun cp =>
      (pinRole nw i2 p2 cp).driverId).getLast? with
  | none =>
    left
    rw [List.getLast?_eq_none_iff] at hl
    refine ⟨?_, rfl⟩
    intro cp hcp
    cases hd : (pinRole nw i2 p2 cp).driverId with
    | none => rfl
    | some w =>
      have : w ∈ (nw.connectedPinIterator n).filterMap fun cp =>
          (pinRole nw i2 p2 cp).driverId := List.mem_filterMap.2 ⟨cp, hcp, hd⟩
      rw [hl] at this
      simp at this
  | some d =>
    right
    have hmem := List.mem_of_getLast?_eq_some hl
    exact (mem_filterMap_driverId nw i2 p2 _ d).1 hmem

/-- A pin with a role was resolved through one of the two lookups. -/
theorem pinRole_resolved (nw : Network) (i2 p2 : List (Nat × Int)) (cp : StaPin) (v : Int)
    (h : pinRole nw i2 p2 cp = PinRole.driver v ∨ pinRole nw i2 p2 cp = PinRole.load v) :
    (nw.instanceOf cp).bind (mapFind i2) = some v ∨
      (nw.port cp).bind (mapFind p2) = some v := by
  unfold pinRole at h
  cases h1 : (nw.instanceOf cp).bind (mapFind i2) with
  | some w =>
    rw [h1] at h
    simp only at h
    split_ifs at h <;> simp at h <;> simp [h]
  | none =>
    rw [h1] at h
    simp only at h
    cases h2 : (nw.port cp).bind (mapFind p2) with
    | some w =>
      rw [h2] at h
      split_ifs at h <;> simp at h <;> simp [h]
    | none =>
      rw [h2] at h
      split_ifs at h <;> simp at h

/-- Every vertex id handed out by steps 1 and 2 is non-negative, so no pin is
resolved to the sentinel `-1`. -/
theorem pinRole_id_nonneg (nw : Network) (top_inst : StaInstance) (cp : StaPin) (v : Int)
    (h : pinRole nw (extractVertices nw top_inst).inst_to_id
        (extractVertices nw top_inst).port_to_id cp = PinRole.driver v ∨
      pinRole nw (extractVertices nw top_inst).inst_to_id
        (extractVertices nw top_inst).port_to_id cp = PinRole.load v) : 0 ≤ v := by
  obtain ⟨_, hi2, hp2⟩ := extractVertices_eq nw top_inst
  have key : ∀ (s : Int) (l : List Nat) (o : Option Nat), 0 ≤ s →
      o.bind (mapFind (numberedMap s l)) = some v → 0 ≤ v := by
    intro s l o hs ho
    cases o with
    | none => simp at ho
    | some i =>
      obtain ⟨k, _, hk⟩ := mapFind_numberedMap_some s l i v ho
      omega
  rcases pinRole_resolved nw _ _ cp v h with h' | h'
  · rw [hi2] at h'
    exact key _ _ _ (by omega) h'
  · rw [hp2] at h'
    exact key _ _ _ (by omega) h'

/-! ## Nets that reach a single vertex -/


theorem sorted_all_eq (l : List Int) (v : Int) (hs : l.Pairwise (· < ·))
    (hall : ∀ w ∈ l, w = v) : l = [] ∨ l = [v] := by
  cases l with
  | nil => exact Or.inl rfl
  | cons a rest =>
    right
    have ha : a = v := hall a (List.mem_cons_self _ _)
    cases rest with
    | nil => rw [ha]
    | cons b rest' =>
      have hb : b = v := hall b (List.mem_cons_of_mem _ (List.mem_cons_self _ _))
      have hlt : a < b := (List.pairwise_cons.1 hs).1 b (List.mem_cons_self _ _)
      omega

/-- A power or ground net only advances the power counter. -/
theorem processNet_power (nw : Network) (i2 p2 : List (Nat × Int)) (st : NetScan) (n : StaNet)
    (hp : (nw.isPower n || nw.isGround n) = true) :
    processNet nw i2 p2 st n = { st with skipped_power := st.skipped_power + 1 } := by
  unfold processNet
  rw [if_pos hp]

theorem processNet_emit (nw : Network) (i2 p2 : List (Nat × Int)) (st : NetScan) (n : StaNet)
    (hp : (nw.isPower n || nw.isGround n) = false)
    (h : 2 ≤ (buildHyperedge (scanNet nw i2 p2 n).1 (scanNet nw i2 p2 n).2).length) :
    processNet nw i2 p2 st n =
      { st with
        nets_ := st.nets_ ++
          [{ name := nw.netPathName n, id := st.net_id,
             instances := buildHyperedge (scanNet nw i2 p2 n).1 (scanNet nw i2 p2 n).2,
             pins := [], weight := 1 }]
        net_to_id_map := mapSet st.net_to_id_map n st.net_id
        net_id := st.net_id + 1 } := by
  unfold processNet
  rw [hp]
  simp only [Bool.false_eq_true, if_false]
  rw [if_pos h]

theorem processNet_single (nw : Network) (i2 p2 : List (Nat × Int)) (st : NetScan) (n : StaNet)
    (hp : (nw.isPower n || nw.isGround n) = false)
    (h : (buildHyperedge (scanNet nw i2 p2 n).1 (scanNet nw i2 p2 n).2).length = 1) :
    processNet nw i2 p2 st n = { st with skipped_single := st.skipped_single + 1 } := by
  unfold processNet
  rw [hp]
  simp only [Bool.false_eq_true, if_false]
  rw [if_neg (by omega), if_pos h]

theorem processNet_empty (nw : Network) (i2 p2 : List (Nat × Int)) (st : NetScan) (n : StaNet)
    (hp : (nw.isPower n || nw.isGround n) = false)
    (h : (buildHyperedge (scanNet nw i2 p2 n).1 (scanNet nw i2 p2 n).2).length = 0) :
    processNet nw i2 p2 st n = { st with skipped_no_driver := st.skipped_no_driver + 1 } := by
  unfold processNet
  rw [hp]
  simp only [Bool.false_eq_true, if_false]
  rw [if_neg (by omega), if_neg (by omega)]

/-- Counterexample to C4 as stated: the only net of the design
`designOnePin` with an input pin is neither power nor ground and its
connected pins resolve to exactly one vertex (vertex 0, as a load), yet at
the end of the extraction the skipped-single counter is 0, not 1; the net was
counted as skipped-no-driver. -/
theorem skipped_single_counterexample :
    (designOnePin { isInput := true, isOutput := false }).isPower 1 = false ∧
    (designOnePin { isInput := true, isOutput := false }).isGround 1 = false ∧
    ((designOnePin { isInput := true, isOutput := false }).connectedPinIterator 1).map
        (pinRole (designOnePin { isInput := true, isOutput := false })
          (extractVertices (designOnePin { isInput := true, isOutput := false }) 0).inst_to_id
          (extractVertices (designOnePin { isInput := true, isOutput := false }) 0).port_to_id) =
      [PinRole.load 0] ∧
    (linkedNetScan (designOnePin { isInput := true, isOutput := false }) 0).processed_nets =
      [1] ∧
    (linkedNetScan (designOnePin { isInput := true, isOutput := false }) 0).nets_ = [] ∧
    (linkedNetScan (designOnePin { isInput := true, isOutput := false }) 0).skipped_single ≠ 1 ∧
    (linkedNetScan (designOnePin { isInput := true, isOutput := false }) 0).skipped_single = 0 ∧
    (linkedNetScan (designOnePin { isInput := true, isOutput := false }) 0).skipped_no_driver =
      1 := by
  decide

/-- Claim C4, amended: let the pin loop meet, through the pin `pin`, a
canonical net that is neither power nor ground and whose connected pins
resolve to exactly one vertex `v`. If the net was met before, nothing
changes. If it is met for the first time, no hyperedge is emitted and the
power counter is unchanged; when `v` is reached both through a pin taken as
driver and through a pin taken as load, the skipped-single counter grows by
exactly 1 and the skipped-no-driver counter is unchanged; when no pin is
taken as driver, the skipped-no-driver counter grows by exactly 1 and the
skipped-single counter is unchanged. -/
theorem visitPin_single_vertex_net (nw : Network) (top_inst : StaInstance) (st : NetScan)
    (pin : StaPin) (pin_net n : StaNet) (v : Int)
    (hnet : nw.net pin = some pin_net) (hn : n = nw.highestConnectedNet pin_net)
    (hpower : nw.isPower n = false) (hground : nw.isGround n = false)
    (hone : ∀ cp ∈ nw.connectedPinIterator n,
      pinRole nw (extractVertices nw top_inst).inst_to_id
          (extractVertices nw top_inst).port_to_id cp = PinRole.driver v ∨
        pinRole nw (extractVertices nw top_inst).inst_to_id
          (extractVertices nw top_inst).port_to_id cp = PinRole.load v ∨
        pinRole nw (extractVertices nw top_inst).inst_to_id
          (extractVertices nw top_inst).port_to_id cp = PinRole.unresolved)
    (hsome : ∃ cp ∈ nw.connectedPinIterator n,
      pinRole nw (extractVertices nw top_inst).inst_to_id
        (extractVertices nw top_inst).port_to_id cp ≠ PinRole.unresolved) :
    (n ∈ st.processed_nets →
        visitPin nw (extractVertices nw top_inst).inst_to_id
          (extractVertices nw top_inst).port_to_id st pin = st) ∧
      (n ∉ st.processed_nets →
        (visitPin nw (extractVertices nw top_inst).inst_to_id
            (extractVertices nw top_inst).port_to_id st pin).nets_ = st.nets_ ∧
          (visitPin nw (extractVertices nw top_inst).inst_to_id
            (extractVertices nw top_inst).port_to_id st pin).net_id = st.net_id ∧
          (visitPin nw (extractVertices nw top_inst).inst_to_id
            (extractVertices nw top_inst).port_to_id st pin).skipped_power =
              st.skipped_power ∧
          n ∈ (visitPin nw (extractVertices nw top_inst).inst_to_id
            (extractVertices nw top_inst).port_to_id st pin).processed_nets ∧
          ((∃ cp ∈ nw.connectedPinIterator n,
              pinRole nw (extractVertices nw top_inst).inst_to_id
                (extractVertices nw top_inst).port_to_id cp = PinRole.driver v) →
            (∃ cp ∈ nw.connectedPinIterator n,
              pinRole nw (extractVertices nw top_inst).inst_to_id
                (extractVertices nw top_inst).port_to_id cp = PinRole.load v) →
            (visitPin nw (extractVertices nw top_inst).inst_to_id
                (extractVertices nw top_inst).port_to_id st pin).skipped_single =
                st.skipped_single + 1 ∧
              (visitPin nw (extractVertices nw top_inst).inst_to_id
                (extractVertices nw top_inst).port_to_id st pin).skipped_no_driver =
                st.skipped_no_driver) ∧
          ((∀ cp ∈ nw.connectedPinIterator n,
              pinRole nw (extractVertices nw top_inst).inst_to_id
                (extractVertices nw top_inst).port_to_id cp ≠ PinRole.driver v) →
            (visitPin nw (extractVertices nw top_inst).inst_to_id
                (extractVertices nw top_inst).port_to_id st pin).skipped_single =
                st.skipped_single ∧
              (visitPin nw (extractVertices nw top_inst).inst_to_id
                (extractVertices nw top_inst).port_to_id st pin).skipped_no_driver =
                st.skipped_no_driver + 1)) := by
  generalize hI : (extractVertices nw top_inst).inst_to_id = i2 at *
  generalize hP : (extractVertices nw top_inst).port_to_id = p2 at *
  have hv : 0 ≤ v := by
    obtain ⟨cp, hcp, hne⟩ := hsome
    apply pinRole_id_nonneg nw top_inst cp v
    rw [hI, hP]
    rcases hone cp hcp with h | h | h
    · exact Or.inl h
    · exact Or.inr h
    · exact absurd h hne
  have hvisit : visitPin nw i2 p2 st pin =
      if n ∈ st.processed_nets then st
      else processNet nw i2 p2 { st with processed_nets := n :: st.processed_nets } n := by
    unfold visitPin
    rw [hnet, hn]
  -- the load set is empty or `[v]`
  have hloads : (scanNet nw i2 p2 n).2 = [] ∨ (scanNet nw i2 p2 n).2 = [v] := by
    apply sorted_all_eq _ _ (scanNet_sorted nw i2 p2 n)
    intro w hw
    obtain ⟨cp, hcp, hrole⟩ := (mem_scanNet_loads nw i2 p2 n w).1 hw
    rcases hone cp hcp with h | h | h <;> rw [hrole] at h <;> simp at h
    exact h
  -- the driver is `-1` or `v`
  have hdriver : ((∀ cp ∈ nw.connectedPinIterator n, pinRole nw i2 p2 cp ≠ PinRole.driver v) ∧
      (scanNet nw i2 p2 n).1 = -1) ∨
      ((∃ cp ∈ nw.connectedPinIterator n, pinRole nw i2 p2 cp = PinRole.driver v) ∧
        (scanNet nw i2 p2 n).1 = v) := by
    rcases scanNet_driver_cases nw i2 p2 n with ⟨hnone, hd⟩ | ⟨cp, hcp, hrole⟩
    · left
      refine ⟨?_, hd⟩
      intro cp hcp hrole
      have := hnone cp hcp
      rw [hrole] at this
      simp [PinRole.driverId] at this
    · right
      have hdv : (scanNet nw i2 p2 n).1 = v := by
        rcases hone cp hcp with h | h | h <;> rw [hrole] at h <;> simp at h
        exact h
      rw [hdv] at hrole
      exact ⟨⟨cp, hcp, hrole⟩, hdv⟩
  have hpg : (nw.isPower n || nw.isGround n) = false := by rw [hpower, hground]; rfl
  refine ⟨?_, ?_⟩
  · intro hmem
    rw [hvisit, if_pos hmem]
  · intro hmem
    rw [hvisit, if_neg hmem]
    rcases hdriver with ⟨hnodrv, hd⟩ | ⟨hdrv, hd⟩
    · -- no driver: the membership list is empty
      have hedge : buildHyperedge (scanNet nw i2 p2 n).1 (scanNet nw i2 p2 n).2 = [] := by
        rw [hd]; simp [buildHyperedge]
      rw [processNet_empty nw i2 p2 _ n hpg (by rw [hedge]; rfl)]
      refine ⟨rfl, rfl, rfl, List.mem_cons_self _ _, ?_, ?_⟩
      · intro ⟨cp, hcp, hrole⟩
        exact absurd hrole (hnodrv cp hcp)
      · intro _
        exact ⟨rfl, rfl⟩
    · rcases hloads with hl | hl
      · -- a driver and no load
        have hedge : buildHyperedge (scanNet nw i2 p2 n).1 (scanNet nw i2 p2 n).2 = [] := by
          rw [hl]; simp [buildHyperedge]
        rw [processNet_empty nw i2 p2 _ n hpg (by rw [hedge]; rfl)]
        refine ⟨rfl, rfl, rfl, List.mem_cons_self _ _, ?_, ?_⟩
        · intro _ ⟨cp, hcp, hrole⟩
          have := (mem_scanNet_loads nw i2 p2 n v).2 ⟨cp, hcp, hrole⟩
          rw [hl] at this
          simp at this
        · intro hno
          obtain ⟨cp, hcp, hrole⟩ := hdrv
          exact absurd hrole (hno cp hcp)
      · -- a driver and a load, both `v`
        have hedge : buildHyperedge (scanNet nw i2 p2 n).1 (scanNet nw i2 p2 n).2 = [v] := by
          rw [hl, hd]
          have : v ≠ -1 := by omega
          simp [buildHyperedge, this]
        rw [processNet_single nw i2 p2 _ n hpg (by rw [hedge]; rfl)]
        refine ⟨rfl, rfl, rfl, List.mem_cons_self _ _, ?_, ?_⟩
        · intro _ _
          exact ⟨rfl, rfl⟩
        · intro hno
          obtain ⟨cp, hcp, hrole⟩ := hdrv
          exact absurd hrole (hno cp hcp)

/-- Witness for the amended C4: on `designSelfLoop` the only net reaches
vertex 0 as driver and as load, and the first visit counts it as
skipped-single; on `designOnePin` with an input pin no pin drives, and the
first visit counts the net as skipped-no-driver. -/
theorem visitPin_single_vertex_net_witness :
    ((visitPin designSelfLoop (extractVertices designSelfLoop 0).inst_to_id
        (extractVertices designSelfLoop 0).port_to_id NetScan.init 101).skipped_single =
        NetScan.init.skipped_single + 1 ∧
      (visitPin designSelfLoop (extractVertices designSelfLoop 0).inst_to_id
        (extractVertices designSelfLoop 0).port_to_id NetScan.init 101).skipped_no_driver =
        NetScan.init.skipped_no_driver) ∧
    ((visitPin (designOnePin { isInput := true, isOutput := false })
        (extractVertices (designOnePin { isInput := true, isOutput := false }) 0).inst_to_id
        (extractVertices (designOnePin { isInput := true, isOutput := false }) 0).port_to_id
        NetScan.init 101).skipped_single = NetScan.init.skipped_single ∧
      (visitPin (designOnePin { isInput := true, isOutput := false })
        (extractVertices (designOnePin { isInput := true, isOutput := false }) 0).inst_to_id
        (extractVertices (designOnePin { isInput := true, isOutput := false }) 0).port_to_id
        NetScan.init 101).skipped_no_driver = NetScan.init.skipped_no_driver + 1) :=
  ⟨((visitPin_single_vertex_net designSelfLoop 0 NetScan.init 101 1 1 0 rfl rfl rfl rfl
      (by decide) (by decide)).2 (by decide)).2.2.2.2.1 (by decide) (by decide),
    ((visitPin_single_vertex_net (designOnePin { isInput := true, isOutput := false }) 0
      NetScan.init 101 1 1 0 rfl rfl rfl rfl (by decide) (by decide)).2
        (by decide)).2.2.2.2.2 (by decide)⟩

/-- Claim C5, the code at the failing input: in the design `designOnePin`
with an output pin the only net is neither power nor ground, the
connected-pin loop finds its driver (vertex 0, so `driver_id` is not `-1`),
and yet the net is counted as skipped-no-driver. -/
theorem skipped_no_driver_counts_driven_net :
    (designOnePin { isInput := false, isOutput := true }).isPower 1 = false ∧
    (designOnePin { isInput := false, isOutput := true }).isGround 1 = false ∧
    (linkedNetScan (designOnePin { isInput := false, isOutput := true }) 0).processed_nets =
      [1] ∧
    (scanNet (designOnePin { isInput := false, isOutput := true })
      (extractVertices (designOnePin { isInput := false, isOutput := true }) 0).inst_to_id
      (extractVertices (designOnePin { isInput := false, isOutput := true }) 0).port_to_id
      1).1 = 0 ∧
    (linkedNetScan (designOnePin { isInput := false, isOutput := true }) 0).skipped_no_driver =
      1 ∧
    (linkedNetScan (designOnePin { isInput := false, isOutput := true }) 0).skipped_single =
      0 := by
  decide

/-! ## Step 3 in closed form -/


theorem mem_firstOccurrencesFrom (seen l : List Nat) (x : Nat) :
    x ∈ firstOccurrencesFrom seen l ↔ x ∈ seen ∨ x ∈ l := by
  unfold firstOccurrencesFrom
  induction l generalizing seen with
  | nil => simp
  | cons y ys ih =>
    rw [List.foldl_cons, ih]
    by_cases hy : y ∈ seen
    · rw [if_pos hy, List.mem_cons]
      constructor
      · rintro (h | h)
        · exact Or.inl h
        · exact Or.inr (Or.inr h)
      · rintro (h | rfl | h)
        · exact Or.inl h
        · exact Or.inl hy
        · exact Or.inr h
    · rw [if_neg hy, List.mem_append, List.mem_singleton, List.mem_cons]
      tauto

theorem firstOccurrencesFrom_nodup (seen l : List Nat) (h : seen.Nodup) :
    (firstOccurrencesFrom seen l).Nodup := by
  unfold firstOccurrencesFrom
  induction l generalizing seen with
  | nil => exact h
  | cons y ys ih =>
    rw [List.foldl_cons]
    apply ih
    split_ifs with hy
    · exact h
    · rw [List.nodup_append]
      refine ⟨h, List.nodup_singleton y, ?_⟩
      intro a ha hb
      rw [List.mem_singleton] at hb
      subst hb
      exact hy ha

/-- Every discovered net is met by the traversal and conversely. -/
theorem mem_discoveredNets (nw : Network) (i2 : List (Nat × Int)) (n : StaNet) :
    n ∈ discoveredNets nw i2 ↔ n ∈ reachedNets nw i2 := by
  unfold discoveredNets firstOccurrences
  rw [mem_firstOccurrencesFrom]
  simp

theorem discoveredNets_nodup (nw : Network) (i2 : List (Nat × Int)) :
    (discoveredNets nw i2).Nodup :=
  firstOccurrencesFrom_nodup [] _ List.nodup_nil

theorem visitPin_eq (nw : Network) (i2 p2 : List (Nat × Int)) (st : NetScan) (pin : StaPin) :
    visitPin nw i2 p2 st pin =
      match (nw.net pin).map nw.highestConnectedNet with
      | none => st
      | some n => visitNet nw i2 p2 st n := by
  unfold visitPin visitNet
  cases nw.net pin <;> rfl

theorem foldl_visitPin (nw : Network) (i2 p2 : List (Nat × Int)) (pins : List StaPin)
    (st : NetScan) :
    pins.foldl (visitPin nw i2 p2) st =
      (pins.filterMap fun pin => (nw.net pin).map nw.highestConnectedNet).foldl
        (visitNet nw i2 p2) st := by
  induction pins generalizing st with
  | nil => rfl
  | cons pin rest ih =>
    rw [List.foldl_cons, ih, visitPin_eq, List.filterMap_cons]
    cases (nw.net pin).map nw.highestConnectedNet <;> rfl

/-- Step 3 is the net step folded over the canonical nets met by the
traversal. -/
theorem extractNets_eq_foldl (nw : Network) (i2 p2 : List (Nat × Int)) :
    extractNets nw i2 p2 = (reachedNets nw i2).foldl (visitNet nw i2 p2) NetScan.init := by
  unfold extractNets reachedNets
  generalize NetScan.init = st
  induction nw.leafInstanceIterator generalizing st with
  | nil => rfl
  | cons x xs ih =>
    rw [List.foldl_cons, ih, List.flatMap_cons, List.foldl_append]
    congr 1
    unfold visitLeafPins
    cases mapFind i2 x with
    | none => rfl
    | some id => exact foldl_visitPin nw i2 p2 _ st

/-- The net step on a state in closed form: a net met before changes
nothing, a new net is appended to the discovered ones. -/
theorem visitNet_closedForm (nw : Network) (i2 p2 : List (Nat × Int)) (seen : List StaNet)
    (st : NetScan) (n : StaNet) (h : st.ClosedForm nw i2 p2 seen) :
    (visitNet nw i2 p2 st n).ClosedForm nw i2 p2 (if n ∈ seen then seen else seen ++ [n]) := by
  obtain ⟨hproc, hnets, hid, hmap, hpow, hsingle, hnodrv⟩ := h
  have hmem : n ∈ st.processed_nets ↔ n ∈ seen := by rw [hproc, List.mem_reverse]
  unfold visitNet
  by_cases hn : n ∈ seen
  · rw [if_pos (hmem.2 hn), if_pos hn]
    exact ⟨hproc, hnets, hid, hmap, hpow, hsingle, hnodrv⟩
  · rw [if_neg (fun hc => hn (hmem.1 hc)), if_neg hn]
    unfold NetScan.ClosedForm
    simp only [List.filter_append, List.reverse_append, List.reverse_cons, List.reverse_nil,
      List.nil_append, List.singleton_append, numbered_append, numberedMap_append,
      List.length_append]
    by_cases hp : (nw.isPower n || nw.isGround n) = true
    · have hout : netOutcome nw i2 p2 n = NetOutcome.skippedPower := by
        unfold netOutcome; rw [if_pos hp]
      rw [processNet_power nw i2 p2 _ n hp]
      simp [List.filter_cons, hout, numbered, numberedMap, hproc, hnets, hid, hmap, hpow,
        hsingle, hnodrv]
    · rw [Bool.not_eq_true] at hp
      by_cases h2 : 2 ≤ (hyperedgeOf nw i2 p2 n).length
      · have hout : netOutcome nw i2 p2 n = NetOutcome.emitted := by
          unfold netOutcome; rw [hp]; simp [h2]
        rw [processNet_emit nw i2 p2 _ n hp h2]
        simp [List.filter_cons, hout, numbered, numberedMap, hproc, hnets, hid, hmap, hpow,
          hsingle, hnodrv, netRecord, hyperedgeOf, mapSet]
      · by_cases h1 : (hyperedgeOf nw i2 p2 n).length = 1
        · have hout : netOutcome nw i2 p2 n = NetOutcome.skippedSingle := by
            unfold netOutcome; rw [hp]; simp [h1]
          rw [processNet_single nw i2 p2 _ n hp h1]
          simp [List.filter_cons, hout, numbered, numberedMap, hproc, hnets, hid, hmap, hpow,
            hsingle, hnodrv]
        · have hout : netOutcome nw i2 p2 n = NetOutcome.skippedNoDriver := by
            unfold netOutcome; rw [hp]; simp [h2, h1]
          rw [processNet_empty nw i2 p2 _ n hp (by unfold hyperedgeOf at h1 h2; omega)]
          simp [List.filter_cons, hout, numbered, numberedMap, hproc, hnets, hid, hmap, hpow,
            hsingle, hnodrv]

theorem foldl_visitNet_closedForm (nw : Network) (i2 p2 : List (Nat × Int)) (l : List StaNet)
    (seen : List StaNet) (st : NetScan) (h : st.ClosedForm nw i2 p2 seen) :
    (l.foldl (visitNet nw i2 p2) st).ClosedForm nw i2 p2 (firstOccurrencesFrom seen l) := by
  induction l generalizing st seen with
  | nil => exact h
  | cons x xs ih =>
    unfold firstOccurrencesFrom
    rw [List.foldl_cons, List.foldl_cons]
    exact ih _ _ (visitNet_closedForm nw i2 p2 seen st x h)

/-- Step 3 in closed form: the emitted nets are the discovered nets whose
outcome is `emitted`, in discovery order, with the ids 0, 1, 2, ...; every
counter counts the discovered nets of its outcome. -/
theorem extractNets_closedForm (nw : Network) (i2 p2 : List (Nat × Int)) :
    (extractNets nw i2 p2).ClosedForm nw i2 p2 (discoveredNets nw i2) := by
  rw [extractNets_eq_foldl]
  apply foldl_visitNet_closedForm
  simp [NetScan.ClosedForm, NetScan.init, numbered, numberedMap]

/-! ## Emitted nets -/


theorem mem_numbered {α β : Type} (mk : Int → α → β) (s : Int) (l : List α) (x : β)
    (h : x ∈ numbered mk s l) : ∃ (id : Int) (a : α), a ∈ l ∧ x = mk id a := by
  induction l generalizing s with
  | nil => simp [numbered] at h
  | cons y ys ih =>
    rw [numbered, List.mem_cons] at h
    rcases h with rfl | h
    · exact ⟨s, y, List.mem_cons_self _ _, rfl⟩
    · obtain ⟨id, a, ha, hx⟩ := ih (s + 1) h
      exact ⟨id, a, List.mem_cons_of_mem _ ha, hx⟩

/-- The nets left by `extractNetlistData` on a linked design are those of
step 3 run with the lookups of steps 1 and 2. -/
theorem extractNetlistData_nets_linked (a : OpenStaAdapter) (nw : Network)
    (top_inst : StaInstance) (h : a.sta_impl_ = some nw)
    (ht : nw.topInstance = some top_inst) :
    a.extractNetlistData.nets_ =
      (extractNets nw (extractVertices nw top_inst).inst_to_id
        (extractVertices nw top_inst).port_to_id).nets_ := by
  unfold OpenStaAdapter.extractNetlistData
  rw [h]; dsimp only; rw [ht]; rfl

/-- Claim C7: on a linked design every net emitted by `extractNetlistData`
comes from a canonical net met by the traversal that is neither power nor
ground and for which a driver was found; the first member of its membership
list is that driver (the vertex of the last connected pin taken as driver)
and the remaining members are exactly the vertices of the pins taken as load
that differ from the driver, each once. -/
theorem extractNetlistData_driver_first (a : OpenStaAdapter) (nw : Network)
    (top_inst : StaInstance) (h : a.sta_impl_ = some nw)
    (ht : nw.topInstance = some top_inst) :
    ∀ net ∈ a.extractNetlistData.nets_,
      ∃ n ∈ reachedNets nw (extractVertices nw top_inst).inst_to_id,
        nw.isPower n = false ∧ nw.isGround n = false ∧ net.name = nw.netPathName n ∧
        ∃ (d : Int) (rest : List Int),
          ((nw.connectedPinIterator n).filterMap fun cp =>
            (pinRole nw (extractVertices nw top_inst).inst_to_id
              (extractVertices nw top_inst).port_to_id cp).driverId).getLast? = some d ∧
          net.instances = d :: rest ∧ rest.Nodup ∧
          ∀ v, v ∈ rest ↔
            v ≠ d ∧ ∃ cp ∈ nw.connectedPinIterator n,
              pinRole nw (extractVertices nw top_inst).inst_to_id
                (extractVertices nw top_inst).port_to_id cp = PinRole.load v := by
  rw [extractNetlistData_nets_linked a nw top_inst h ht]
  generalize (extractVertices nw top_inst).inst_to_id = i2
  generalize (extractVertices nw top_inst).port_to_id = p2
  intro net hnet
  rw [(extractNets_closedForm nw i2 p2).2.1] at hnet
  obtain ⟨id, n, hn, rfl⟩ := mem_numbered _ _ _ _ hnet
  rw [List.mem_filter] at hn
  obtain ⟨hdisc, hout⟩ := hn
  rw [decide_eq_true_eq] at hout
  -- the outcome `emitted` means: not power or ground, at least two members
  have hpg : (nw.isPower n || nw.isGround n) = false ∧ 2 ≤ (hyperedgeOf nw i2 p2 n).length := by
    unfold netOutcome at hout
    split_ifs at hout with h1 h2
    · rw [Bool.not_eq_true] at h1; exact ⟨h1, h2⟩
  rw [Bool.or_eq_false_iff] at hpg
  refine ⟨n, (mem_discoveredNets nw i2 n).1 hdisc, hpg.1.1, hpg.1.2, rfl, ?_⟩
  -- the guard of line 479 held
  have hguard : (scanNet nw i2 p2 n).1 ≠ -1 ∧ (scanNet nw i2 p2 n).2 ≠ [] := by
    by_contra hc
    have := hpg.2
    unfold hyperedgeOf buildHyperedge at this
    rw [if_neg hc] at this
    simp at this
  have hedge : hyperedgeOf nw i2 p2 n =
      (scanNet nw i2 p2 n).1 ::
        (scanNet nw i2 p2 n).2.filter (fun load_id => load_id ≠ (scanNet nw i2 p2 n).1) := by
    unfold hyperedgeOf buildHyperedge
    rw [if_pos hguard]
  refine ⟨(scanNet nw i2 p2 n).1, _, ?_, hedge, ?_, ?_⟩
  · have hd := scanNet_driver nw i2 p2 n
    cases hl : ((nw.connectedPinIterator n).filterMap fun cp =>
        (pinRole nw i2 p2 cp).driverId).getLast? with
    | none =>
      rw [hl] at hd
      exact absurd hd hguard.1
    | some d =>
      rw [hl] at hd
      rw [hd]; rfl
  · exact (List.Pairwise.imp (fun hab => ne_of_lt hab) (scanNet_sorted nw i2 p2 n)).filter _
  · intro v
    rw [List.mem_filter, mem_scanNet_loads]
    simp only [ne_eq, decide_not, Bool.not_eq_true', decide_eq_false_iff_not]
    tauto

/-- Witness for C7 on `designA`: the net `n2` is emitted with the driver `u1`
(vertex 3) first, followed by the load `u3` (vertex 4); the pin of `u2`, which
has no library cell, contributes nothing. -/
theorem extractNetlistData_driver_first_witness :
    (⟨"n2", 1, [3, 4], [], 1⟩ : Net) ∈ (OpenStaAdapter.fresh designA).extractNetlistData.nets_ ∧
    ∃ n ∈ reachedNets designA (extractVertices designA 0).inst_to_id,
      designA.isPower n = false ∧ designA.isGround n = false ∧
      (⟨"n2", 1, [3, 4], [], 1⟩ : Net).name = designA.netPathName n ∧
      ∃ (d : Int) (rest : List Int),
        ((designA.connectedPinIterator n).filterMap fun cp =>
          (pinRole designA (extractVertices designA 0).inst_to_id
            (extractVertices designA 0).port_to_id cp).driverId).getLast? = some d ∧
        (⟨"n2", 1, [3, 4], [], 1⟩ : Net).instances = d :: rest ∧ rest.Nodup ∧
        ∀ v, v ∈ rest ↔
          v ≠ d ∧ ∃ cp ∈ designA.connectedPinIterator n,
            pinRole designA (extractVertices designA 0).inst_to_id
              (extractVertices designA 0).port_to_id cp = PinRole.load v :=
  ⟨by decide,
    extractNetlistData_driver_first (OpenStaAdapter.fresh designA) designA 0 rfl rfl
      ⟨"n2", 1, [3, 4], [], 1⟩ (by decide)⟩

/-! ## Net ids and the hyperedges of the built hypergraph -/


/-- Every net left by `extractNetlistData` is well formed, whichever branch
filled `nets_`. -/
theorem extractNetlistData_wellFormed (a : OpenStaAdapter) (nw : Network)
    (h : a.sta_impl_ = some nw) : ∀ net ∈ a.extractNetlistData.nets_, net.WellFormed := by
  unfold OpenStaAdapter.extractNetlistData
  rw [h]
  dsimp only
  cases nw.topInstance with
  | none => exact dummyNets_wellFormed
  | some top_inst => exact extractNets_wellFormed nw _ _

/-- Ids and weights of the nets left by `extractNetlistData`. -/
theorem extractNetlistData_id_weight (a : OpenStaAdapter) (nw : Network)
    (h : a.sta_impl_ = some nw) (i : Nat) (net : Net)
    (hget : a.extractNetlistData.nets_[i]? = some net) : net.id = (i : Int) ∧ net.weight = 1 := by
  unfold OpenStaAdapter.extractNetlistData at hget
  rw [h] at hget
  dsimp only at hget
  cases ht : nw.topInstance with
  | none =>
    rw [ht] at hget
    dsimp only at hget
    have hlt : i < 8 := (List.getElem?_eq_some.1 hget).1
    have hall : ∀ j : Fin 8, (dummyNets[j.1]?).map (fun net => (net.id, net.weight)) =
        some ((j.1 : Int), 1) := by decide
    have := hall ⟨i, hlt⟩
    rw [hget] at this
    simp only [Option.map_some', Option.some.injEq, Prod.mk.injEq] at this
    exact this
  | some top_inst =>
    rw [ht] at hget
    dsimp only at hget
    unfold linkedNetScan at hget
    rw [(extractNets_closedForm nw _ _).2.1, numbered_getElem?] at hget
    cases hn : (List.filter (fun n => decide (netOutcome nw (extractVertices nw top_inst).inst_to_id
        (extractVertices nw top_inst).port_to_id n = NetOutcome.emitted))
        (discoveredNets nw (extractVertices nw top_inst).inst_to_id))[i]? with
    | none => rw [hn] at hget; simp at hget
    | some n =>
      rw [hn] at hget
      simp only [Option.map_some', Option.some.injEq] at hget
      rw [← hget]
      simp [netRecord]

/-- Claim C8: the nets left by `extractNetlistData` carry the ids 0, 1, 2, ...
(`nets_[i].id = i`) and the weight 1; on a linked design they are the records
of the discovered canonical nets that end as emitted, in discovery order; and
`buildHypergraph` drops none of them: hyperedge `i` of the built hypergraph
has the membership and the weight of `nets_[i]`. -/
theorem extractNetlistData_net_ids (a : OpenStaAdapter) (nw : Network)
    (h : a.sta_impl_ = some nw) :
    (∀ (i : Nat) (net : Net), a.extractNetlistData.nets_[i]? = some net →
        net.id = (i : Int) ∧ net.weight = 1) ∧
      (∀ top_inst, nw.topInstance = some top_inst →
        a.extractNetlistData.nets_ =
          numbered
            (netRecord nw (extractVertices nw top_inst).inst_to_id
              (extractVertices nw top_inst).port_to_id) 0
            ((discoveredNets nw (extractVertices nw top_inst).inst_to_id).filter fun n =>
              netOutcome nw (extractVertices nw top_inst).inst_to_id
                (extractVertices nw top_inst).port_to_id n = NetOutcome.emitted)) ∧
      (∀ hg, a.extractNetlistData.buildHypergraph = some hg →
        hg.GetNumHyperedges = a.extractNetlistData.nets_.length ∧
          (hg.hyperedges = a.extractNetlistData.nets_.map fun net => net.instances) ∧
          (hg.hyperedge_weights = a.extractNetlistData.nets_.map fun net => [net.weight]) ∧
          ∀ (i : Nat) (net : Net), a.extractNetlistData.nets_[i]? = some net →
            hg.Vertices i = net.instances ∧ hg.hyperedgeWeight i = net.weight ∧
              hg.hyperedgeWeight i = 1) := by
  refine ⟨extractNetlistData_id_weight a nw h, ?_, ?_⟩
  · intro top_inst ht
    rw [extractNetlistData_nets_linked a nw top_inst h ht]
    exact (extractNets_closedForm nw _ _).2.1
  · intro hg hhg
    have hkeep : (a.extractNetlistData.nets_.filter fun net =>
        decide (net.instances.length ≥ 2)) = a.extractNetlistData.nets_ := by
      rw [List.filter_eq_self]
      intro net hnet
      exact decide_eq_true (extractNetlistData_wellFormed a nw h net hnet).1
    unfold OpenStaAdapter.buildHypergraph at hhg
    split_ifs at hhg
    simp only [Option.some.injEq] at hhg
    rw [hkeep] at hhg
    subst hhg
    refine ⟨by simp [Hypergraph.GetNumHyperedges], rfl, rfl, ?_⟩
    intro i net hget
    have hw := (extractNetlistData_id_weight a nw h i net hget).2
    simp [Hypergraph.Vertices, Hypergraph.hyperedgeWeight, List.getD, List.getElem?_map, hget, hw]

/-- Witness for C8 on `designA`: net 2 is the third discovered net `d[0]`,
and hyperedge 2 of the built hypergraph has its members `[4, 1]` and its
weight 1. -/
theorem extractNetlistData_net_ids_witness :
    (OpenStaAdapter.fresh designA).sta_impl_ = some designA ∧
    discoveredNets designA (extractVertices designA 0).inst_to_id = [1, 2, 3] ∧
    (OpenStaAdapter.fresh designA).extractNetlistData.nets_[2]? =
      some ⟨"d[0]", 2, [4, 1], [], 1⟩ ∧
    ((⟨"d[0]", 2, [4, 1], [], 1⟩ : Net).id = ((2 : Nat) : Int) ∧
      (⟨"d[0]", 2, [4, 1], [], 1⟩ : Net).weight = 1) ∧
    ∃ hg, (OpenStaAdapter.fresh designA).extractNetlistData.buildHypergraph = some hg ∧
      hg.Vertices 2 = [4, 1] ∧ hg.hyperedgeWeight 2 = 1 :=
  ⟨rfl, by decide, by decide,
    (extractNetlistData_net_ids (OpenStaAdapter.fresh designA) designA rfl).1 2
      ⟨"d[0]", 2, [4, 1], [], 1⟩ (by decide),
    { vertex_dimensions := 1, hyperedge_dimensions := 1, placement_dimensions := 0,
      hyperedges := [[0, 3], [3, 4], [4, 1]], vertex_weights := [[1], [1], [1], [2], [3]],
      hyperedge_weights := [[1], [1], [1]], fixed_attr := [], community_attr := [],
      placement_attr := [] },
    by decide,
    (((extractNetlistData_net_ids (OpenStaAdapter.fresh designA) designA rfl).2.2 _
      (by decide)).2.2.2 2 ⟨"d[0]", 2, [4, 1], [], 1⟩ (by decide)).1,
    (((extractNetlistData_net_ids (OpenStaAdapter.fresh designA) designA rfl).2.2 _
      (by decide)).2.2.2 2 ⟨"d[0]", 2, [4, 1], [], 1⟩ (by decide)).2.1⟩

/-! ## The partition vector -/


/-- A left fold keeps a property that every step on an element of the list
keeps. -/
theorem foldl_preserves_mem {α β : Type} (P : β → Prop) (f : β → α → β) (l : List α) (b : β)
    (h0 : P b) (hstep : ∀ b a, a ∈ l → P b → P (f b a)) : P (l.foldl f b) := by
  induction l generalizing b with
  | nil => exact h0
  | cons x xs ih =>
    exact ih (f b x) (hstep b x (List.mem_cons_self _ _) h0)
      (fun b a ha hb => hstep b a (List.mem_cons_of_mem _ ha) hb)

/-- The partition picked by the minimum scan is one of the `num_parts_`
partitions. -/
theorem findBestPart_lt (part_weights : List ℚ) (num_parts_ : Int) (h : 1 ≤ num_parts_) :
    ((findBestPart part_weights num_parts_ : Nat) : Int) < num_parts_ := by
  have hlt : findBestPart part_weights num_parts_ < num_parts_.toNat := by
    unfold findBestPart
    apply foldl_preserves_mem (fun acc : Nat × ℚ => acc.1 < num_parts_.toNat)
    · show 0 < num_parts_.toNat
      omega
    · intro acc p hp hacc
      rw [List.mem_range'_1] at hp
      split_ifs
      · show p < num_parts_.toNat
        omega
      · exact hacc
  omega

/-- `evaluatePartition` does not write `partition_`. -/
theorem evaluatePartition_partition (c : TritonPartCore) :
    c.evaluatePartition.partition_ = c.partition_ := by
  unfold TritonPartCore.evaluatePartition
  cases c.hypergraph_ with
  | none => rfl
  | some hg =>
    dsimp only
    split_ifs <;> rfl

/-- The partition vector that `partition` leaves: the placement loop run on
the vector of `GetNumVertices()` zeros. -/
theorem partition_eq (R : RandomEngine) (c : TritonPartCore) (hg : Hypergraph)
    (hhg : c.hypergraph_ = some hg) :
    (c.partition R).2 = true ∧
      (c.partition R).1.partition_ =
        (simpleScan R hg c.num_parts_ c.balance_ c.seed_
          (List.replicate hg.GetNumVertices 0)).partition_ := by
  unfold TritonPartCore.partition
  rw [hhg]
  dsimp only
  refine ⟨rfl, ?_⟩
  rw [evaluatePartition_partition]
  split_ifs <;>
    simp [TritonPartCore.performMultilevelPartition, TritonPartCore.performSimplePartition, hhg]

/-- One placement keeps the length of the partition vector and keeps every
entry inside `[0, num_parts_)`, in the greedy branch and in the random
branch. -/
theorem placeVertex_in_range (R : RandomEngine) (hR : R.InRange) (hg : Hypergraph)
    (num_parts_ : Int) (balance_ target_weight : ℚ) (hparts : 1 ≤ num_parts_)
    (st : SimpleScan R.State) (v : Nat)
    (h : ∀ p ∈ st.partition_, 0 ≤ p ∧ p < num_parts_) :
    (placeVertex R hg num_parts_ balance_ target_weight st v).partition_.length =
        st.partition_.length ∧
      ∀ p ∈ (placeVertex R hg num_parts_ balance_ target_weight st v).partition_,
        0 ≤ p ∧ p < num_parts_ := by
  unfold placeVertex
  dsimp only
  split_ifs
  · refine ⟨List.length_set _ _ _, ?_⟩
    intro p hp
    rcases List.mem_or_eq_of_mem_set hp with hp | rfl
    · exact h p hp
    · exact ⟨Int.natCast_nonneg _, findBestPart_lt _ _ hparts⟩
  · refine ⟨List.length_set _ _ _, ?_⟩
    intro p hp
    rcases List.mem_or_eq_of_mem_set hp with hp | rfl
    · exact h p hp
    · have := hR 0 (num_parts_ - 1) st.gen (by omega)
      omega

/-- Claim C10: for every hypergraph and every `num_parts_ ≥ 1` (the random
draw obeying the contract of `std::uniform_int_distribution`), `partition`
succeeds and leaves a partition vector with exactly one entry per vertex,
every entry in `[0, num_parts_)`, whichever branch placed the vertex. -/
theorem partition_entries_in_range (R : RandomEngine) (hR : R.InRange) (c : TritonPartCore)
    (hg : Hypergraph) (hhg : c.hypergraph_ = some hg) (hparts : 1 ≤ c.num_parts_) :
    (c.partition R).2 = true ∧
      (c.partition R).1.getPartitionAssignment.length = hg.GetNumVertices ∧
      (∀ p ∈ (c.partition R).1.getPartitionAssignment, 0 ≤ p ∧ p < c.num_parts_) ∧
      ∀ v : Nat, v < hg.GetNumVertices →
        ∃ p, (c.partition R).1.getPartitionAssignment[v]? = some p ∧ 0 ≤ p ∧ p < c.num_parts_ := by
  obtain ⟨hres, hpart⟩ := partition_eq R c hg hhg
  unfold TritonPartCore.getPartitionAssignment
  rw [hpart]
  have hinv : (simpleScan R hg c.num_parts_ c.balance_ c.seed_
      (List.replicate hg.GetNumVertices 0)).partition_.length = hg.GetNumVertices ∧
      ∀ p ∈ (simpleScan R hg c.num_parts_ c.balance_ c.seed_
        (List.replicate hg.GetNumVertices 0)).partition_, 0 ≤ p ∧ p < c.num_parts_ := by
    unfold simpleScan
    apply foldl_preserves (fun st : SimpleScan R.State =>
      st.partition_.length = hg.GetNumVertices ∧
        ∀ p ∈ st.partition_, 0 ≤ p ∧ p < c.num_parts_)
    · refine ⟨List.length_replicate _ _, ?_⟩
      intro p hp
      rw [List.eq_of_mem_replicate hp]
      omega
    · intro st v hst
      obtain ⟨hlen, hin⟩ := placeVertex_in_range R hR hg c.num_parts_ c.balance_ _ hparts st v
        hst.2
      exact ⟨by rw [hlen, hst.1], hin⟩
  refine ⟨hres, hinv.1, hinv.2, ?_⟩
  intro v hv
  have hlt : v < (simpleScan R hg c.num_parts_ c.balance_ c.seed_
      (List.replicate hg.GetNumVertices 0)).partition_.length := by rw [hinv.1]; exact hv
  exact ⟨_, List.getElem?_eq_getElem hlt, hinv.2 _ (List.getElem_mem _)⟩

theorem lcgEngine_inRange : lcgEngine.InRange := by
  intro a b (g : Nat) hab
  show a ≤ a + ((g % (b - a + 1).toNat : Nat) : Int) ∧
    a + ((g % (b - a + 1).toNat : Nat) : Int) ≤ b
  have hpos : 0 < (b - a + 1).toNat := by omega
  have hmod := Nat.mod_lt g hpos
  omega

/-- Witness for C10: scenario A with balance 1/2, where the third vertex does
not fit the lightest partition and is placed by the random branch. -/
theorem partition_entries_in_range_witness :
    ((TritonPartCore.ofHypergraph hypergraphA 2 (1 / 2) 7).partition lcgEngine).1.partition_ =
      [0, 1, 1, 0] ∧
    ((TritonPartCore.ofHypergraph hypergraphA 2 (1 / 2) 7).partition
      lcgEngine).1.getPartitionAssignment.length = hypergraphA.GetNumVertices ∧
    ∀ p ∈ ((TritonPartCore.ofHypergraph hypergraphA 2 (1 / 2) 7).partition
      lcgEngine).1.getPartitionAssignment, 0 ≤ p ∧ p < 2 :=
  ⟨by with_unfolding_all decide,
    (partition_entries_in_range lcgEngine lcgEngine_inRange
      (TritonPartCore.ofHypergraph hypergraphA 2 (1 / 2) 7) hypergraphA rfl (by decide)).2.1,
    (partition_entries_in_range lcgEngine lcgEngine_inRange
      (TritonPartCore.ofHypergraph hypergraphA 2 (1 / 2) 7) hypergraphA rfl (by decide)).2.2.1⟩

/-! ## Determinism of the placement -/


/-- Two runs of one placement that agree on the generator, on the partition
weights and on the entries below `v` agree on them afterwards, and on entry
`v` as well. -/
theorem placeVertex_agree (R : RandomEngine) (hg : Hypergraph) (num_parts_ : Int)
    (balance_ target_weight : ℚ) (st1 st2 : SimpleScan R.State) (v : Nat)
    (hgen : st1.gen = st2.gen) (hw : st1.part_weights = st2.part_weights)
    (hlen : st1.partition_.length = st2.partition_.length)
    (hlow : ∀ i, i < v → st1.partition_[i]? = st2.partition_[i]?) :
    (placeVertex R hg num_parts_ balance_ target_weight st1 v).gen =
        (placeVertex R hg num_parts_ balance_ target_weight st2 v).gen ∧
      (placeVertex R hg num_parts_ balance_ target_weight st1 v).part_weights =
        (placeVertex R hg num_parts_ balance_ target_weight st2 v).part_weights ∧
      (placeVertex R hg num_parts_ balance_ target_weight st1 v).partition_.length =
        (placeVertex R hg num_parts_ balance_ target_weight st2 v).partition_.length ∧
      ∀ i, i < v + 1 →
        (placeVertex R hg num_parts_ balance_ target_weight st1 v).partition_[i]? =
          (placeVertex R hg num_parts_ balance_ target_weight st2 v).partition_[i]? := by
  unfold placeVertex
  dsimp only
  rw [hgen, hw]
  split_ifs
  · refine ⟨rfl, rfl, by rw [List.length_set, List.length_set, hlen], ?_⟩
    intro i hi
    rw [List.getElem?_set, List.getElem?_set, hlen]
    split_ifs
    · rfl
    · rfl
    · exact hlow i (by omega)
  · refine ⟨rfl, rfl, by rw [List.length_set, List.length_set, hlen], ?_⟩
    intro i hi
    rw [List.getElem?_set, List.getElem?_set, hlen]
    split_ifs
    · rfl
    · rfl
    · exact hlow i (by omega)

/-- The placement loop over the vertices `0, ..., n - 1`, run from two states
that agree on the generator and the partition weights, ends in states that
agree on them and on the first `n` entries of the partition vector. -/
theorem foldl_placeVertex_agree (R : RandomEngine) (hg : Hypergraph) (num_parts_ : Int)
    (balance_ target_weight : ℚ) (st1 st2 : SimpleScan R.State) (n : Nat)
    (hgen : st1.gen = st2.gen) (hw : st1.part_weights = st2.part_weights)
    (hlen : st1.partition_.length = st2.partition_.length) :
    ((List.range n).foldl (placeVertex R hg num_parts_ balance_ target_weight) st1).gen =
        ((List.range n).foldl (placeVertex R hg num_parts_ balance_ target_weight) st2).gen ∧
      ((List.range n).foldl (placeVertex R hg num_parts_ balance_ target_weight)
          st1).part_weights =
        ((List.range n).foldl (placeVertex R hg num_parts_ balance_ target_weight)
          st2).part_weights ∧
      ((List.range n).foldl (placeVertex R hg num_parts_ balance_ target_weight)
          st1).partition_.length =
        ((List.range n).foldl (placeVertex R hg num_parts_ balance_ target_weight)
          st2).partition_.length ∧
      (((List.range n).foldl (placeVertex R hg num_parts_ balance_ target_weight)
          st1).partition_.length = st1.partition_.length) ∧
      ∀ i, i < n →
        ((List.range n).foldl (placeVertex R hg num_parts_ balance_ target_weight)
            st1).partition_[i]? =
          ((List.range n).foldl (placeVertex R hg num_parts_ balance_ target_weight)
            st2).partition_[i]? := by
  induction n with
  | zero =>
    refine ⟨hgen, hw, hlen, rfl, ?_⟩
    intro i hi
    omega
  | succ k ih =>
    obtain ⟨h1, h2, h3, h4, h5⟩ := ih
    rw [List.range_succ, List.foldl_append, List.foldl_append, List.foldl_cons, List.foldl_nil,
      List.foldl_cons, List.foldl_nil]
    obtain ⟨g1, g2, g3, g4⟩ := placeVertex_agree R hg num_parts_ balance_ target_weight _ _ k
      h1 h2 h3 h5
    refine ⟨g1, g2, g3, ?_, g4⟩
    rw [← h4]
    unfold placeVertex
    dsimp only
    split_ifs <;> exact List.length_set _ _ _

/-- Claim C9: `performSimplePartition` is deterministic. Two `TritonPartCore`
objects that hold the same hypergraph, the same `num_parts_ ≥ 1`, the same
balance factor and the same seed, and that may differ in everything else
(stale partition vector, metrics, flags), get the same partition vector from
`partition`; and from `performSimplePartition` itself when their partition
vectors have one entry per vertex, as `partition` arranges. -/
theorem partition_deterministic (R : RandomEngine) (c1 c2 : TritonPartCore) (hg : Hypergraph)
    (h1 : c1.hypergraph_ = some hg) (h2 : c2.hypergraph_ = some hg)
    (_hparts : 1 ≤ c1.num_parts_) (hn : c2.num_parts_ = c1.num_parts_)
    (hb : c2.balance_ = c1.balance_) (hs : c2.seed_ = c1.seed_) :
    (c1.partition R).1.getPartitionAssignment = (c2.partition R).1.getPartitionAssignment ∧
      (c1.partition_.length = hg.GetNumVertices → c2.partition_.length = hg.GetNumVertices →
        (c1.performSimplePartition R).partition_ = (c2.performSimplePartition R).partition_) := by
  refine ⟨?_, ?_⟩
  · unfold TritonPartCore.getPartitionAssignment
    rw [(partition_eq R c1 hg h1).2, (partition_eq R c2 hg h2).2, hn, hb, hs]
  · intro hl1 hl2
    unfold TritonPartCore.performSimplePartition
    rw [h1, h2]
    dsimp only
    rw [hn, hb, hs]
    unfold simpleScan
    obtain ⟨_, _, g3, g4, g5⟩ := foldl_placeVertex_agree R hg c1.num_parts_ c1.balance_
      (totalVertexWeight hg / (c1.num_parts_ : ℚ))
      { gen := R.seed c1.seed_, part_weights := List.replicate c1.num_parts_.toNat 0,
        partition_ := c1.partition_ }
      { gen := R.seed c1.seed_, part_weights := List.replicate c1.num_parts_.toNat 0,
        partition_ := c2.partition_ }
      hg.GetNumVertices rfl rfl (by rw [hl1, hl2])
    apply List.ext_getElem?
    intro i
    by_cases hi : i < hg.GetNumVertices
    · exact g5 i hi
    · dsimp only at g4
      rw [List.getElem?_eq_none (by omega), List.getElem?_eq_none (by omega)]

/-- Witness for C9: scenario A with balance 1/2 and seed 7, once on a fresh
object and once on an object with a stale partition vector, stale metrics and
another flag; both runs give `[0, 1, 1, 0]`. -/
theorem partition_deterministic_witness :
    ((TritonPartCore.ofHypergraph hypergraphA 2 (1 / 2) 7).partition
        lcgEngine).1.getPartitionAssignment = [0, 1, 1, 0] ∧
    ((TritonPartCore.ofHypergraph hypergraphA 2 (1 / 2) 7).partition
        lcgEngine).1.getPartitionAssignment =
      (({ TritonPartCore.ofHypergraph hypergraphA 2 (1 / 2) 7 with
          partition_ := [1, 1, 1, 1], cutsize_ := 5, num_cuts_ := 3,
          timing_aware_ := true } : TritonPartCore).partition
        lcgEngine).1.getPartitionAssignment :=
  ⟨by with_unfolding_all decide,
    (partition_deterministic lcgEngine (TritonPartCore.ofHypergraph hypergraphA 2 (1 / 2) 7)
      { TritonPartCore.ofHypergraph hypergraphA 2 (1 / 2) 7 with
        partition_ := [1, 1, 1, 1], cutsize_ := 5, num_cuts_ := 3, timing_aware_ := true }
      hypergraphA rfl rfl (by decide) rfl rfl rfl).1⟩

/-! ## `evaluatePartition`: purity, absent data, short assignments -/


/-- `evaluatePartition` does not write `hypergraph_`. -/
theorem evaluatePartition_hypergraph (c : TritonPartCore) :
    c.evaluatePartition.hypergraph_ = c.hypergraph_ := by
  unfold TritonPartCore.evaluatePartition
  split
  · rfl
  · split_ifs <;> rfl

/-- A second evaluation in a row leaves the object as the first left it. -/
theorem evaluatePartition_idem (c : TritonPartCore) :
    c.evaluatePartition.evaluatePartition = c.evaluatePartition := by
  unfold TritonPartCore.evaluatePartition
  cases hhg : c.hypergraph_ with
  | none => simp [hhg]
  | some hg =>
    by_cases hp : c.partition_ = []
    · simp [hhg, hp]
    · simp [hp]

/-- Counterexample to C17 as stated: an object that was partitioned on
scenario A (two cut hyperedges) and then received an adapter without data, so
that `buildHypergraph` left it without hypergraph; `evaluatePartition` leaves
the cut count 2 and the cutsize 2, not the zero result. -/
theorem evaluatePartition_data_absent_counterexample :
    ((((TritonPartCore.ofHypergraph hypergraphA 2 1 0).partition lcgEngine).1.setAdapter
        OpenStaAdapter.noData).buildHypergraph).1.hypergraph_ = none ∧
    ¬ (((((TritonPartCore.ofHypergraph hypergraphA 2 1 0).partition lcgEngine).1.setAdapter
          OpenStaAdapter.noData).buildHypergraph).1.evaluatePartition.getCutsize = 0 ∧
        ((((TritonPartCore.ofHypergraph hypergraphA 2 1 0).partition lcgEngine).1.setAdapter
          OpenStaAdapter.noData).buildHypergraph).1.evaluatePartition.getNumCuts = 0) := by
  with_unfolding_all decide

/-- Claim C17, amended: when `evaluatePartition` is called with no hypergraph
or with an empty assignment it makes no access out of range and leaves the
object unchanged, so `getCutsize()` and `getNumCuts()` return afterwards what
they returned before; on a newly constructed object that is 0 and 0. -/
theorem evaluatePartition_data_absent (c : TritonPartCore)
    (h : c.hypergraph_ = none ∨ c.partition_ = []) :
    c.evaluatePartitionChecked = some c ∧
      c.evaluatePartition = c ∧
      c.evaluatePartition.getCutsize = c.getCutsize ∧
      c.evaluatePartition.getNumCuts = c.getNumCuts ∧
      TritonPartCore.new.evaluatePartition.getCutsize = 0 ∧
      TritonPartCore.new.evaluatePartition.getNumCuts = 0 := by
  have hsame : c.evaluatePartition = c := by
    unfold TritonPartCore.evaluatePartition
    cases hhg : c.hypergraph_ with
    | none => rfl
    | some hg =>
      rcases h with h | h
      · rw [hhg] at h; exact Option.noConfusion h
      · simp [h]
  have hchecked : c.evaluatePartitionChecked = some c := by
    unfold TritonPartCore.evaluatePartitionChecked
    cases hhg : c.hypergraph_ with
    | none => rfl
    | some hg =>
      rcases h with h | h
      · rw [hhg] at h; exact Option.noConfusion h
      · simp [h]
  refine ⟨hchecked, hsame, by rw [hsame], by rw [hsame], rfl, rfl⟩

/-- Witness for the amended C17: the object of the counterexample, left
without hypergraph, keeps the cut count 2. -/
theorem evaluatePartition_data_absent_witness :
    ((((TritonPartCore.ofHypergraph hypergraphA 2 1 0).partition lcgEngine).1.setAdapter
        OpenStaAdapter.noData).buildHypergraph).1.getNumCuts = 2 ∧
    ((((TritonPartCore.ofHypergraph hypergraphA 2 1 0).partition lcgEngine).1.setAdapter
        OpenStaAdapter.noData).buildHypergraph).1.evaluatePartition.getNumCuts =
      ((((TritonPartCore.ofHypergraph hypergraphA 2 1 0).partition lcgEngine).1.setAdapter
        OpenStaAdapter.noData).buildHypergraph).1.getNumCuts :=
  ⟨by with_unfolding_all decide,
    (evaluatePartition_data_absent
      ((((TritonPartCore.ofHypergraph hypergraphA 2 1 0).partition lcgEngine).1.setAdapter
        OpenStaAdapter.noData).buildHypergraph).1 (Or.inl (by with_unfolding_all decide))).2.2.2.1⟩

/-- A monadic left fold in `Option` fails when the step fails on one element
of the list, whatever the state. -/
theorem foldlM_eq_none_of_mem {α β : Type} (f : β → α → Option β) (l : List α) (x : α)
    (hx : x ∈ l) (hf : ∀ s, f s x = none) (s0 : β) : l.foldlM f s0 = none := by
  induction l generalizing s0 with
  | nil => simp at hx
  | cons y ys ih =>
    rw [List.foldlM_cons]
    rcases List.mem_cons.1 hx with rfl | hx
    · rw [hf s0]; rfl
    · cases f s0 y with
      | none => rfl
      | some s => exact ih hx s

/-- With fewer entries than vertices the balance loop reads `partition_`
outside the vector. -/
theorem evalPartWeightsChecked_short (hg : Hypergraph) (partition_ : List Int)
    (num_parts_ : Int) (h : partition_.length < hg.GetNumVertices) :
    evalPartWeightsChecked hg partition_ num_parts_ = none := by
  unfold evalPartWeightsChecked
  apply foldlM_eq_none_of_mem _ _ partition_.length (List.mem_range.2 h)
  intro s
  rw [List.getElem?_eq_none (le_refl _)]

/-- On every object whose assignment is not empty and has fewer entries than
the hypergraph has vertices, `evaluatePartition` makes an access out of
range. -/
theorem evaluatePartitionChecked_short (c : TritonPartCore) (hg : Hypergraph)
    (hhg : c.hypergraph_ = some hg) (hlt : c.partition_.length < hg.GetNumVertices) :
    c.partition_ ≠ [] → c.evaluatePartitionChecked = none := by
  intro hne
  unfold TritonPartCore.evaluatePartitionChecked
  rw [hhg]
  dsimp only
  rw [if_neg hne, evalPartWeightsChecked_short hg _ _ hlt]
  split_ifs <;> rfl

/-- Claim C18, the code at the failing input: an object partitioned on a
two-vertex hypergraph (assignment `[0, 1]`) whose hypergraph is then rebuilt
as scenario A (four vertices). The cut loop skips the vertices 2 and 3, but
the balance loop reads `partition_[2]`: the run makes an access out of
range. -/
theorem evaluatePartition_short_assignment :
    ((((TritonPartCore.ofHypergraph hypergraphSmall 2 1 0).partition lcgEngine).1.setAdapter
        OpenStaAdapter.scenarioA).buildHypergraph).1.hypergraph_ = some hypergraphA ∧
    ((((TritonPartCore.ofHypergraph hypergraphSmall 2 1 0).partition lcgEngine).1.setAdapter
        OpenStaAdapter.scenarioA).buildHypergraph).1.partition_ = [0, 1] ∧
    partsInEdgeChecked [0, 1] (hypergraphA.Vertices 0) = some [0, 1] ∧
    partsInEdgeChecked [0, 1] (hypergraphA.Vertices 1) = some [] ∧
    ([0, 1] : List Int)[2]? = none ∧
    evalPartWeightsChecked hypergraphA [0, 1] 2 = none ∧
    ((((TritonPartCore.ofHypergraph hypergraphSmall 2 1 0).partition lcgEngine).1.setAdapter
        OpenStaAdapter.scenarioA).buildHypergraph).1.evaluatePartitionChecked = none := by
  refine ⟨by with_unfolding_all decide, by with_unfolding_all decide, by decide, by decide,
    by decide, by with_unfolding_all decide, ?_⟩
  apply evaluatePartitionChecked_short _ hypergraphA
  · with_unfolding_all decide
  · with_unfolding_all decide
  · with_unfolding_all decide

/-! ## The cut loop in closed form -/


/-- The label-collecting loop in closed form: started from an increasing
list, it ends in an increasing list that holds the start list and the labels
of the given vertex ids. -/
theorem foldl_collect_labels (partition_ : List Int) (vertices : List Int) (s0 : List Int)
    (hs : s0.Pairwise (· < ·)) (hv : ∀ v ∈ vertices, 0 ≤ v) :
    (vertices.foldl
        (fun parts v =>
          if v < (partition_.length : Int) then setInsert (partition_.getD v.toNat 0) parts
          else parts) s0).Pairwise (· < ·) ∧
      ∀ x, x ∈ vertices.foldl
          (fun parts v =>
            if v < (partition_.length : Int) then setInsert (partition_.getD v.toNat 0) parts
            else parts) s0 ↔
        x ∈ s0 ∨
          x ∈ vertices.filterMap fun v => if 0 ≤ v then partition_[v.toNat]? else none := by
  induction vertices generalizing s0 with
  | nil => exact ⟨hs, by simp⟩
  | cons v vs ih =>
    have hv0 : 0 ≤ v := hv v (List.mem_cons_self _ _)
    have hvs : ∀ u ∈ vs, 0 ≤ u := fun u hu => hv u (List.mem_cons_of_mem _ hu)
    rw [List.foldl_cons]
    by_cases hlt : v < (partition_.length : Int)
    · have hnat : v.toNat < partition_.length := by omega
      rw [if_pos hlt]
      obtain ⟨h1, h2⟩ := ih (setInsert (partition_.getD v.toNat 0) s0)
        (setInsert_sorted _ _ hs) hvs
      refine ⟨h1, ?_⟩
      intro x
      rw [h2, mem_setInsert, List.filterMap_cons, if_pos hv0, List.getElem?_eq_getElem hnat]
      simp only [List.getD_eq_getElem?_getD, List.getElem?_eq_getElem hnat, Option.getD_some,
        List.mem_cons]
      tauto
    · have hnat : partition_.length ≤ v.toNat := by omega
      rw [if_neg hlt]
      obtain ⟨h1, h2⟩ := ih s0 hs hvs
      refine ⟨h1, ?_⟩
      intro x
      rw [h2, List.filterMap_cons, if_pos hv0, List.getElem?_eq_none hnat]

/-- The number of labels collected for a hyperedge is the number of distinct
labels of its members. -/
theorem partsInEdge_length (partition_ : List Int) (members : List Int)
    (hv : ∀ v ∈ members, 0 ≤ v) :
    (partsInEdge partition_ members).length = (distinctLabels partition_ members).card := by
  obtain ⟨hsorted, hmem⟩ := foldl_collect_labels partition_ members [] List.Pairwise.nil hv
  have hnodup : (partsInEdge partition_ members).Nodup :=
    List.Pairwise.imp (fun hab => ne_of_lt hab) hsorted
  rw [← List.toFinset_card_of_nodup hnodup]
  congr 1
  ext x
  rw [List.mem_toFinset]
  unfold distinctLabels
  rw [List.mem_toFinset]
  have := hmem x
  simpa [partsInEdge] using this

theorem partsInPath_eq (partition_ : List Int) (path : List Int) :
    partsInPath partition_ path = partsInEdge partition_ path := rfl

/-- A counting and summing fold is the count and the sum over the selected
elements. -/
theorem foldl_count_sum {α : Type} (P : α → Prop) [DecidablePred P] (w : α → ℚ) (l : List α)
    (a : Int) (b : ℚ) :
    l.foldl (fun (acc : Int × ℚ) x => if P x then (acc.1 + 1, acc.2 + w x) else acc) (a, b) =
      (a + ((l.filter fun x => decide (P x)).length : Int),
        b + ((l.filter fun x => decide (P x)).map w).sum) := by
  induction l generalizing a b with
  | nil => simp
  | cons x xs ih =>
    rw [List.foldl_cons]
    by_cases hx : P x
    · rw [if_pos hx, ih]
      simp only [List.filter_cons, hx, decide_True, if_true, List.length_cons, List.map_cons,
        List.sum_cons, Nat.cast_add, Nat.cast_one]
      refine Prod.ext ?_ ?_
      · simp only; ring
      · simp only; ring
    · rw [if_neg hx, ih]
      simp [List.filter_cons, hx]

/-- The hyperedge loop in closed form: it counts the cut hyperedges and sums
their weights. -/
theorem foldl_countCut (hg : Hypergraph) (partition_ : List Int)
    (hv : ∀ e ∈ hg.hyperedges, ∀ v ∈ e, 0 ≤ v) :
    (List.range hg.GetNumHyperedges).foldl (countCut hg partition_) (0, 0) =
      (((cutHyperedges hg partition_).length : Int),
        ((cutHyperedges hg partition_).map hg.hyperedgeWeight).sum) := by
  have hstep : ∀ (acc : Int × ℚ), ∀ e ∈ List.range hg.GetNumHyperedges,
      countCut hg partition_ acc e =
        (fun (acc : Int × ℚ) e =>
          if IsCutBy partition_ (hg.Vertices e) then (acc.1 + 1, acc.2 + hg.hyperedgeWeight e)
          else acc) acc e := by
    intro acc e he
    rw [List.mem_range] at he
    have hmem : ∀ v ∈ hg.Vertices e, 0 ≤ v := by
      intro v hvm
      apply hv (hg.Vertices e) _ v hvm
      unfold Hypergraph.Vertices
      unfold Hypergraph.GetNumHyperedges at he
      rw [List.getD_eq_getElem?_getD, List.getElem?_eq_getElem he]
      exact List.getElem_mem _
    unfold countCut IsCutBy
    rw [partsInEdge_length partition_ _ hmem]
  rw [List.foldl_ext _ _ _ hstep, foldl_count_sum]
  simp [cutHyperedges]

/-! ## Cut count and cutsize -/


/-- For member ids that are vertices with an entry in the assignment, being
cut means that two members carry different labels. -/
theorem isCutBy_iff (partition_ : List Int) (vertices : List Int)
    (hv : ∀ v ∈ vertices, 0 ≤ v ∧ v < (partition_.length : Int)) :
    IsCutBy partition_ vertices ↔
      ∃ u ∈ vertices, ∃ v ∈ vertices,
        partition_.getD u.toNat 0 ≠ partition_.getD v.toNat 0 := by
  have hlabel : ∀ x, x ∈ distinctLabels partition_ vertices ↔
      ∃ v ∈ vertices, partition_.getD v.toNat 0 = x := by
    intro x
    unfold distinctLabels
    rw [List.mem_toFinset, List.mem_filterMap]
    constructor
    · rintro ⟨v, hvm, hx⟩
      obtain ⟨h0, hlt⟩ := hv v hvm
      have hnat : v.toNat < partition_.length := by omega
      rw [if_pos h0, List.getElem?_eq_getElem hnat] at hx
      refine ⟨v, hvm, ?_⟩
      rw [List.getD_eq_getElem?_getD, List.getElem?_eq_getElem hnat]
      simpa using hx
    · rintro ⟨v, hvm, hx⟩
      obtain ⟨h0, hlt⟩ := hv v hvm
      have hnat : v.toNat < partition_.length := by omega
      refine ⟨v, hvm, ?_⟩
      rw [List.getD_eq_getElem?_getD, List.getElem?_eq_getElem hnat] at hx
      rw [if_pos h0, List.getElem?_eq_getElem hnat]
      simpa using hx
  unfold IsCutBy
  rw [Finset.one_lt_card]
  constructor
  · rintro ⟨a, ha, b, hb, hab⟩
    obtain ⟨u, hu, rfl⟩ := (hlabel a).1 ha
    obtain ⟨v, hvm, rfl⟩ := (hlabel b).1 hb
    exact ⟨u, hu, v, hvm, hab⟩
  · rintro ⟨u, hu, v, hvm, huv⟩
    exact ⟨_, (hlabel _).2 ⟨u, hu, rfl⟩, _, (hlabel _).2 ⟨v, hvm, rfl⟩, huv⟩

theorem mem_hyperedges_of_lt (hg : Hypergraph) (e : Nat) (he : e < hg.GetNumHyperedges) :
    hg.Vertices e ∈ hg.hyperedges := by
  unfold Hypergraph.Vertices
  unfold Hypergraph.GetNumHyperedges at he
  rw [List.getD_eq_getElem?_getD, List.getElem?_eq_getElem he]
  exact List.getElem_mem _

/-- Counterexample to C13 as stated: an object partitioned on scenario A (two
cut hyperedges) whose hypergraph is then rebuilt from a design without
vertices and partitioned again. The empty assignment covers all vertices and
no hyperedge is cut, but the cut count left is 2. -/
theorem evaluatePartition_cut_count_counterexample :
    ((((TritonPartCore.ofHypergraph hypergraphA 2 1 0).partition lcgEngine).1.setAdapter
        OpenStaAdapter.emptyDesign).buildHypergraph.1.partition lcgEngine).1.hypergraph_ =
      some hypergraphEmpty ∧
    ((((TritonPartCore.ofHypergraph hypergraphA 2 1 0).partition lcgEngine).1.setAdapter
        OpenStaAdapter.emptyDesign).buildHypergraph.1.partition lcgEngine).1.partition_.length =
      hypergraphEmpty.GetNumVertices ∧
    (cutHyperedges hypergraphEmpty
      ((((TritonPartCore.ofHypergraph hypergraphA 2 1 0).partition lcgEngine).1.setAdapter
        OpenStaAdapter.emptyDesign).buildHypergraph.1.partition lcgEngine).1.partition_).length =
      0 ∧
    ((((TritonPartCore.ofHypergraph hypergraphA 2 1 0).partition lcgEngine).1.setAdapter
        OpenStaAdapter.emptyDesign).buildHypergraph.1.partition
          lcgEngine).1.evaluatePartition.getNumCuts = 2 ∧
    ((((TritonPartCore.ofHypergraph hypergraphA 2 1 0).partition lcgEngine).1.setAdapter
        OpenStaAdapter.emptyDesign).buildHypergraph.1.partition
          lcgEngine).1.evaluatePartition.getNumCuts ≠
      ((cutHyperedges hypergraphEmpty
        ((((TritonPartCore.ofHypergraph hypergraphA 2 1 0).partition lcgEngine).1.setAdapter
          OpenStaAdapter.emptyDesign).buildHypergraph.1.partition
            lcgEngine).1.partition_).length : Int) := by
  with_unfolding_all decide

/-! ## Critical paths cut -/


/-- The path loop in closed form: it counts the cut paths. -/
theorem criticalCuts_eq (partition_ : List Int) (timing_paths_ : List TimingPath)
    (hv : ∀ path ∈ timing_paths_, ∀ v ∈ path.path, 0 ≤ v) :
    criticalCuts partition_ timing_paths_ =
      ((cutPaths partition_ timing_paths_).length : Int) := by
  have hstep : ∀ (acc : Int × ℚ), ∀ path ∈ timing_paths_,
      (fun (acc : Int × ℚ) (path : TimingPath) =>
          if (partsInPath partition_ path.path).length > 1 then (acc.1 + 1, acc.2 + 0)
          else acc) acc path =
        (fun (acc : Int × ℚ) (path : TimingPath) =>
          if IsCutBy partition_ path.path then (acc.1 + 1, acc.2 + (fun _ => (0 : ℚ)) path)
          else acc) acc path := by
    intro acc path hpath
    unfold IsCutBy
    dsimp only
    rw [partsInPath_eq, partsInEdge_length partition_ _ (hv path hpath)]
  have hfst : ∀ (l : List TimingPath) (a : Int) (b : ℚ),
      l.foldl (fun critical_cuts path =>
          if (partsInPath partition_ path.path).length > 1 then critical_cuts + 1
          else critical_cuts) a =
        (l.foldl (fun (acc : Int × ℚ) (path : TimingPath) =>
          if (partsInPath partition_ path.path).length > 1 then (acc.1 + 1, acc.2 + 0)
          else acc) (a, b)).1 := by
    intro l
    induction l with
    | nil => intro a b; rfl
    | cons x xs ih =>
      intro a b
      rw [List.foldl_cons, List.foldl_cons]
      split_ifs
      · exact ih _ _
      · exact ih _ _
  unfold criticalCuts
  rw [hfst timing_paths_ 0 0, List.foldl_ext _ _ _ hstep, foldl_count_sum]
  simp [cutPaths]

/-- The count of the path loop reads only the vertex sequences of the
paths. -/
theorem criticalCuts_map_path (partition_ : List Int) (timing_paths_ : List TimingPath) :
    criticalCuts partition_ timing_paths_ =
      (timing_paths_.map fun path => path.path).foldl
        (fun critical_cuts vertices =>
          if (partsInPath partition_ vertices).length > 1 then critical_cuts + 1
          else critical_cuts)
        0 := by
  unfold criticalCuts
  rw [List.foldl_map]

/-- Claim C15: on a timing-aware object with at least one timing path, the
critical-path-cut count that `reportPartitionMetrics` reports is the number
of timing paths whose vertex sequence carries more than one distinct
partition label, reported against the number of all paths; the count does
not depend on the slack of any path. -/
theorem reportPartitionMetrics_critical_cuts (c : TritonPartCore) (hg : Hypergraph)
    (hhg : c.hypergraph_ = some hg) (haware : c.timing_aware_ = true)
    (hne : c.timing_paths_ ≠ [])
    (hvalid : ∀ path ∈ c.timing_paths_, ∀ v ∈ path.path, 0 ≤ v) :
    (c.reportPartitionMetrics.map fun report => report.critical_paths_cut) =
        some (some (((cutPaths c.partition_ c.timing_paths_).length : Int),
          c.timing_paths_.length)) ∧
      (∀ path, path ∈ cutPaths c.partition_ c.timing_paths_ ↔
        path ∈ c.timing_paths_ ∧ 1 < (distinctLabels c.partition_ path.path).card) ∧
      ∀ other : List TimingPath,
        (other.map fun path => path.path) = (c.timing_paths_.map fun path => path.path) →
        criticalCuts c.partition_ other = criticalCuts c.partition_ c.timing_paths_ := by
  refine ⟨?_, ?_, ?_⟩
  · unfold TritonPartCore.reportPartitionMetrics
    rw [hhg]
    simp only [Option.map_some']
    rw [if_pos ⟨haware, hne⟩, criticalCuts_eq _ _ hvalid]
  · intro path
    unfold cutPaths IsCutBy
    rw [List.mem_filter, decide_eq_true_eq]
  · intro other hother
    rw [criticalCuts_map_path, criticalCuts_map_path, hother]

/-- Witness for C15, scenario C: with the assignment `[0, 1, 0, 0]` the path
of slack -0.02 through the vertices 0 and 1 touches the partitions 0 and 1
and is counted, the path through 0, 2 and 3 lies in partition 0 and is not:
one path of two is reported as cut. -/
theorem reportPartitionMetrics_critical_cuts_witness :
    cutPaths [0, 1, 0, 0] timingPathsC = [{ path := [0, 1], arcs := [], slack := -1 / 50 }] ∧
    (({ TritonPartCore.ofHypergraph hypergraphA 2 1 0 with
        partition_ := [0, 1, 0, 0], timing_aware_ := true,
        timing_paths_ := timingPathsC } : TritonPartCore).reportPartitionMetrics.map
      fun report => report.critical_paths_cut) =
      some (some (((cutPaths [0, 1, 0, 0] timingPathsC).length : Int), timingPathsC.length)) :=
  ⟨by with_unfolding_all decide,
    (reportPartitionMetrics_critical_cuts
      { TritonPartCore.ofHypergraph hypergraphA 2 1 0 with
        partition_ := [0, 1, 0, 0], timing_aware_ := true, timing_paths_ := timingPathsC }
      hypergraphA rfl rfl (by with_unfolding_all decide) (by decide)).1⟩

/-! ## The balance loop -/


/-- Adding `w` to one entry of a list adds `w` to its sum. -/
theorem sum_set_add (l : List ℚ) (i : Nat) (w : ℚ) (hi : i < l.length) :
    (l.set i (l.getD i 0 + w)).sum = l.sum + w := by
  induction l generalizing i with
  | nil => simp at hi
  | cons x xs ih =>
    cases i with
    | zero => simp; ring
    | succ j =>
      have hj : j < xs.length := by simpa using hi
      have := ih j hj
      simp only [List.set_cons_succ, List.sum_cons, List.getD_cons_succ, this]
      ring

/-- The total-weight loop (lines 356-358, and again 206-211) sums the first
weight dimension of all vertices. -/
theorem foldl_vertexWeight (hg : Hypergraph) (k : Nat) (hk : k ≤ hg.GetNumVertices) :
    (List.range k).foldl (fun total_weight v => total_weight + hg.vertexWeight v) 0 =
      ((hg.vertex_weights.take k).map fun w => w.headD 0).sum := by
  induction k with
  | zero => simp
  | succ j ih =>
    have hj : j < hg.vertex_weights.length := hk
    rw [List.range_succ, List.foldl_append, List.foldl_cons, List.foldl_nil, ih (by omega),
      List.take_succ, List.map_append, List.sum_append, List.getElem?_eq_getElem hj]
    simp [Hypergraph.vertexWeight, List.getD_eq_getElem?_getD, List.getElem?_eq_getElem hj]

theorem totalVertexWeight_eq (hg : Hypergraph) :
    totalVertexWeight hg = (hg.vertex_weights.map fun w => w.headD 0).sum := by
  unfold totalVertexWeight
  rw [foldl_vertexWeight hg _ (le_refl _)]
  unfold Hypergraph.GetNumVertices
  rw [List.take_length]

/-- The balance loop over the first `k` vertices: no access is out of range,
the number of partition weights stays `num_parts_`, and they sum to the
weight of these vertices. -/
theorem evalPartWeights_prefix (hg : Hypergraph) (partition_ : List Int) (num_parts_ : Int)
    (hcover : partition_.length = hg.GetNumVertices)
    (hlabels : ∀ p ∈ partition_, 0 ≤ p ∧ p < num_parts_) (k : Nat)
    (hk : k ≤ hg.GetNumVertices) :
    (List.range k).foldlM
        (fun part_weights v =>
          match partition_[v]? with
          | none => none
          | some p =>
            if 0 ≤ p ∧ p.toNat < part_weights.length then
              some (part_weights.set p.toNat (part_weights.getD p.toNat 0 + hg.vertexWeight v))
            else none)
        (List.replicate num_parts_.toNat (0 : ℚ)) =
      some ((List.range k).foldl
        (fun part_weights v =>
          part_weights.set (partition_.getD v 0).toNat
            (part_weights.getD (partition_.getD v 0).toNat 0 + hg.vertexWeight v))
        (List.replicate num_parts_.toNat 0)) ∧
      ((List.range k).foldl
        (fun part_weights v =>
          part_weights.set (partition_.getD v 0).toNat
            (part_weights.getD (partition_.getD v 0).toNat 0 + hg.vertexWeight v))
        (List.replicate num_parts_.toNat (0 : ℚ))).length = num_parts_.toNat ∧
      ((List.range k).foldl
        (fun part_weights v =>
          part_weights.set (partition_.getD v 0).toNat
            (part_weights.getD (partition_.getD v 0).toNat 0 + hg.vertexWeight v))
        (List.replicate num_parts_.toNat (0 : ℚ))).sum =
        (List.range k).foldl (fun total_weight v => total_weight + hg.vertexWeight v) 0 := by
  induction k with
  | zero => simp
  | succ j ih =>
    obtain ⟨h1, h2, h3⟩ := ih (by omega)
    have hj : j < partition_.length := by omega
    obtain ⟨hp0, hpn⟩ := hlabels _ (List.getElem_mem hj)
    have hgetD : partition_.getD j 0 = partition_[j] := by
      rw [List.getD_eq_getElem?_getD, List.getElem?_eq_getElem hj]; rfl
    have hidx : (partition_[j]).toNat < num_parts_.toNat := by omega
    rw [List.range_succ, List.foldlM_append, List.foldl_append, List.foldl_append, h1]
    simp only [List.foldl_cons, List.foldl_nil, List.foldlM_cons, List.foldlM_nil, Option.bind_eq_bind,
      Option.some_bind, List.getElem?_eq_getElem hj, hgetD, h2, hp0, hidx, and_self, if_true,
      Option.pure_def, Option.bind_some, List.length_set]
    refine ⟨trivial, trivial, ?_⟩
    rw [sum_set_add _ _ _ (by rw [h2]; exact hidx), h3]

/-- Claim C14: for every hypergraph and every assignment that covers all
vertices with labels in `[0, num_parts_)`, the balance loop of
`evaluatePartition` makes no access out of range and the per-partition
weights it accumulates sum to the total vertex weight that the same loop
accumulates, which is the sum of the weights of all vertices. -/
theorem evaluatePartition_part_weights_sum (c : TritonPartCore) (hg : Hypergraph)
    (_hhg : c.hypergraph_ = some hg) (hcover : c.partition_.length = hg.GetNumVertices)
    (hlabels : ∀ p ∈ c.partition_, 0 ≤ p ∧ p < c.num_parts_) :
    evalPartWeightsChecked hg c.partition_ c.num_parts_ =
        some (evalPartWeights hg c.partition_ c.num_parts_) ∧
      (evalPartWeights hg c.partition_ c.num_parts_).length = c.num_parts_.toNat ∧
      (evalPartWeights hg c.partition_ c.num_parts_).sum = totalVertexWeight hg ∧
      totalVertexWeight hg = (hg.vertex_weights.map fun w => w.headD 0).sum := by
  obtain ⟨h1, h2, h3⟩ := evalPartWeights_prefix hg c.partition_ c.num_parts_ hcover hlabels
    hg.GetNumVertices (le_refl _)
  exact ⟨h1, h2, h3, totalVertexWeight_eq hg⟩

/-- Witness for C14 on scenario A with the assignment `[0, 1, 1, 1]`: the
partition weights are 1 and 3 and sum to the total weight 4. -/
theorem evaluatePartition_part_weights_sum_witness :
    evalPartWeights hypergraphA [0, 1, 1, 1] 2 = [1, 3] ∧
    totalVertexWeight hypergraphA = 4 ∧
    (evalPartWeights hypergraphA [0, 1, 1, 1] 2).sum = totalVertexWeight hypergraphA :=
  ⟨by with_unfolding_all decide, by with_unfolding_all decide,
    (evaluatePartition_part_weights_sum
      { TritonPartCore.ofHypergraph hypergraphA 2 1 0 with partition_ := [0, 1, 1, 1] }
      hypergraphA rfl (by decide) (by decide)).2.2.1⟩

/-! ## The minimum scan -/


/-- The minimum scan over the partitions `1, ..., m`: the index kept is the
lowest index of a minimum among the partitions `0, ..., m`. -/
theorem findBestPart_scan (w : List ℚ) (m : Nat) :
    (((List.range' 1 m).foldl
        (fun (acc : Nat × ℚ) p => if w.getD p 0 < acc.2 then (p, w.getD p 0) else acc)
        (0, w.getD 0 0)).2 =
      w.getD ((List.range' 1 m).foldl
        (fun (acc : Nat × ℚ) p => if w.getD p 0 < acc.2 then (p, w.getD p 0) else acc)
        (0, w.getD 0 0)).1 0) ∧
    ((List.range' 1 m).foldl
        (fun (acc : Nat × ℚ) p => if w.getD p 0 < acc.2 then (p, w.getD p 0) else acc)
        (0, w.getD 0 0)).1 < 1 + m ∧
    (∀ q, q < 1 + m →
      w.getD ((List.range' 1 m).foldl
        (fun (acc : Nat × ℚ) p => if w.getD p 0 < acc.2 then (p, w.getD p 0) else acc)
        (0, w.getD 0 0)).1 0 ≤ w.getD q 0) ∧
    (∀ q, q < ((List.range' 1 m).foldl
        (fun (acc : Nat × ℚ) p => if w.getD p 0 < acc.2 then (p, w.getD p 0) else acc)
        (0, w.getD 0 0)).1 →
      w.getD ((List.range' 1 m).foldl
        (fun (acc : Nat × ℚ) p => if w.getD p 0 < acc.2 then (p, w.getD p 0) else acc)
        (0, w.getD 0 0)).1 0 < w.getD q 0) := by
  induction m with
  | zero =>
    refine ⟨rfl, by simp, ?_, ?_⟩
    · intro q hq
      have : q = 0 := by omega
      subst this
      exact le_refl _
    · intro q hq
      simp at hq
  | succ k ih =>
    rw [List.range'_1_concat, List.foldl_append, List.foldl_cons, List.foldl_nil]
    generalize (List.range' 1 k).foldl
      (fun (acc : Nat × ℚ) p => if w.getD p 0 < acc.2 then (p, w.getD p 0) else acc)
      (0, w.getD 0 0) = acc at ih
    obtain ⟨h1, h2, h3, h4⟩ := ih
    by_cases hlt : w.getD (1 + k) 0 < acc.2
    · rw [if_pos hlt]
      rw [h1] at hlt
      refine ⟨rfl, by simp, ?_, ?_⟩
      · intro q hq
        show w.getD (1 + k) 0 ≤ w.getD q 0
        by_cases hqk : q = 1 + k
        · rw [hqk]
        · exact le_trans (le_of_lt hlt) (h3 q (by omega))
      · intro q hq
        show w.getD (1 + k) 0 < w.getD q 0
        have hq' : q < 1 + k := hq
        exact lt_of_lt_of_le hlt (h3 q hq')
    · rw [if_neg hlt]
      rw [h1] at hlt
      refine ⟨h1, by omega, ?_, h4⟩
      intro q hq
      by_cases hqk : q = 1 + k
      · rw [hqk]; exact not_lt.1 hlt
      · exact h3 q (by omega)

/-- The first index of a range that satisfies a predicate is found by
`find?`. -/
theorem find?_range_eq (P : Nat → Bool) (n b : Nat) (hb : b < n) (hP : P b = true)
    (hmin : ∀ q, q < b → P q = false) : (List.range n).find? P = some b := by
  induction n with
  | zero => omega
  | succ k ih =>
    rw [List.range_succ, List.find?_append]
    by_cases hbk : b < k
    · rw [ih hbk]; rfl
    · have hbeq : b = k := by omega
      subst hbeq
      have hnone : (List.range b).find? P = none := by
        rw [List.find?_eq_none]
        intro x hx
        rw [List.mem_range] at hx
        rw [hmin x hx]
        simp
      rw [hnone]
      simp [List.find?_cons, hP]

/-- The specified choice is the lowest index of a minimum weight. -/
theorem leastMinPartition_unique (w : List ℚ) (b : Nat) (hb : b < w.length)
    (hle : ∀ q, q < w.length → w.getD b 0 ≤ w.getD q 0)
    (hlt : ∀ q, q < b → w.getD b 0 < w.getD q 0) : leastMinPartition w = b := by
  unfold leastMinPartition
  rw [find?_range_eq _ w.length b hb]
  · rfl
  · rw [List.all_eq_true]
    intro q hq
    rw [List.mem_range] at hq
    exact decide_eq_true (hle q hq)
  · intro q hq
    rw [List.all_eq_false]
    refine ⟨b, List.mem_range.2 hb, ?_⟩
    rw [decide_eq_true_eq, not_le]
    exact hlt q hq

/-- The minimum scan of the source picks the specified partition. -/
theorem findBestPart_eq (w : List ℚ) (num_parts_ : Int) (hparts : 1 ≤ num_parts_)
    (hlen : w.length = num_parts_.toNat) : findBestPart w num_parts_ = leastMinPartition w := by
  obtain ⟨_, h2, h3, h4⟩ := findBestPart_scan w (num_parts_.toNat - 1)
  have hone : 1 + (num_parts_.toNat - 1) = w.length := by omega
  rw [hone] at h2 h3
  exact (leastMinPartition_unique w _ h2 h3 h4).symm

/-- The specified choice, spelled out. -/
theorem leastMinPartition_spec (w : List ℚ) (hw : w ≠ []) :
    leastMinPartition w < w.length ∧
      (∀ q, q < w.length → w.getD (leastMinPartition w) 0 ≤ w.getD q 0) ∧
      ∀ q, q < leastMinPartition w → w.getD (leastMinPartition w) 0 < w.getD q 0 := by
  have hpos : 0 < w.length := List.length_pos.2 hw
  obtain ⟨_, h2, h3, h4⟩ := findBestPart_scan w (w.length - 1)
  have hone : 1 + (w.length - 1) = w.length := by omega
  rw [hone] at h2 h3
  rw [leastMinPartition_unique w _ h2 h3 h4]
  exact ⟨h2, h3, h4⟩

/-! ## The placement loop refines the specified pass -/


theorem placeVertex_length (R : RandomEngine) (hg : Hypergraph) (num_parts_ : Int)
    (balance_ target_weight : ℚ) (st : SimpleScan R.State) (v : Nat) :
    (placeVertex R hg num_parts_ balance_ target_weight st v).part_weights.length =
        st.part_weights.length ∧
      (placeVertex R hg num_parts_ balance_ target_weight st v).partition_.length =
        st.partition_.length := by
  unfold placeVertex
  dsimp only
  split_ifs <;> exact ⟨List.length_set _ _ _, List.length_set _ _ _⟩

/-- One placement of the source is one step of the specified pass. -/
theorem placeVertex_eq_spec (R : RandomEngine) (hg : Hypergraph) (num_parts_ : Int)
    (balance_ target_weight : ℚ) (hparts : 1 ≤ num_parts_) (st : SimpleScan R.State) (v : Nat)
    (hlen : st.part_weights.length = num_parts_.toNat) :
    placeVertex R hg num_parts_ balance_ target_weight st v =
      specPlaceVertex R hg num_parts_ balance_ target_weight st v := by
  unfold placeVertex specPlaceVertex
  dsimp only
  rw [findBestPart_eq _ _ hparts hlen]

/-- The placement loop of the source is the specified pass, from every state
with `num_parts_` partition weights. -/
theorem foldl_placeVertex_eq_spec (R : RandomEngine) (hg : Hypergraph) (num_parts_ : Int)
    (balance_ target_weight : ℚ) (hparts : 1 ≤ num_parts_) (l : List Nat)
    (st : SimpleScan R.State) (hlen : st.part_weights.length = num_parts_.toNat) :
    l.foldl (placeVertex R hg num_parts_ balance_ target_weight) st =
      l.foldl (specPlaceVertex R hg num_parts_ balance_ target_weight) st := by
  induction l generalizing st with
  | nil => rfl
  | cons v vs ih =>
    rw [List.foldl_cons, List.foldl_cons,
      ← placeVertex_eq_spec R hg num_parts_ balance_ target_weight hparts st v hlen]
    apply ih
    rw [(placeVertex_length R hg num_parts_ balance_ target_weight st v).1, hlen]

/-- The partition vector left by the placement loop does not depend on what
the vector held before, as long as it has one entry per vertex. -/
theorem simpleScan_partition_indep (R : RandomEngine) (hg : Hypergraph) (num_parts_ : Int)
    (balance_ : ℚ) (seed_ : Int) (p1 p2 : List Int) (h1 : p1.length = hg.GetNumVertices)
    (h2 : p2.length = hg.GetNumVertices) :
    (simpleScan R hg num_parts_ balance_ seed_ p1).partition_ =
      (simpleScan R hg num_parts_ balance_ seed_ p2).partition_ := by
  unfold simpleScan
  obtain ⟨_, _, g3, g4, g5⟩ := foldl_placeVertex_agree R hg num_parts_ balance_
    (totalVertexWeight hg / (num_parts_ : ℚ))
    { gen := R.seed seed_, part_weights := List.replicate num_parts_.toNat 0, partition_ := p1 }
    { gen := R.seed seed_, part_weights := List.replicate num_parts_.toNat 0, partition_ := p2 }
    hg.GetNumVertices rfl rfl (by rw [h1, h2])
  apply List.ext_getElem?
  intro i
  by_cases hi : i < hg.GetNumVertices
  · exact g5 i hi
  · dsimp only at g4
    rw [List.getElem?_eq_none (by omega), List.getElem?_eq_none (by omega)]

/-- The placement loop started on the zero vector is the specified pass. -/
theorem simpleScan_eq_specAssign (R : RandomEngine) (hg : Hypergraph) (num_parts_ : Int)
    (balance_ : ℚ) (seed_ : Int) (hparts : 1 ≤ num_parts_) :
    (simpleScan R hg num_parts_ balance_ seed_
      (List.replicate hg.GetNumVertices 0)).partition_ =
      specAssign R hg num_parts_ balance_ seed_ := by
  unfold simpleScan specAssign
  rw [foldl_placeVertex_eq_spec R hg num_parts_ balance_ _ hparts _ _
    (List.length_replicate _ _), totalVertexWeight_eq]

/-- Claim C11: for `num_parts_ ≥ 1`, `performSimplePartition` (run by
`partition`, or directly on a partition vector with one entry per vertex)
leaves the assignment of the specified single pass: with target = total
vertex weight / `num_parts_`, the vertices are visited in id order, each goes
to the partition of minimum accumulated weight (the lowest index among ties)
if that partition's weight plus the vertex weight is at most
target * balance and otherwise to the partition drawn from the seeded
generator, and its weight is added to the partition chosen. -/
theorem performSimplePartition_refines_spec (R : RandomEngine) (c : TritonPartCore)
    (hg : Hypergraph) (hhg : c.hypergraph_ = some hg) (hparts : 1 ≤ c.num_parts_) :
    (c.partition R).1.getPartitionAssignment =
        specAssign R hg c.num_parts_ c.balance_ c.seed_ ∧
      (c.partition_.length = hg.GetNumVertices →
        (c.performSimplePartition R).partition_ =
          specAssign R hg c.num_parts_ c.balance_ c.seed_) ∧
      ∀ w : List ℚ, w ≠ [] →
        leastMinPartition w < w.length ∧
          (∀ q, q < w.length → w.getD (leastMinPartition w) 0 ≤ w.getD q 0) ∧
          ∀ q, q < leastMinPartition w → w.getD (leastMinPartition w) 0 < w.getD q 0 := by
  refine ⟨?_, ?_, leastMinPartition_spec⟩
  · unfold TritonPartCore.getPartitionAssignment
    rw [(partition_eq R c hg hhg).2, simpleScan_eq_specAssign R hg _ _ _ hparts]
  · intro hlen
    unfold TritonPartCore.performSimplePartition
    rw [hhg]
    dsimp only
    rw [simpleScan_partition_indep R hg _ _ _ c.partition_ (List.replicate hg.GetNumVertices 0)
      hlen (List.length_replicate _ _), simpleScan_eq_specAssign R hg _ _ _ hparts]

/-- Witness for C11: scenario A with two partitions, balance 1/2 and seed 7;
the source and the specified pass both give `[0, 1, 1, 0]`. -/
theorem performSimplePartition_refines_spec_witness :
    specAssign lcgEngine hypergraphA 2 (1 / 2) 7 = [0, 1, 1, 0] ∧
    ((TritonPartCore.ofHypergraph hypergraphA 2 (1 / 2) 7).partition
      lcgEngine).1.getPartitionAssignment = specAssign lcgEngine hypergraphA 2 (1 / 2) 7 :=
  ⟨by with_unfolding_all decide,
    (performSimplePartition_refines_spec lcgEngine
      (TritonPartCore.ofHypergraph hypergraphA 2 (1 / 2) 7) hypergraphA rfl (by decide)).1⟩

/-! ## Balance of the greedy placements -/


theorem getD_set (l : List ℚ) (i j : Nat) (a : ℚ) :
    (l.set i a).getD j 0 = if i = j ∧ i < l.length then a else l.getD j 0 := by
  rw [List.getD_eq_getElem?_getD, List.getD_eq_getElem?_getD, List.getElem?_set]
  by_cases hij : i = j
  · subst hij
    by_cases hlt : i < l.length
    · simp [hlt]
    · simp [hlt, List.getElem?_eq_none (not_lt.1 hlt)]
  · simp [hij]

theorem findBestPart_lt_toNat (part_weights : List ℚ) (num_parts_ : Int)
    (h : 1 ≤ num_parts_) : findBestPart part_weights num_parts_ < num_parts_.toNat := by
  have := findBestPart_lt part_weights num_parts_ h
  omega

theorem placementAfter_succ (R : RandomEngine) (hg : Hypergraph) (num_parts_ : Int)
    (balance_ : ℚ) (seed_ : Int) (k : Nat) :
    placementAfter R hg num_parts_ balance_ seed_ (k + 1) =
      placeVertex R hg num_parts_ balance_ (totalVertexWeight hg / (num_parts_ : ℚ))
        (placementAfter R hg num_parts_ balance_ seed_ k) k := by
  unfold placementAfter
  rw [List.range_succ, List.foldl_append, List.foldl_cons, List.foldl_nil]

theorem placementAfter_length (R : RandomEngine) (hg : Hypergraph) (num_parts_ : Int)
    (balance_ : ℚ) (seed_ : Int) (k : Nat) :
    (placementAfter R hg num_parts_ balance_ seed_ k).part_weights.length =
      num_parts_.toNat := by
  induction k with
  | zero => simp [placementAfter]
  | succ j ih => rw [placementAfter_succ, (placeVertex_length _ _ _ _ _ _ _).1, ih]

/-- The final state of the placement trace holds the partition vector that
`partition` leaves. -/
theorem placementAfter_final (R : RandomEngine) (c : TritonPartCore) (hg : Hypergraph)
    (hhg : c.hypergraph_ = some hg) :
    (c.partition R).1.getPartitionAssignment =
      (placementAfter R hg c.num_parts_ c.balance_ c.seed_ hg.GetNumVertices).partition_ := by
  unfold TritonPartCore.getPartitionAssignment
  rw [(partition_eq R c hg hhg).2]
  rfl

theorem totalVertexWeight_nonneg (hg : Hypergraph)
    (hnonneg : ∀ v, v < hg.GetNumVertices → 0 ≤ hg.vertexWeight v) :
    0 ≤ totalVertexWeight hg := by
  unfold totalVertexWeight
  have key : ∀ k, k ≤ hg.GetNumVertices →
      0 ≤ (List.range k).foldl (fun total_weight v => total_weight + hg.vertexWeight v) 0 := by
    intro k
    induction k with
    | zero => intro _; simp
    | succ j ih =>
      intro hj
      rw [List.range_succ, List.foldl_append, List.foldl_cons, List.foldl_nil]
      exact add_nonneg (ih (by omega)) (hnonneg j (by omega))
  exact key _ (le_refl _)

/-- Claim C12: for non-negative vertex weights, `num_parts_ ≥ 1` and a
balance factor `≥ 1`, a vertex placed by the greedy branch goes to the
partition found by the minimum scan and leaves that partition's weight at
most target * balance; and every partition whose final weight exceeds
target * balance was within the bound before some vertex `v`, exceeded it
after `v`, and `v` was placed there by the random-fallback branch. -/
theorem greedy_keeps_balance (R : RandomEngine) (hR : R.InRange) (hg : Hypergraph)
    (num_parts_ : Int) (balance_ : ℚ) (seed_ : Int) (hparts : 1 ≤ num_parts_)
    (hbalance : 1 ≤ balance_)
    (hnonneg : ∀ v, v < hg.GetNumVertices → 0 ≤ hg.vertexWeight v) :
    (∀ v, v < hg.GetNumVertices → PlacedGreedily R hg num_parts_ balance_ seed_ v →
        (placementAfter R hg num_parts_ balance_ seed_ (v + 1)).part_weights.getD
            (findBestPart (placementAfter R hg num_parts_ balance_ seed_ v).part_weights
              num_parts_) 0 ≤
          totalVertexWeight hg / (num_parts_ : ℚ) * balance_) ∧
      ∀ p : Nat,
        totalVertexWeight hg / (num_parts_ : ℚ) * balance_ <
            (placementAfter R hg num_parts_ balance_ seed_
              hg.GetNumVertices).part_weights.getD p 0 →
          ∃ v, v < hg.GetNumVertices ∧
            (placementAfter R hg num_parts_ balance_ seed_ v).part_weights.getD p 0 ≤
              totalVertexWeight hg / (num_parts_ : ℚ) * balance_ ∧
            totalVertexWeight hg / (num_parts_ : ℚ) * balance_ <
              (placementAfter R hg num_parts_ balance_ seed_ (v + 1)).part_weights.getD p 0 ∧
            ¬ PlacedGreedily R hg num_parts_ balance_ seed_ v ∧
            (R.draw 0 (num_parts_ - 1)
              (placementAfter R hg num_parts_ balance_ seed_ v).gen).1 = (p : Int) := by
  have hB : 0 ≤ totalVertexWeight hg / (num_parts_ : ℚ) * balance_ := by
    apply mul_nonneg
    · apply div_nonneg (totalVertexWeight_nonneg hg hnonneg)
      have : (1 : ℚ) ≤ (num_parts_ : ℚ) := by exact_mod_cast hparts
      linarith
    · linarith
  refine ⟨?_, ?_⟩
  · intro v _ hgreedy
    unfold PlacedGreedily at hgreedy
    rw [placementAfter_succ]
    unfold placeVertex
    dsimp only
    rw [if_pos hgreedy, getD_set,
      if_pos ⟨rfl, by rw [placementAfter_length]; exact findBestPart_lt_toNat _ _ hparts⟩]
    exact hgreedy
  · intro p
    have key : ∀ k, k ≤ hg.GetNumVertices →
        totalVertexWeight hg / (num_parts_ : ℚ) * balance_ <
            (placementAfter R hg num_parts_ balance_ seed_ k).part_weights.getD p 0 →
          ∃ v, v < k ∧
            (placementAfter R hg num_parts_ balance_ seed_ v).part_weights.getD p 0 ≤
              totalVertexWeight hg / (num_parts_ : ℚ) * balance_ ∧
            totalVertexWeight hg / (num_parts_ : ℚ) * balance_ <
              (placementAfter R hg num_parts_ balance_ seed_ (v + 1)).part_weights.getD p 0 ∧
            ¬ PlacedGreedily R hg num_parts_ balance_ seed_ v ∧
            (R.draw 0 (num_parts_ - 1)
              (placementAfter R hg num_parts_ balance_ seed_ v).gen).1 = (p : Int) := by
      intro k
      induction k with
      | zero =>
        intro _ hover
        exfalso
        have hzero : (placementAfter R hg num_parts_ balance_ seed_ 0).part_weights.getD p 0 =
            0 := by
          simp only [placementAfter, List.range_zero, List.foldl_nil,
            List.getD_eq_getElem?_getD]
          by_cases hp : p < num_parts_.toNat
          · simp [List.getElem?_replicate, hp]
          · simp [List.getElem?_replicate, hp]
        rw [hzero] at hover
        linarith
      | succ j ih =>
        intro hj hover
        by_cases hbefore : totalVertexWeight hg / (num_parts_ : ℚ) * balance_ <
            (placementAfter R hg num_parts_ balance_ seed_ j).part_weights.getD p 0
        · obtain ⟨v, hv, hrest⟩ := ih (by omega) hbefore
          exact ⟨v, by omega, hrest⟩
        · rw [not_lt] at hbefore
          refine ⟨j, by omega, hbefore, hover, ?_⟩
          rw [placementAfter_succ] at hover
          unfold placeVertex at hover
          dsimp only at hover
          by_cases hgreedy : PlacedGreedily R hg num_parts_ balance_ seed_ j
          · exfalso
            have hg' := hgreedy
            unfold PlacedGreedily at hg'
            rw [if_pos hg', getD_set] at hover
            split_ifs at hover with hsame
            · linarith
            · linarith
          · refine ⟨hgreedy, ?_⟩
            have hg' := hgreedy
            unfold PlacedGreedily at hg'
            rw [if_neg hg', getD_set] at hover
            split_ifs at hover with hsame
            · have hrange := hR 0 (num_parts_ - 1)
                (placementAfter R hg num_parts_ balance_ seed_ j).gen (by omega)
              have := hsame.1
              omega
            · linarith
    exact key _ (le_refl _)

/-- Witness for C12 on `hypergraphB` (weights 1, 3, 3; two partitions,
balance 1, target * balance = 7/2): the vertices 0 and 1 are placed greedily,
vertex 2 does not fit and is drawn into partition 0, whose final weight 4
exceeds the bound. -/
theorem greedy_keeps_balance_witness :
    (placementAfter lcgEngine hypergraphB 2 1 0 hypergraphB.GetNumVertices).part_weights =
      [4, 3] ∧
    totalVertexWeight hypergraphB / ((2 : Int) : ℚ) * 1 = 7 / 2 ∧
    ∃ v, v < hypergraphB.GetNumVertices ∧
      (placementAfter lcgEngine hypergraphB 2 1 0 v).part_weights.getD 0 0 ≤
        totalVertexWeight hypergraphB / ((2 : Int) : ℚ) * 1 ∧
      totalVertexWeight hypergraphB / ((2 : Int) : ℚ) * 1 <
        (placementAfter lcgEngine hypergraphB 2 1 0 (v + 1)).part_weights.getD 0 0 ∧
      ¬ PlacedGreedily lcgEngine hypergraphB 2 1 0 v ∧
      (lcgEngine.draw 0 (2 - 1) (placementAfter lcgEngine hypergraphB 2 1 0 v).gen).1 =
        ((0 : Nat) : Int) :=
  ⟨by with_unfolding_all decide, by with_unfolding_all decide,
    (greedy_keeps_balance lcgEngine lcgEngine_inRange hypergraphB 2 1 0 (by decide)
      (le_refl _) (by with_unfolding_all decide)).2 0 (by with_unfolding_all decide)⟩

/-! ## Writing and reading integers -/


theorem digitChar_spec :
    ∀ d, d < 10 → (digitChar d).isDigit = true ∧ (digitChar d).toNat - 48 = d := by
  decide

theorem digitsValue_concat (ds : List Char) (ch : Char) :
    digitsValue (ds ++ [ch]) = 10 * digitsValue ds + (ch.toNat - 48) := by
  unfold digitsValue
  rw [List.foldl_append]
  rfl

/-- The digits written for `n` are decimal digits, there is at least one, and
their value is `n`. -/
theorem showNatAux_spec (fuel n : Nat) (h : n < fuel) :
    showNatAux fuel n ≠ [] ∧ (∀ ch ∈ showNatAux fuel n, ch.isDigit = true) ∧
      digitsValue (showNatAux fuel n) = n := by
  induction fuel generalizing n with
  | zero => omega
  | succ f ih =>
    unfold showNatAux
    by_cases hn : n < 10
    · rw [if_pos hn]
      obtain ⟨h1, h2⟩ := digitChar_spec n hn
      refine ⟨by simp, ?_, ?_⟩
      · intro ch hch
        rw [List.mem_singleton] at hch
        rw [hch]; exact h1
      · simp [digitsValue, h2]
    · rw [if_neg hn]
      obtain ⟨_, g2, g3⟩ := ih (n / 10) (by omega)
      obtain ⟨h1, h2⟩ := digitChar_spec (n % 10) (Nat.mod_lt _ (by norm_num))
      refine ⟨by simp, ?_, ?_⟩
      · intro ch hch
        rcases List.mem_append.1 hch with hch | hch
        · exact g2 ch hch
        · rw [List.mem_singleton] at hch
          rw [hch]; exact h1
      · rw [digitsValue_concat, g3, h2]
        omega

theorem showNat_spec (n : Nat) :
    showNat n ≠ [] ∧ (∀ ch ∈ showNat n, ch.isDigit = true) ∧ digitsValue (showNat n) = n :=
  showNatAux_spec (n + 1) n (by omega)

/-- A decimal digit is no white space, no sign, no `#` and no line
terminator. -/
theorem isDigit_facts (ch : Char) (h : ch.isDigit = true) :
    isSpace ch = false ∧ ch ≠ '-' ∧ ch ≠ '+' ∧ ch ≠ '#' ∧ ch ≠ newline := by
  have hne : ∀ c0 : Char, c0.isDigit = false → ch ≠ c0 := by
    intro c0 h0 heq
    rw [heq, h0] at h
    exact Bool.noConfusion h
  have h1 := hne ' ' (by decide)
  have h2 := hne (Char.ofNat 9) (by decide)
  have h3 := hne (Char.ofNat 10) (by decide)
  have h4 := hne (Char.ofNat 11) (by decide)
  have h5 := hne (Char.ofNat 12) (by decide)
  have h6 := hne (Char.ofNat 13) (by decide)
  refine ⟨?_, hne '-' (by decide), hne '+' (by decide), hne '#' (by decide), h3⟩
  unfold isSpace
  simp [h1, h2, h3, h4, h5, h6]

/-- The longest run of digits at the head of `ds ++ rest` is `ds`, when `ds`
consists of digits and `rest` does not start with one. -/
theorem takeWhile_digits (ds rest : List Char) (hds : ∀ ch ∈ ds, ch.isDigit = true)
    (hrest : ∀ ch, rest.head? = some ch → ch.isDigit = false) :
    (ds ++ rest).takeWhile Char.isDigit = ds ∧ (ds ++ rest).dropWhile Char.isDigit = rest := by
  induction ds with
  | nil =>
    cases rest with
    | nil => simp
    | cons r rs =>
      have := hrest r rfl
      simp [List.takeWhile_cons, List.dropWhile_cons, this]
  | cons d ds ih =>
    have hd := hds d (List.mem_cons_self _ _)
    obtain ⟨h1, h2⟩ := ih (fun ch hch => hds ch (List.mem_cons_of_mem _ hch))
    simp only [List.cons_append, List.takeWhile_cons, List.dropWhile_cons, hd, if_true, h1, h2,
      and_self]

/-- Reading back the digits written for `n`. -/
theorem readDigits_showNat (negative : Bool) (n : Nat) (rest : List Char)
    (hrest : ∀ ch, rest.head? = some ch → ch.isDigit = false) :
    readDigits negative (showNat n ++ rest) =
      if negative then
        if (n : Int) ≤ 2147483648 then some (-(n : Int), rest) else none
      else
        if (n : Int) ≤ 2147483647 then some ((n : Int), rest) else none := by
  obtain ⟨h1, h2, h3⟩ := showNat_spec n
  obtain ⟨g1, g2⟩ := takeWhile_digits (showNat n) rest h2 hrest
  unfold readDigits
  rw [g1, g2, if_neg h1, h3]

theorem showInt_ne_nil (i : Int) : showInt i ≠ [] := by
  unfold showInt
  split_ifs
  · simp
  · exact (showNat_spec _).1

/-- What is written for an `int` starts with `-` or a digit and continues
with digits. -/
theorem showInt_chars (i : Int) :
    ∀ ch ∈ showInt i, ch = '-' ∨ ch.isDigit = true := by
  intro ch hch
  unfold showInt at hch
  split_ifs at hch
  · rcases List.mem_cons.1 hch with h | h
    · exact Or.inl h
    · exact Or.inr ((showNat_spec _).2.1 ch h)
  · exact Or.inr ((showNat_spec _).2.1 ch hch)

theorem newline_not_mem_showInt (i : Int) : newline ∉ showInt i := by
  intro h
  rcases showInt_chars i newline h with h | h
  · revert h; decide
  · revert h; decide

theorem newline_not_mem_showNat (n : Nat) : newline ∉ showNat n := by
  intro h
  have := (showNat_spec n).2.1 newline h
  revert this; decide

/-- `operator>>` on a stream that starts with a character that is no white
space. -/
theorem readInt_cons (ch : Char) (rest : List Char) (hch : isSpace ch = false) :
    readInt (ch :: rest) =
      if ch = '-' then readDigits true rest
      else if ch = '+' then readDigits false rest
      else readDigits false (ch :: rest) := by
  unfold readInt
  rw [List.dropWhile_cons, hch]
  rfl

/-- `operator>>` skips leading white space. -/
theorem readInt_space (ch : Char) (rest : List Char) (hch : isSpace ch = true) :
    readInt (ch :: rest) = readInt rest := by
  unfold readInt
  rw [List.dropWhile_cons, hch]
  rfl

/-- Round trip of one `int`: what `operator<<` writes for a 32-bit value is
read back by `operator>>`, which stops in front of the first character that
is no digit. -/
theorem readInt_showInt (i : Int) (rest : List Char)
    (hlo : -2147483648 ≤ i) (hhi : i ≤ 2147483647)
    (hrest : ∀ ch, rest.head? = some ch → ch.isDigit = false) :
    readInt (showInt i ++ rest) = some (i, rest) := by
  unfold showInt
  by_cases hneg : i < 0
  · rw [if_pos hneg, List.cons_append, readInt_cons _ _ (by decide), if_pos rfl,
      readDigits_showNat true _ rest hrest, if_pos rfl, if_pos (by omega)]
    congr 2
    omega
  · rw [if_neg hneg]
    obtain ⟨h1, h2, _⟩ := showNat_spec i.toNat
    have hread := readDigits_showNat false i.toNat rest hrest
    cases hshow : showNat i.toNat with
    | nil => exact absurd hshow h1
    | cons d ds =>
      have hd : d.isDigit = true := h2 d (by rw [hshow]; exact List.mem_cons_self _ _)
      obtain ⟨f1, f2, f3, _, _⟩ := isDigit_facts d hd
      rw [hshow] at hread
      rw [List.cons_append, readInt_cons _ _ f1, if_neg f2, if_neg f3, ← List.cons_append,
        hread, if_neg (by simp), if_pos (by omega)]
      congr 2
      omega

/-! ## The reading loop on the lines of the format -/


theorem getLinesAux_line (current line rest : List Char) (hline : newline ∉ line) :
    getLinesAux current (line ++ newline :: rest) =
      (current.reverse ++ line) :: getLinesAux [] rest := by
  induction line generalizing current with
  | nil =>
    rw [List.nil_append, getLinesAux, if_pos rfl, List.append_nil]
  | cons ch chs ih =>
    rw [List.mem_cons, not_or] at hline
    rw [List.cons_append, getLinesAux, if_neg (fun h => hline.1 h.symm), ih _ hline.2]
    simp

/-- The reading loop consumes a first line that holds no line terminator. -/
theorem readSolutionFrom_line (solution : List Int) (line rest : List Char)
    (hline : newline ∉ line) :
    readSolutionFrom solution (line ++ newline :: rest) =
      readSolutionFrom (readSolutionLine solution line) rest := by
  unfold readSolutionFrom getLines
  rw [getLinesAux_line [] line rest hline]
  rfl

theorem readSolutionFrom_nil (solution : List Int) : readSolutionFrom solution [] = solution :=
  rfl

/-- A blank line contributes nothing. -/
theorem readSolutionLine_blank (solution : List Int) : readSolutionLine solution [] = solution := by
  unfold readSolutionLine
  simp

/-- A line that starts with `#` contributes nothing. -/
theorem readSolutionLine_comment (solution : List Int) (line : List Char)
    (h : line.head? = some '#') : readSolutionLine solution line = solution := by
  unfold readSolutionLine
  rw [if_pos (Or.inr h)]

theorem head?_showInt (i : Int) :
    ∃ ch rest, showInt i = ch :: rest ∧ ch ≠ '#' ∧ isSpace ch = false := by
  cases hshow : showInt i with
  | nil => exact absurd hshow (showInt_ne_nil i)
  | cons ch rest =>
    refine ⟨ch, rest, rfl, ?_⟩
    rcases showInt_chars i ch (by rw [hshow]; exact List.mem_cons_self _ _) with h | h
    · rw [h]; exact ⟨by decide, by decide⟩
    · obtain ⟨f1, _, _, f4, _⟩ := isDigit_facts ch h
      exact ⟨f4, f1⟩

/-- A data line `<first> <second>` contributes its second number. -/
theorem readSolutionLine_data (solution : List Int) (first second : Int)
    (h1 : -2147483648 ≤ first ∧ first ≤ 2147483647)
    (h2 : -2147483648 ≤ second ∧ second ≤ 2147483647) :
    readSolutionLine solution (showInt first ++ ' ' :: showInt second) =
      solution ++ [second] := by
  obtain ⟨ch, rest, hshow, hne, _⟩ := head?_showInt first
  have hnotnil : showInt first ++ ' ' :: showInt second ≠ [] := by rw [hshow]; simp
  have hhead : (showInt first ++ ' ' :: showInt second).head? ≠ some '#' := by
    rw [hshow]
    simp only [List.cons_append, List.head?_cons, ne_eq, Option.some.injEq]
    exact hne
  have hfirst : readInt (showInt first ++ ' ' :: showInt second) =
      some (first, ' ' :: showInt second) := by
    apply readInt_showInt first _ h1.1 h1.2
    intro c hc
    simp only [List.head?_cons, Option.some.injEq] at hc
    rw [← hc]; decide
  have hsecond : readInt (' ' :: showInt second) = some (second, []) := by
    rw [readInt_space _ _ (by decide)]
    have := readInt_showInt second [] h2.1 h2.2 (by intro c hc; simp at hc)
    rwa [List.append_nil] at this
  unfold readSolutionLine
  rw [if_neg (by rw [not_or]; exact ⟨hnotnil, hhead⟩), hfirst]
  dsimp only
  rw [hsecond]

theorem newline_not_mem_data (first second : Int) :
    newline ∉ showInt first ++ ' ' :: showInt second := by
  rw [List.mem_append, List.mem_cons]
  rintro (h | h | h)
  · exact newline_not_mem_showInt _ h
  · revert h; decide
  · exact newline_not_mem_showInt _ h

/-- What the reader takes from one line of the format. -/
theorem readSolutionLine_render (solution : List Int) (line : SolutionLine)
    (h : line.WellFormed) :
    readSolutionLine solution line.render =
      solution ++ (line.entry.map fun e => e.2).toList ∧ newline ∉ line.render := by
  cases line with
  | blank =>
    exact ⟨by simp [SolutionLine.render, SolutionLine.entry, readSolutionLine_blank],
      by simp [SolutionLine.render]⟩
  | comment text =>
    refine ⟨?_, ?_⟩
    · rw [SolutionLine.render, readSolutionLine_comment solution ('#' :: text) rfl]
      simp [SolutionLine.entry]
    · rw [SolutionLine.render, List.mem_cons, not_or]
      exact ⟨by decide, h⟩
  | data v p =>
    refine ⟨?_, newline_not_mem_data v p⟩
    rw [SolutionLine.render, readSolutionLine_data _ v p h.1 h.2]
    simp [SolutionLine.entry]

/-- The reading loop on a file of the two-column format: the labels of the
data lines, appended in file order. -/
theorem readSolutionFrom_render (lines : List SolutionLine) (solution : List Int)
    (h : ∀ line ∈ lines, line.WellFormed) :
    readSolutionFrom solution (renderSolutionFile lines) =
      solution ++ (lines.filterMap SolutionLine.entry).map fun e => e.2 := by
  induction lines generalizing solution with
  | nil => simp [renderSolutionFile, readSolutionFrom_nil]
  | cons line rest ih =>
    obtain ⟨hread, hnl⟩ := readSolutionLine_render solution line
      (h line (List.mem_cons_self _ _))
    have hrest := ih (readSolutionLine solution line.render)
      (fun l hl => h l (List.mem_cons_of_mem _ hl))
    unfold renderSolutionFile at hrest ⊢
    rw [List.flatMap_cons, List.append_assoc, List.singleton_append,
      readSolutionFrom_line _ _ _ hnl, hrest, hread]
    cases hentry : line.entry with
    | none => simp [List.filterMap_cons, hentry]
    | some e => simp [List.filterMap_cons, hentry]

/-! ## Solution files in the two-column format -/


/-- Counterexample to C20 as stated: in the file with the data lines `1 0`
and `0 1` the line of vertex 0 carries the partition 1, but the solution
loaded is `[0, 1]` and gives vertex 0 the partition 0. -/
theorem readSolution_order_counterexample :
    readSolution (renderSolutionFile [SolutionLine.data 1 0, SolutionLine.data 0 1]) =
      [0, 1] ∧
    ¬ (∀ (v p : Int),
        SolutionLine.data v p ∈ [SolutionLine.data 1 0, SolutionLine.data 0 1] →
        (readSolution
          (renderSolutionFile [SolutionLine.data 1 0, SolutionLine.data 0 1]))[v.toNat]? =
          some p) := by
  have hread : readSolution
      (renderSolutionFile [SolutionLine.data 1 0, SolutionLine.data 0 1]) = [0, 1] := by
    decide
  refine ⟨hread, ?_⟩
  intro hall
  have h := hall 0 1 (by decide)
  rw [hread] at h
  revert h
  decide

/-- Claim C20, amended: for every solution file whose lines are blank lines,
`#` lines and data lines `<vertex_id> <partition_id>`, the solution loaded by
`runEvaluate` is the list of the partition ids of the data lines in file
order: the data line number `k` gives entry `k`, whatever vertex id it
carries, and blank lines and `#` lines contribute nothing. Hence every vertex
id gets the partition id written on its line when the data lines come in the
order of the vertex ids 0, 1, 2, ... -/
theorem readSolution_two_column (lines : List SolutionLine)
    (h : ∀ line ∈ lines, line.WellFormed) :
    readSolution (renderSolutionFile lines) =
        ((lines.filterMap SolutionLine.entry).map fun e => e.2) ∧
      (∀ (k : Nat) (v p : Int), (lines.filterMap SolutionLine.entry)[k]? = some (v, p) →
        (readSolution (renderSolutionFile lines))[k]? = some p) ∧
      ((∀ (k : Nat) (v p : Int), (lines.filterMap SolutionLine.entry)[k]? = some (v, p) →
          v = (k : Int)) →
        ∀ (v p : Int), SolutionLine.data v p ∈ lines →
          (readSolution (renderSolutionFile lines))[v.toNat]? = some p) := by
  have hread : readSolution (renderSolutionFile lines) =
      ((lines.filterMap SolutionLine.entry).map fun e => e.2) := by
    unfold readSolution
    rw [readSolutionFrom_render lines [] h, List.nil_append]
  have hkth : ∀ (k : Nat) (v p : Int), (lines.filterMap SolutionLine.entry)[k]? = some (v, p) →
      (readSolution (renderSolutionFile lines))[k]? = some p := by
    intro k v p hk
    rw [hread, List.getElem?_map, hk]
    rfl
  refine ⟨hread, hkth, ?_⟩
  intro horder v p hmem
  have hentry : (v, p) ∈ lines.filterMap SolutionLine.entry :=
    List.mem_filterMap.2 ⟨_, hmem, rfl⟩
  obtain ⟨k, hk⟩ := List.getElem?_of_mem hentry
  have hv := horder k v p hk
  rw [hv, Int.toNat_natCast]
  exact hkth k v p hk

/-- Witness for the amended C20: a file with a comment, a blank line and the
data lines `0 1` and `1 0` in vertex order is loaded as `[1, 0]`. -/
theorem readSolution_two_column_witness :
    readSolution (renderSolutionFile
      [SolutionLine.comment " solution".toList, SolutionLine.data 0 1, SolutionLine.blank,
        SolutionLine.data 1 0]) = [1, 0] ∧
    (readSolution (renderSolutionFile
      [SolutionLine.comment " solution".toList, SolutionLine.data 0 1, SolutionLine.blank,
        SolutionLine.data 1 0]))[(1 : Int).toNat]? = some 0 :=
  ⟨by decide,
    (readSolution_two_column
      [SolutionLine.comment " solution".toList, SolutionLine.data 0 1, SolutionLine.blank,
        SolutionLine.data 1 0]
      (by
        intro line hline
        simp only [List.mem_cons, List.mem_singleton, List.not_mem_nil, or_false] at hline
        rcases hline with rfl | rfl | rfl | rfl
        · show newline ∉ " solution".toList
          decide
        · exact ⟨⟨by norm_num, by norm_num⟩, ⟨by norm_num, by norm_num⟩⟩
        · trivial
        · exact ⟨⟨by norm_num, by norm_num⟩, ⟨by norm_num, by norm_num⟩⟩)).2.2
      (by
        intro k v p hk
        have hlist : List.filterMap SolutionLine.entry
            [SolutionLine.comment " solution".toList, SolutionLine.data 0 1,
              SolutionLine.blank, SolutionLine.data 1 0] = [(0, 1), (1, 0)] := by
          decide
        rw [hlist] at hk
        match k, hk with
        | 0, hk =>
          simp only [List.getElem?_cons_zero, Option.some.injEq, Prod.mk.injEq] at hk
          omega
        | 1, hk =>
          simp only [List.getElem?_cons_succ, List.getElem?_cons_zero, Option.some.injEq,
            Prod.mk.injEq] at hk
          omega
        | k + 2, hk => simp at hk)
      1 0 (by decide)⟩

/-! ## Lines of instance names -/

theorem readDigits_none (negative : Bool) (s : List Char)
    (h : ∀ ch, s.head? = some ch → ch.isDigit = false) : readDigits negative s = none := by
  have htake : s.takeWhile Char.isDigit = [] := by
    cases s with
    | nil => rfl
    | cons ch rest => simp [List.takeWhile_cons, h ch rfl]
  unfold readDigits
  rw [if_pos htake]

theorem dropWhile_append_of_ne_nil (P : Char → Bool) (a b : List Char)
    (h : a.dropWhile P ≠ []) : (a ++ b).dropWhile P = a.dropWhile P ++ b := by
  induction a with
  | nil => simp at h
  | cons x xs ih =>
    rw [List.cons_append, List.dropWhile_cons, List.dropWhile_cons]
    rw [List.dropWhile_cons] at h
    by_cases hx : P x = true
    · rw [if_pos hx] at h ⊢
      rw [if_pos hx]
      exact ih h
    · rw [if_neg hx, if_neg hx]
      rfl

theorem head_dropWhile (P : Char → Bool) (a : List Char) (ch : Char) (rest : List Char)
    (h : a.dropWhile P = ch :: rest) : P ch = false := by
  induction a with
  | nil => simp at h
  | cons x xs ih =>
    rw [List.dropWhile_cons] at h
    by_cases hx : P x = true
    · rw [if_pos hx] at h
      exact ih h
    · rw [if_neg hx] at h
      simp only [List.cons.injEq] at h
      rw [← h.1]
      simpa using hx

/-- The line of an instance name that does not start like a number
contributes nothing. -/
theorem readSolutionLine_name (solution : List Int) (name : List Char) (p : Int)
    (hname : startsLikeNumber name = false) :
    readSolutionLine solution (name ++ ' ' :: showInt p) = solution := by
  by_cases hhead : (name ++ ' ' :: showInt p).head? = some '#'
  · exact readSolutionLine_comment _ _ hhead
  · have hnotnil : name ++ ' ' :: showInt p ≠ [] := by simp
    unfold startsLikeNumber at hname
    cases hdrop : name.dropWhile isSpace with
    | nil => rw [hdrop] at hname; exact absurd hname (by decide)
    | cons ch rest =>
      rw [hdrop] at hname
      simp only [Bool.or_eq_false_iff, Bool.and_eq_false_iff] at hname
      obtain ⟨hdigit, hsign⟩ := hname
      have hspace : isSpace ch = false := head_dropWhile isSpace name ch rest hdrop
      have hline : (name ++ ' ' :: showInt p).dropWhile isSpace =
          ch :: (rest ++ ' ' :: showInt p) := by
        rw [dropWhile_append_of_ne_nil _ _ _ (by rw [hdrop]; simp), hdrop]
        rfl
      have hread : readInt (name ++ ' ' :: showInt p) = none := by
        have hsame : readInt (name ++ ' ' :: showInt p) =
            readInt (ch :: (rest ++ ' ' :: showInt p)) := by
          unfold readInt
          rw [hline, List.dropWhile_cons, hspace]
          rfl
        rw [hsame, readInt_cons _ _ hspace]
        have hafter : ch = '-' ∨ ch = '+' →
            ∀ c, (rest ++ ' ' :: showInt p).head? = some c → c.isDigit = false := by
          intro hch c hc
          rcases hsign with hs | hs
          · rcases hch with h | h
            · rw [h] at hs; exact absurd hs (by decide)
            · rw [h] at hs; exact absurd hs (by decide)
          · cases rest with
            | nil =>
              simp only [List.nil_append, List.head?_cons, Option.some.injEq] at hc
              rw [← hc]; decide
            | cons d ds =>
              simp only [List.cons_append, List.head?_cons, Option.some.injEq] at hc
              rw [← hc]
              simpa using hs
        split_ifs with h1 h2
        · exact readDigits_none _ _ (hafter (Or.inl h1))
        · exact readDigits_none _ _ (hafter (Or.inr h2))
        · apply readDigits_none
          intro c hc
          simp only [List.head?_cons, Option.some.injEq] at hc
          rw [← hc]; exact hdigit
      unfold readSolutionLine
      rw [if_neg (by rw [not_or]; exact ⟨hnotnil, hhead⟩), hread]

/-! ## Reading back the sections of the result file -/


/-- A comment line at the head of a text is consumed without effect. -/
theorem readSolutionFrom_comment (solution : List Int) (line rest : List Char)
    (hhead : line.head? = some '#') (hline : newline ∉ line) :
    readSolutionFrom solution (line ++ newline :: rest) = readSolutionFrom solution rest := by
  rw [readSolutionFrom_line _ _ _ hline, readSolutionLine_comment _ _ hhead]

/-- A blank line at the head of a text is consumed without effect. -/
theorem readSolutionFrom_blank (solution : List Int) (rest : List Char) :
    readSolutionFrom solution (newline :: rest) = readSolutionFrom solution rest := by
  have := readSolutionFrom_line solution [] rest (by simp)
  rw [List.nil_append] at this
  rw [this, readSolutionLine_blank]

theorem showInt_natCast (n : Nat) : showInt (n : Int) = showNat n := by
  unfold showInt
  rw [if_neg (by omega), Int.toNat_natCast]

/-- The vertex section is read back as the labels it was written from. -/
theorem readSolutionFrom_vertexLines (labels : List Int) (start : Nat) (solution : List Int)
    (rest : List Char)
    (hlabels : ∀ p ∈ labels, -2147483648 ≤ p ∧ p ≤ 2147483647)
    (hlen : start + labels.length ≤ 2147483648) :
    readSolutionFrom solution (vertexLines start labels ++ rest) =
      readSolutionFrom (solution ++ labels) rest := by
  induction labels generalizing start solution with
  | nil => simp [vertexLines]
  | cons p ps ih =>
    have hp := hlabels p (List.mem_cons_self _ _)
    have hlen' : start + 1 + ps.length ≤ 2147483648 := by
      simp only [List.length_cons] at hlen; omega
    have hstart : (start : Int) ≤ 2147483647 := by
      simp only [List.length_cons] at hlen; omega
    have hshape : vertexLines start (p :: ps) ++ rest =
        (showInt (start : Int) ++ ' ' :: showInt p) ++
          newline :: (vertexLines (start + 1) ps ++ rest) := by
      rw [vertexLines, showInt_natCast]
      simp only [List.append_assoc, List.cons_append]
    rw [hshape, readSolutionFrom_line _ _ _ (newline_not_mem_data _ _),
      readSolutionLine_data _ _ _ ⟨by omega, hstart⟩ hp,
      ih (start + 1) _ (fun q hq => hlabels q (List.mem_cons_of_mem _ hq)) hlen']
    simp

/-- The lines of instance names that do not start like a number and hold no
line terminator are consumed without effect. -/
theorem readSolutionFrom_nameLines (instances : List Instance) (labels : List Int)
    (solution : List Int)
    (hnames : ∀ inst ∈ instances,
      newline ∉ inst.name.toList ∧ startsLikeNumber inst.name.toList = false) :
    readSolutionFrom solution (nameLines instances labels) = solution := by
  induction instances generalizing labels with
  | nil => simp [nameLines, readSolutionFrom_nil]
  | cons inst insts ih =>
    cases labels with
    | nil => simp [nameLines, readSolutionFrom_nil]
    | cons p ps =>
      obtain ⟨hnl, hnum⟩ := hnames inst (List.mem_cons_self _ _)
      have hline : newline ∉ inst.name.toList ++ ' ' :: showInt p := by
        rw [List.mem_append, List.mem_cons]
        rintro (h | h | h)
        · exact hnl h
        · revert h; decide
        · exact newline_not_mem_showInt _ h
      have hshape : nameLines (inst :: insts) (p :: ps) =
          (inst.name.toList ++ ' ' :: showInt p) ++ newline :: nameLines insts ps := by
        simp only [nameLines, List.append_assoc, List.cons_append]
      rw [hshape, readSolutionFrom_line _ _ _ hline, readSolutionLine_name _ _ _ hnum]
      exact ih ps (fun i hi => hnames i (List.mem_cons_of_mem _ hi))

/-- The header is consumed without effect. -/
theorem readSolutionFrom_header (showFloat : ℚ → List Char) (c : TritonPartCore)
    (hg : Hypergraph) (solution : List Int) (rest : List Char)
    (hfloat : ∀ x, newline ∉ showFloat x) :
    readSolutionFrom solution (resultHeader showFloat c hg ++ rest) =
      readSolutionFrom solution rest := by
  have hshape : resultHeader showFloat c hg ++ rest =
      "# TritonPart Partition Result".toList ++ newline ::
        (("# Partitions: ".toList ++ showInt c.num_parts_) ++ newline ::
          (("# Vertices: ".toList ++ showNat hg.GetNumVertices) ++ newline ::
            (("# Hyperedges: ".toList ++ showNat hg.GetNumHyperedges) ++ newline ::
              (("# Cutsize: ".toList ++ showFloat c.cutsize_) ++ newline ::
                ("# Format: vertex_id partition_id".toList ++ newline ::
                  (newline :: rest)))))) := by
    unfold resultHeader
    simp only [List.append_assoc, List.cons_append, List.nil_append]
  rw [hshape,
    readSolutionFrom_comment solution "# TritonPart Partition Result".toList _ rfl
      (by decide),
    readSolutionFrom_comment solution ("# Partitions: ".toList ++ showInt c.num_parts_) _ rfl
      (by rw [List.mem_append]; rintro (h | h)
          · revert h; decide
          · exact newline_not_mem_showInt _ h),
    readSolutionFrom_comment solution ("# Vertices: ".toList ++ showNat hg.GetNumVertices) _
      rfl
      (by rw [List.mem_append]; rintro (h | h)
          · revert h; decide
          · exact newline_not_mem_showNat _ h),
    readSolutionFrom_comment solution
      ("# Hyperedges: ".toList ++ showNat hg.GetNumHyperedges) _ rfl
      (by rw [List.mem_append]; rintro (h | h)
          · revert h; decide
          · exact newline_not_mem_showNat _ h),
    readSolutionFrom_comment solution ("# Cutsize: ".toList ++ showFloat c.cutsize_) _ rfl
      (by rw [List.mem_append]; rintro (h | h)
          · revert h; decide
          · exact hfloat _ h),
    readSolutionFrom_comment solution "# Format: vertex_id partition_id".toList _ rfl
      (by decide),
    readSolutionFrom_blank]

/-- The instance-name section, when its names do not start like a number, is
consumed without effect. -/
theorem readSolutionFrom_instanceSection (adapter_ : Option OpenStaAdapter)
    (labels : List Int) (solution : List Int)
    (hnames : ∀ adapter, adapter_ = some adapter → ∀ inst ∈ adapter.getInstances,
      newline ∉ inst.name.toList ∧ startsLikeNumber inst.name.toList = false) :
    readSolutionFrom solution (instanceSection adapter_ labels) = solution := by
  unfold instanceSection
  cases adapter_ with
  | none => exact readSolutionFrom_nil _
  | some adapter =>
    dsimp only
    split_ifs
    · rw [readSolutionFrom_blank,
        readSolutionFrom_comment solution "# Instance names mapping".toList _ rfl (by decide),
        readSolutionFrom_comment solution "# Format: instance_name partition_id".toList _ rfl
          (by decide)]
      exact readSolutionFrom_nameLines _ _ _ (hnames adapter rfl)
    · exact readSolutionFrom_nil _

/-! ## Round trip of the result file -/


/-- The evaluation leaves the adapter of the object alone. -/
theorem evaluatePartition_adapter (c : TritonPartCore) :
    c.evaluatePartition.adapter_ = c.adapter_ := by
  unfold TritonPartCore.evaluatePartition
  split
  · rfl
  · split_ifs <;> rfl

/-- The greedy pass leaves the adapter of the object alone. -/
theorem performSimplePartition_adapter (R : RandomEngine) (c : TritonPartCore) :
    (c.performSimplePartition R).adapter_ = c.adapter_ := by
  unfold TritonPartCore.performSimplePartition
  split <;> rfl

/-- The method `partition` leaves the adapter of the object alone. -/
theorem partition_adapter (R : RandomEngine) (c : TritonPartCore) :
    (c.partition R).1.adapter_ = c.adapter_ := by
  unfold TritonPartCore.partition
  split
  · rfl
  · dsimp only
    rw [evaluatePartition_adapter]
    split_ifs
    · rw [performSimplePartition_adapter]
    · unfold TritonPartCore.performMultilevelPartition
      rw [performSimplePartition_adapter]

/-- The method `buildHypergraph` leaves the adapter of the object alone. -/
theorem buildHypergraph_adapter (c : TritonPartCore) :
    c.buildHypergraph.1.adapter_ = c.adapter_ := by
  unfold TritonPartCore.buildHypergraph
  split
  · rfl
  · split <;> rfl

/-- The stand-in float printer emits no line terminator. -/
theorem showFloatZero_newline (x : ℚ) : newline ∉ showFloatZero x := by
  show newline ∉ "0".toList
  decide

/-- Claim C19 fails on the code: an object whose adapter holds the single
instance named `7`, partitioned (assignment `[0]`). The result file ends with
the instance line `7 0`, which the reader of `runEvaluate` takes for a data
line: the solution read back is `[0, 0]`, of length 2 instead of 1, so the
text written is not read back as the same mapping. -/
theorem writePartitionResult_numeric_name_read_as_data :
    ((TritonPartCore.new.setAdapter OpenStaAdapter.numericName).buildHypergraph.1.partition
      lcgEngine).1.getPartitionAssignment = [0] ∧
    (((TritonPartCore.new.setAdapter OpenStaAdapter.numericName).buildHypergraph.1.partition
      lcgEngine).1.writePartitionResult showFloatZero).map readSolution = some [0, 0] ∧
    ¬ ((((TritonPartCore.new.setAdapter OpenStaAdapter.numericName).buildHypergraph.1.partition
        lcgEngine).1.writePartitionResult showFloatZero).map readSolution =
      some ((TritonPartCore.new.setAdapter
        OpenStaAdapter.numericName).buildHypergraph.1.partition
          lcgEngine).1.getPartitionAssignment) := by
  with_unfolding_all decide

/-- Extent of the defect shown by `7 0`: for every partition vector of
32-bit labels and every list of instance names none of which holds a line
terminator or starts like a number (a name that is blank, or that continues after optional white
space with a digit or with a sign and a digit), the text written by
`writePartitionResult` (header, vertex section and, when emitted, the
instance-name section) is read back by the solution reader of `runEvaluate`
as the same mapping: the solution has the length of the partition vector and
the same label at every index. -/
theorem writePartitionResult_roundTrip (showFloat : ℚ → List Char) (c : TritonPartCore)
    (hg : Hypergraph) (hhg : c.hypergraph_ = some hg)
    (hfloat : ∀ x, newline ∉ showFloat x)
    (hlabels : ∀ p ∈ c.partition_, -2147483648 ≤ p ∧ p ≤ 2147483647)
    (hlen : c.partition_.length ≤ 2147483648)
    (hnames : ∀ adapter, c.adapter_ = some adapter → ∀ inst ∈ adapter.getInstances,
      newline ∉ inst.name.toList ∧ startsLikeNumber inst.name.toList = false) :
    ∃ text, c.writePartitionResult showFloat = some text ∧
      readSolution text = c.getPartitionAssignment ∧
      (readSolution text).length = c.getPartitionAssignment.length ∧
      ∀ v : Nat, (readSolution text)[v]? = c.getPartitionAssignment[v]? := by
  have hread : readSolution (resultHeader showFloat c hg ++
      (vertexLines 0 c.partition_ ++ instanceSection c.adapter_ c.partition_)) =
      c.partition_ := by
    unfold readSolution
    rw [readSolutionFrom_header _ _ _ _ _ hfloat,
      readSolutionFrom_vertexLines _ 0 _ _ hlabels (by omega),
      readSolutionFrom_instanceSection _ _ _ hnames, List.nil_append]
  refine ⟨_, ?_, hread, by rw [hread]; rfl, fun v => by rw [hread]; rfl⟩
  unfold TritonPartCore.writePartitionResult
  rw [hhg]

/-- The round trip at work: scenario A partitioned through an adapter
with the instance names `u0`, ..., `u3`; the result file, instance-name
section included, is read back as the assignment. -/
theorem writePartitionResult_roundTrip_witness :
    ((TritonPartCore.new.setAdapter OpenStaAdapter.scenarioA).buildHypergraph.1.partition
      lcgEngine).1.getPartitionAssignment.length = 4 ∧
    instanceSection
        ((TritonPartCore.new.setAdapter OpenStaAdapter.scenarioA).buildHypergraph.1.partition
          lcgEngine).1.adapter_
        ((TritonPartCore.new.setAdapter OpenStaAdapter.scenarioA).buildHypergraph.1.partition
          lcgEngine).1.partition_ ≠ [] ∧
    ∃ text,
      ((TritonPartCore.new.setAdapter OpenStaAdapter.scenarioA).buildHypergraph.1.partition
        lcgEngine).1.writePartitionResult showFloatZero = some text ∧
      readSolution text =
        ((TritonPartCore.new.setAdapter OpenStaAdapter.scenarioA).buildHypergraph.1.partition
          lcgEngine).1.getPartitionAssignment ∧
      (readSolution text).length =
        ((TritonPartCore.new.setAdapter OpenStaAdapter.scenarioA).buildHypergraph.1.partition
          lcgEngine).1.getPartitionAssignment.length ∧
      ∀ v : Nat, (readSolution text)[v]? =
        ((TritonPartCore.new.setAdapter OpenStaAdapter.scenarioA).buildHypergraph.1.partition
          lcgEngine).1.getPartitionAssignment[v]? :=
  ⟨by with_unfolding_all decide, by with_unfolding_all decide,
    writePartitionResult_roundTrip showFloatZero
      ((TritonPartCore.new.setAdapter OpenStaAdapter.scenarioA).buildHypergraph.1.partition
        lcgEngine).1 hypergraphA (by with_unfolding_all decide)
      showFloatZero_newline
      (by with_unfolding_all decide) (by with_unfolding_all decide)
      (by
        intro adapter hadapter inst hinst
        rw [partition_adapter, buildHypergraph_adapter] at hadapter
        have hsame : adapter = OpenStaAdapter.scenarioA :=
          (Option.some.inj hadapter).symm
        subst hsame
        revert inst
        with_unfolding_all decide)⟩

/-! ## A balance factor of at least the number of partitions -/


/-- An entry of a list of non-negative numbers is at most their sum. -/
theorem getD_le_sum (l : List ℚ) (h : ∀ q, 0 ≤ l.getD q 0) (i : Nat) : l.getD i 0 ≤ l.sum := by
  induction l generalizing i with
  | nil => simp
  | cons x xs ih =>
    have hx : 0 ≤ x := by simpa using h 0
    have hxs : ∀ q, 0 ≤ xs.getD q 0 := fun q => by simpa using h (q + 1)
    have hsum : 0 ≤ xs.sum := by
      have := ih hxs 0
      cases xs with
      | nil => simp
      | cons y ys => exact le_trans (by simpa using hxs 0) this
    cases i with
    | zero => simp; linarith
    | succ j =>
      have := ih hxs j
      simp only [List.getD_cons_succ, List.sum_cons]
      linarith

/-- The weight of the first `k` vertices is at most the total weight when no
weight is negative. -/
theorem prefixWeight_le_total (hg : Hypergraph)
    (hnonneg : ∀ v, v < hg.GetNumVertices → 0 ≤ hg.vertexWeight v) (k : Nat)
    (hk : k ≤ hg.GetNumVertices) :
    (List.range k).foldl (fun total_weight v => total_weight + hg.vertexWeight v) 0 ≤
      totalVertexWeight hg := by
  unfold totalVertexWeight
  have key : ∀ d, k + d ≤ hg.GetNumVertices →
      (List.range k).foldl (fun total_weight v => total_weight + hg.vertexWeight v) 0 ≤
        (List.range (k + d)).foldl (fun total_weight v => total_weight + hg.vertexWeight v) 0 := by
    intro d
    induction d with
    | zero => intro _; exact le_refl _
    | succ e ih =>
      intro he
      rw [← Nat.add_assoc, List.range_succ, List.foldl_append, List.foldl_cons, List.foldl_nil]
      have := ih (by omega)
      have := hnonneg (k + e) (by omega)
      linarith
  have := key (hg.GetNumVertices - k) (by omega)
  rwa [Nat.add_sub_cancel' hk] at this

/-- With a balance factor of at least `num_parts_` the bound of the greedy
test is at least the total weight. -/
theorem total_le_bound (hg : Hypergraph) (num_parts_ : Int) (balance_ : ℚ)
    (hparts : 1 ≤ num_parts_) (hbal : (num_parts_ : ℚ) ≤ balance_)
    (hnonneg : ∀ v, v < hg.GetNumVertices → 0 ≤ hg.vertexWeight v) :
    totalVertexWeight hg ≤ totalVertexWeight hg / (num_parts_ : ℚ) * balance_ := by
  have hk : (0 : ℚ) < (num_parts_ : ℚ) := by
    have : (1 : ℚ) ≤ (num_parts_ : ℚ) := by exact_mod_cast hparts
    linarith
  have ht := totalVertexWeight_nonneg hg hnonneg
  have hq : 0 ≤ totalVertexWeight hg / (num_parts_ : ℚ) := div_nonneg ht (le_of_lt hk)
  calc totalVertexWeight hg = totalVertexWeight hg / (num_parts_ : ℚ) * (num_parts_ : ℚ) := by
        field_simp
    _ ≤ totalVertexWeight hg / (num_parts_ : ℚ) * balance_ :=
        mul_le_mul_of_nonneg_left hbal hq

/-- With a balance factor of at least `num_parts_`, after any number of
placements no partition weight is negative, the partition weights sum to the
weight of the vertices placed, and the next vertex passes the greedy test. -/
theorem placementAfter_all_greedy (R : RandomEngine) (hg : Hypergraph) (num_parts_ : Int)
    (balance_ : ℚ) (seed_ : Int) (hparts : 1 ≤ num_parts_)
    (hbal : (num_parts_ : ℚ) ≤ balance_)
    (hnonneg : ∀ v, v < hg.GetNumVertices → 0 ≤ hg.vertexWeight v) (k : Nat)
    (hk : k ≤ hg.GetNumVertices) :
    (∀ q, 0 ≤ (placementAfter R hg num_parts_ balance_ seed_ k).part_weights.getD q 0) ∧
      (placementAfter R hg num_parts_ balance_ seed_ k).part_weights.sum =
        (List.range k).foldl (fun total_weight v => total_weight + hg.vertexWeight v) 0 ∧
      (k < hg.GetNumVertices → PlacedGreedily R hg num_parts_ balance_ seed_ k) := by
  induction k with
  | zero =>
    have h0 : (placementAfter R hg num_parts_ balance_ seed_ 0).part_weights =
        List.replicate num_parts_.toNat 0 := rfl
    have hq : ∀ q, 0 ≤ (placementAfter R hg num_parts_ balance_ seed_ 0).part_weights.getD q 0 := by
      intro q
      rw [h0, List.getD_eq_getElem?_getD, List.getElem?_replicate]
      split_ifs <;> simp
    have hs : (placementAfter R hg num_parts_ balance_ seed_ 0).part_weights.sum = 0 := by
      rw [h0]; simp
    refine ⟨hq, by rw [hs]; rfl, ?_⟩
    intro hlt
    unfold PlacedGreedily
    have h1 := getD_le_sum _ hq
      (findBestPart (placementAfter R hg num_parts_ balance_ seed_ 0).part_weights num_parts_)
    rw [hs] at h1
    have h2 := prefixWeight_le_total hg hnonneg 1 (by omega)
    rw [List.range_succ, List.foldl_append, List.foldl_cons, List.foldl_nil] at h2
    simp only [List.range_zero, List.foldl_nil, zero_add] at h2
    have h3 := total_le_bound hg num_parts_ balance_ hparts hbal hnonneg
    linarith
  | succ j ih =>
    obtain ⟨hq, hs, hgr⟩ := ih (by omega)
    have hgreedy := hgr (by omega)
    have hstep : (placementAfter R hg num_parts_ balance_ seed_ (j + 1)).part_weights =
        (placementAfter R hg num_parts_ balance_ seed_ j).part_weights.set
          (findBestPart (placementAfter R hg num_parts_ balance_ seed_ j).part_weights num_parts_)
          ((placementAfter R hg num_parts_ balance_ seed_ j).part_weights.getD
            (findBestPart (placementAfter R hg num_parts_ balance_ seed_ j).part_weights
              num_parts_) 0 + hg.vertexWeight j) := by
      rw [placementAfter_succ]
      unfold placeVertex
      dsimp only
      unfold PlacedGreedily at hgreedy
      rw [if_pos hgreedy]
    have hw := hnonneg j (by omega)
    have hq' : ∀ q, 0 ≤
        (placementAfter R hg num_parts_ balance_ seed_ (j + 1)).part_weights.getD q 0 := by
      intro q
      rw [hstep, getD_set]
      split_ifs
      · exact add_nonneg (hq _) hw
      · exact hq q
    have hs' : (placementAfter R hg num_parts_ balance_ seed_ (j + 1)).part_weights.sum =
        (List.range (j + 1)).foldl (fun total_weight v => total_weight + hg.vertexWeight v) 0 := by
      rw [hstep, sum_set_add _ _ _
        (by rw [placementAfter_length]; exact findBestPart_lt_toNat _ _ hparts), hs,
        List.range_succ, List.foldl_append, List.foldl_cons, List.foldl_nil]
    refine ⟨hq', hs', ?_⟩
    intro hlt
    unfold PlacedGreedily
    have h1 := getD_le_sum _ hq'
      (findBestPart (placementAfter R hg num_parts_ balance_ seed_ (j + 1)).part_weights
        num_parts_)
    rw [hs'] at h1
    have h2 := prefixWeight_le_total hg hnonneg (j + 2) (by omega)
    rw [List.range_succ, List.foldl_append, List.foldl_cons, List.foldl_nil] at h2
    have h3 := total_le_bound hg num_parts_ balance_ hparts hbal hnonneg
    linarith

/-- Two placement traces in which every vertex passes the greedy test agree
on the partition weights and on the partition vector, whatever generators
and seeds they hold. -/
theorem placementAfter_greedy_agree (R1 R2 : RandomEngine) (hg : Hypergraph)
    (num_parts_ : Int) (balance_ : ℚ) (s1 s2 : Int) (k : Nat)
    (h1 : ∀ v, v < k → PlacedGreedily R1 hg num_parts_ balance_ s1 v)
    (h2 : ∀ v, v < k → PlacedGreedily R2 hg num_parts_ balance_ s2 v) :
    (placementAfter R1 hg num_parts_ balance_ s1 k).part_weights =
        (placementAfter R2 hg num_parts_ balance_ s2 k).part_weights ∧
      (placementAfter R1 hg num_parts_ balance_ s1 k).partition_ =
        (placementAfter R2 hg num_parts_ balance_ s2 k).partition_ := by
  induction k with
  | zero => exact ⟨rfl, rfl⟩
  | succ j ih =>
    obtain ⟨hw, hp⟩ := ih (fun v hv => h1 v (by omega)) (fun v hv => h2 v (by omega))
    have g1 := h1 j (by omega)
    have g2 := h2 j (by omega)
    unfold PlacedGreedily at g1 g2
    rw [placementAfter_succ, placementAfter_succ]
    unfold placeVertex
    dsimp only
    rw [if_pos g1, if_pos g2]
    dsimp only
    rw [hw, hp]
    exact ⟨rfl, rfl⟩

/-- Claim C27: for non-negative vertex weights, `num_parts_ ≥ 1` and a balance
factor of at least `num_parts_` (as with the defaults of the command line,
balance 2.0 and 2 partitions), every vertex passes the greedy test of
`performSimplePartition`, so the random-fallback branch is never taken and
the partition vector that `partition` leaves is the same for every seed (and
for every generator). -/
theorem partition_seed_irrelevant (R1 R2 : RandomEngine) (c1 c2 : TritonPartCore)
    (hg : Hypergraph) (h1 : c1.hypergraph_ = some hg) (h2 : c2.hypergraph_ = some hg)
    (hn : c2.num_parts_ = c1.num_parts_) (hb : c2.balance_ = c1.balance_)
    (hparts : 1 ≤ c1.num_parts_) (hbal : (c1.num_parts_ : ℚ) ≤ c1.balance_)
    (hnonneg : ∀ v, v < hg.GetNumVertices → 0 ≤ hg.vertexWeight v) :
    (∀ v, v < hg.GetNumVertices →
        PlacedGreedily R1 hg c1.num_parts_ c1.balance_ c1.seed_ v) ∧
      (c1.partition R1).1.getPartitionAssignment =
        (c2.partition R2).1.getPartitionAssignment ∧
      (Options.initial.num_parts : ℚ) ≤ Options.initial.balance_constraint := by
  have g1 : ∀ v, v < hg.GetNumVertices →
      PlacedGreedily R1 hg c1.num_parts_ c1.balance_ c1.seed_ v := fun v hv =>
    (placementAfter_all_greedy R1 hg c1.num_parts_ c1.balance_ c1.seed_ hparts hbal hnonneg v
      (by omega)).2.2 hv
  have g2 : ∀ v, v < hg.GetNumVertices →
      PlacedGreedily R2 hg c1.num_parts_ c1.balance_ c2.seed_ v := fun v hv =>
    (placementAfter_all_greedy R2 hg c1.num_parts_ c1.balance_ c2.seed_ hparts hbal hnonneg v
      (by omega)).2.2 hv
  refine ⟨g1, ?_, by with_unfolding_all decide⟩
  rw [placementAfter_final R1 c1 hg h1, placementAfter_final R2 c2 hg h2, hn, hb]
  exact (placementAfter_greedy_agree R1 R2 hg c1.num_parts_ c1.balance_ c1.seed_ c2.seed_
    hg.GetNumVertices g1 g2).2

/-- Witness for C27 on `hypergraphB` (weights 1, 3, 3) with 2 partitions and
balance 2: the seeds 0 and 7 give the same assignment `[0, 1, 0]`. -/
theorem partition_seed_irrelevant_witness :
    ((TritonPartCore.ofHypergraph hypergraphB 2 2 0).partition lcgEngine).1.getPartitionAssignment =
      [0, 1, 0] ∧
    ((TritonPartCore.ofHypergraph hypergraphB 2 2 0).partition lcgEngine).1.getPartitionAssignment =
      ((TritonPartCore.ofHypergraph hypergraphB 2 2 7).partition
        lcgEngine).1.getPartitionAssignment :=
  ⟨by with_unfolding_all decide,
    (partition_seed_irrelevant lcgEngine lcgEngine (TritonPartCore.ofHypergraph hypergraphB 2 2 0)
      (TritonPartCore.ofHypergraph hypergraphB 2 2 7) hypergraphB rfl rfl rfl rfl (by decide)
      (by with_unfolding_all decide) (by with_unfolding_all decide)).2.1⟩

/-! ## Vertices of one weight are dealt round robin -/


/-- Quotient and remainder of the successor. -/
theorem succ_div_mod (v k : Nat) (hk : 0 < k) :
    (v % k + 1 < k → (v + 1) / k = v / k ∧ (v + 1) % k = v % k + 1) ∧
      (v % k + 1 = k → (v + 1) / k = v / k + 1 ∧ (v + 1) % k = 0) := by
  have hv := Nat.div_add_mod v k
  constructor
  · intro h
    exact (Nat.div_mod_unique hk).2 ⟨by omega, h⟩
  · intro h
    refine (Nat.div_mod_unique hk).2 ⟨?_, hk⟩
    rw [Nat.mul_add]
    omega

/-- The weight of the first `j` vertices when all vertices weigh `w`. -/
theorem prefixWeight_uniform (hg : Hypergraph) (w : ℚ)
    (huniform : ∀ v, v < hg.GetNumVertices → hg.vertexWeight v = w) (j : Nat)
    (hj : j ≤ hg.GetNumVertices) :
    (List.range j).foldl (fun total_weight v => total_weight + hg.vertexWeight v) 0 =
      (j : ℚ) * w := by
  induction j with
  | zero => simp
  | succ i ih =>
    rw [List.range_succ, List.foldl_append, List.foldl_cons, List.foldl_nil, ih (by omega),
      huniform i (by omega)]
    push_cast
    ring

/-- The placement trace on vertices of one positive weight `w`, with a number
of partitions `k` that divides the number of vertices: after `v` placements
partition `q` holds `v / k` vertices and one more if `q < v % k`, and each
vertex `u < v` is in partition `u % k`. -/
theorem placementAfter_uniform (R : RandomEngine) (hg : Hypergraph) (num_parts_ : Int)
    (balance_ : ℚ) (seed_ : Int) (w : ℚ) (hw : 0 < w)
    (huniform : ∀ v, v < hg.GetNumVertices → hg.vertexWeight v = w)
    (hparts : 1 ≤ num_parts_) (hdiv : num_parts_.toNat ∣ hg.GetNumVertices)
    (hbalance : 1 ≤ balance_) (v : Nat) (hv : v ≤ hg.GetNumVertices) :
    (∀ q, q < num_parts_.toNat →
        (placementAfter R hg num_parts_ balance_ seed_ v).part_weights.getD q 0 =
          (((v / num_parts_.toNat : Nat) : ℚ) + if q < v % num_parts_.toNat then 1 else 0) * w) ∧
      (placementAfter R hg num_parts_ balance_ seed_ v).partition_ =
        (List.range hg.GetNumVertices).map fun u =>
          if u < v then ((u % num_parts_.toNat : Nat) : Int) else 0 := by
  have hk : 0 < num_parts_.toNat := by omega
  induction v with
  | zero =>
    constructor
    · intro q hq
      have h0 : (placementAfter R hg num_parts_ balance_ seed_ 0).part_weights =
          List.replicate num_parts_.toNat 0 := rfl
      rw [h0, List.getD_eq_getElem?_getD, List.getElem?_replicate]
      simp [hq]
    · have h0 : (placementAfter R hg num_parts_ balance_ seed_ 0).partition_ =
          List.replicate hg.GetNumVertices 0 := rfl
      rw [h0]
      apply List.ext_getElem?
      intro i
      rw [List.getElem?_replicate, List.getElem?_map]
      by_cases hi : i < hg.GetNumVertices
      · rw [List.getElem?_range hi]
        simp [hi]
      · rw [List.getElem?_eq_none (by simp; omega)]
        simp [hi]
  | succ j ih =>
    obtain ⟨hpw, hpart⟩ := ih (by omega)
    have hjlt : j < hg.GetNumVertices := by omega
    have hlen := placementAfter_length R hg num_parts_ balance_ seed_ j
    have hr : j % num_parts_.toNat < num_parts_.toNat := Nat.mod_lt _ hk
    -- the minimum scan finds partition `j % k`
    have hbest : findBestPart (placementAfter R hg num_parts_ balance_ seed_ j).part_weights
        num_parts_ = j % num_parts_.toNat := by
      rw [findBestPart_eq _ _ hparts hlen]
      apply leastMinPartition_unique
      · rw [hlen]; exact hr
      · intro q hq
        rw [hlen] at hq
        rw [hpw _ hr, hpw q hq]
        simp only [lt_irrefl, if_false, add_zero]
        apply mul_le_mul_of_nonneg_right _ (le_of_lt hw)
        split_ifs <;> linarith
      · intro q hq
        rw [hpw _ hr, hpw q (by omega)]
        simp only [lt_irrefl, if_false, add_zero, hq, if_true]
        apply mul_lt_mul_of_pos_right _ hw
        linarith
    -- the greedy test holds
    have htotal : totalVertexWeight hg = (hg.GetNumVertices : ℚ) * w :=
      prefixWeight_uniform hg w huniform _ (le_refl _)
    obtain ⟨m, hm⟩ := hdiv
    have hkq : ((num_parts_.toNat : Nat) : ℚ) = (num_parts_ : ℚ) := by
      have : ((num_parts_.toNat : Nat) : Int) = num_parts_ := Int.toNat_of_nonneg (by omega)
      exact_mod_cast this
    have hkpos : (0 : ℚ) < (num_parts_ : ℚ) := by
      have : (1 : ℚ) ≤ (num_parts_ : ℚ) := by exact_mod_cast hparts
      linarith
    have htarget : totalVertexWeight hg / (num_parts_ : ℚ) = (m : ℚ) * w := by
      rw [htotal, hm]
      push_cast
      rw [hkq]
      field_simp
      ring
    have hdlt : j / num_parts_.toNat < m := by
      apply Nat.div_lt_of_lt_mul
      rw [← hm]; exact hjlt
    have hgreedy : (placementAfter R hg num_parts_ balance_ seed_ j).part_weights.getD
        (findBestPart (placementAfter R hg num_parts_ balance_ seed_ j).part_weights num_parts_)
        0 + hg.vertexWeight j ≤ totalVertexWeight hg / (num_parts_ : ℚ) * balance_ := by
      rw [hbest, hpw _ hr, huniform j hjlt, htarget]
      simp only [lt_irrefl, if_false, add_zero]
      have h1 : ((j / num_parts_.toNat : Nat) : ℚ) + 1 ≤ (m : ℚ) := by exact_mod_cast hdlt
      have h2 : (0 : ℚ) ≤ (m : ℚ) * w := mul_nonneg (by exact_mod_cast Nat.zero_le m) (le_of_lt hw)
      have h3 : (m : ℚ) * w ≤ (m : ℚ) * w * balance_ := by nlinarith
      have h4 : (((j / num_parts_.toNat : Nat) : ℚ) + 1) * w ≤ (m : ℚ) * w :=
        mul_le_mul_of_nonneg_right h1 (le_of_lt hw)
      linarith
    have hstep : placementAfter R hg num_parts_ balance_ seed_ (j + 1) =
        { placementAfter R hg num_parts_ balance_ seed_ j with
          partition_ := (placementAfter R hg num_parts_ balance_ seed_ j).partition_.set j
            ((j % num_parts_.toNat : Nat) : Int)
          part_weights := (placementAfter R hg num_parts_ balance_ seed_ j).part_weights.set
            (j % num_parts_.toNat)
            ((placementAfter R hg num_parts_ balance_ seed_ j).part_weights.getD
              (j % num_parts_.toNat) 0 + hg.vertexWeight j) } := by
      rw [placementAfter_succ]
      unfold placeVertex
      dsimp only
      rw [if_pos hgreedy, hbest]
    obtain ⟨hcase1, hcase2⟩ := succ_div_mod j num_parts_.toNat hk
    constructor
    · intro q hq
      rw [hstep]
      dsimp only
      rw [getD_set, hpw _ hr, huniform j hjlt]
      simp only [lt_irrefl, if_false, add_zero]
      by_cases hlast : j % num_parts_.toNat + 1 < num_parts_.toNat
      · obtain ⟨hd, hmod⟩ := hcase1 hlast
        rw [hd, hmod]
        by_cases hqr : j % num_parts_.toNat = q
        · rw [if_pos ⟨hqr, by rw [hlen]; exact hr⟩, if_pos (by omega)]
          ring
        · rw [if_neg (fun h => hqr h.1), hpw q hq]
          by_cases hlt : q < j % num_parts_.toNat
          · rw [if_pos hlt, if_pos (by omega)]
          · rw [if_neg hlt, if_neg (by omega)]
      · obtain ⟨hd, hmod⟩ := hcase2 (by omega)
        rw [hd, hmod]
        simp only [Nat.not_lt_zero, if_false, add_zero]
        by_cases hqr : j % num_parts_.toNat = q
        · rw [if_pos ⟨hqr, by rw [hlen]; exact hr⟩]
          push_cast
          ring
        · rw [if_neg (fun h => hqr h.1), hpw q hq, if_pos (by omega)]
          push_cast
          ring
    · rw [hstep]
      dsimp only
      rw [hpart]
      apply List.ext_getElem?
      intro i
      rw [List.getElem?_set, List.getElem?_map, List.getElem?_map]
      by_cases hi : i < hg.GetNumVertices
      · rw [List.getElem?_range hi]
        by_cases hji : j = i
        · subst hji
          simp [hi]
        · rw [if_neg hji]
          simp only [Option.map_some']
          by_cases hlt : i < j
          · rw [if_pos hlt, if_pos (by omega)]
          · rw [if_neg hlt, if_neg (by omega)]
      · have hnone : (List.range hg.GetNumVertices)[i]? = none :=
          List.getElem?_eq_none (by simp; omega)
        rw [hnone]
        by_cases hji : j = i
        · omega
        · rw [if_neg hji]
          rfl

/-- The greedy pass does not write `hypergraph_`. -/
theorem performSimplePartition_hypergraph (R : RandomEngine) (c : TritonPartCore) :
    (c.performSimplePartition R).hypergraph_ = c.hypergraph_ := by
  unfold TritonPartCore.performSimplePartition
  split <;> rfl

/-- The object that `partition` leaves is an evaluated object with the same
hypergraph. -/
theorem partition_evaluated (R : RandomEngine) (c : TritonPartCore) (hg : Hypergraph)
    (hhg : c.hypergraph_ = some hg) :
    ∃ c2 : TritonPartCore, (c.partition R).1 = c2.evaluatePartition ∧
      c2.hypergraph_ = some hg := by
  unfold TritonPartCore.partition
  rw [hhg]
  dsimp only
  split_ifs
  · exact ⟨_, rfl, by rw [performSimplePartition_hypergraph]⟩
  · exact ⟨_, rfl, by
      unfold TritonPartCore.performMultilevelPartition
      rw [performSimplePartition_hypergraph]⟩

/-- The cut count that `evaluatePartition` stores for a non-empty
assignment. -/
theorem evaluatePartition_num_cuts (c : TritonPartCore) (hg : Hypergraph)
    (hhg : c.hypergraph_ = some hg) (hne : c.partition_ ≠ []) :
    c.evaluatePartition.getNumCuts =
      ((List.range hg.GetNumHyperedges).foldl (countCut hg c.partition_) (0, 0)).1 := by
  unfold TritonPartCore.evaluatePartition TritonPartCore.getNumCuts
  rw [hhg]
  dsimp only
  rw [if_neg hne]

/-- The cut count that `partition` leaves is the count of the cut loop on the
partition vector it leaves, when that vector is not empty. -/
theorem partition_num_cuts (R : RandomEngine) (c : TritonPartCore) (hg : Hypergraph)
    (hhg : c.hypergraph_ = some hg) (hne : (c.partition R).1.partition_ ≠ []) :
    (c.partition R).1.getNumCuts =
      ((List.range hg.GetNumHyperedges).foldl
        (countCut hg (c.partition R).1.partition_) (0, 0)).1 := by
  obtain ⟨c2, h2, hhg2⟩ := partition_evaluated R c hg hhg
  rw [h2] at hne ⊢
  rw [evaluatePartition_partition] at hne ⊢
  exact evaluatePartition_num_cuts c2 hg hhg2 hne

/-- Claim C28: when all `n` vertices have the same positive weight, the
number of partitions `k ≥ 1` divides `n` and the balance factor is at least
1, `partition` (running `performSimplePartition`) assigns vertex `v` to
partition `v mod k`, whatever the seed and the generator; on scenario A (4 vertices, hyperedges `{0,1}` and
`{2,3}`) with 2 partitions and balance 1 the assignment is `[0, 1, 0, 1]` and
the evaluation reports 2 cut hyperedges. -/
theorem partition_uniform_round_robin (R : RandomEngine) (c : TritonPartCore)
    (hg : Hypergraph) (hhg : c.hypergraph_ = some hg) (w : ℚ) (hw : 0 < w)
    (huniform : ∀ v, v < hg.GetNumVertices → hg.vertexWeight v = w)
    (hparts : 1 ≤ c.num_parts_) (hdiv : c.num_parts_.toNat ∣ hg.GetNumVertices)
    (hbalance : 1 ≤ c.balance_) :
    (c.partition R).1.getPartitionAssignment =
        ((List.range hg.GetNumVertices).map fun v => ((v % c.num_parts_.toNat : Nat) : Int)) ∧
      (∀ v, v < hg.GetNumVertices →
        (c.partition R).1.getPartitionAssignment[v]? = some ((v : Int) % c.num_parts_)) ∧
      (∀ seed : Int,
        ((TritonPartCore.ofHypergraph hypergraphA 2 1 seed).partition
          R).1.getPartitionAssignment = [0, 1, 0, 1] ∧
        ((TritonPartCore.ofHypergraph hypergraphA 2 1 seed).partition R).1.getNumCuts = 2) := by
  have key : ∀ (c : TritonPartCore) (hg : Hypergraph), c.hypergraph_ = some hg →
      ∀ w : ℚ, 0 < w → (∀ v, v < hg.GetNumVertices → hg.vertexWeight v = w) →
      1 ≤ c.num_parts_ → c.num_parts_.toNat ∣ hg.GetNumVertices → 1 ≤ c.balance_ →
      (c.partition R).1.getPartitionAssignment =
        ((List.range hg.GetNumVertices).map fun v =>
          ((v % c.num_parts_.toNat : Nat) : Int)) := by
    intro c hg hhg w hw huniform hparts hdiv hbalance
    rw [placementAfter_final R c hg hhg,
      (placementAfter_uniform R hg c.num_parts_ c.balance_ c.seed_ w hw huniform hparts hdiv
        hbalance hg.GetNumVertices (le_refl _)).2]
    apply List.map_congr_left
    intro u hu
    rw [if_pos (List.mem_range.1 hu)]
  have hA : ∀ seed : Int,
      ((TritonPartCore.ofHypergraph hypergraphA 2 1 seed).partition
        R).1.getPartitionAssignment = [0, 1, 0, 1] := by
    intro seed
    rw [key (TritonPartCore.ofHypergraph hypergraphA 2 1 seed) hypergraphA rfl 1 one_pos
      (by intro v hv; have hv4 : v < 4 := hv; interval_cases v <;> rfl)
      (show (1 : Int) ≤ 2 by decide) (show (2 : Int).toNat ∣ 4 by decide) (le_refl _)]
    show List.map (fun v : Nat => ((v % (2 : Int).toNat : Nat) : Int)) (List.range 4) = _
    decide
  refine ⟨key c hg hhg w hw huniform hparts hdiv hbalance, ?_, ?_⟩
  · intro v hv
    rw [key c hg hhg w hw huniform hparts hdiv hbalance, List.getElem?_map,
      List.getElem?_range hv]
    simp only [Option.map_some', Option.some.injEq]
    have : ((c.num_parts_.toNat : Nat) : Int) = c.num_parts_ := Int.toNat_of_nonneg (by omega)
    rw [Int.natCast_mod, this]
  · intro seed
    refine ⟨hA seed, ?_⟩
    have hp : ((TritonPartCore.ofHypergraph hypergraphA 2 1 seed).partition R).1.partition_ =
        [0, 1, 0, 1] := hA seed
    rw [partition_num_cuts R _ hypergraphA rfl (by rw [hp]; simp), hp]
    with_unfolding_all decide

/-- Witness for C28: scenario A with 2 partitions, balance 1 and seed 0. -/
theorem partition_uniform_round_robin_witness :
    ((TritonPartCore.ofHypergraph hypergraphA 2 1 0).partition
        lcgEngine).1.getPartitionAssignment =
      ((List.range hypergraphA.GetNumVertices).map fun v =>
        ((v % (TritonPartCore.ofHypergraph hypergraphA 2 1 0).num_parts_.toNat : Nat) : Int)) ∧
    ((TritonPartCore.ofHypergraph hypergraphA 2 1 0).partition lcgEngine).1.getNumCuts = 2 :=
  ⟨(partition_uniform_round_robin lcgEngine (TritonPartCore.ofHypergraph hypergraphA 2 1 0)
      hypergraphA rfl 1 one_pos
      (by intro v hv; have hv4 : v < 4 := hv; interval_cases v <;> rfl)
      (by decide) (by decide) (le_refl _)).1,
    ((partition_uniform_round_robin lcgEngine (TritonPartCore.ofHypergraph hypergraphA 2 1 0)
      hypergraphA rfl 1 one_pos
      (by intro v hv; have hv4 : v < 4 := hv; interval_cases v <;> rfl)
      (by decide) (by decide) (le_refl _)).2.2 0).2⟩

/-! ## The average partition weight -/


/-- The evaluation does not write `num_parts_`. -/
theorem evaluatePartition_num_parts (c : TritonPartCore) :
    c.evaluatePartition.num_parts_ = c.num_parts_ := by
  unfold TritonPartCore.evaluatePartition
  split
  · rfl
  · split_ifs <;> rfl

/-- What `TritonPartCore::buildHypergraph` leaves when the adapter builds a
hypergraph. -/
theorem buildHypergraph_some (c : TritonPartCore) (a : OpenStaAdapter) (hg : Hypergraph)
    (hadapter : c.adapter_ = some a) (hbuild : a.buildHypergraph = some hg) :
    c.buildHypergraph.1.hypergraph_ = some hg ∧
      c.buildHypergraph.1.num_parts_ = c.num_parts_ ∧
      c.buildHypergraph.1.balance_ = c.balance_ ∧
      c.buildHypergraph.1.seed_ = c.seed_ ∧
      c.buildHypergraph.2 = true := by
  unfold TritonPartCore.buildHypergraph
  rw [hadapter]
  dsimp only
  rw [hbuild]
  exact ⟨rfl, rfl, rfl, rfl, rfl⟩

/-- The instances bound in `inst_to_id` by step 2 are the leaf instances that
have a library cell. -/
theorem mem_libraryLeaves_fst (nw : Network) (inst : StaInstance) :
    inst ∈ (libraryLeaves nw).map Prod.fst ↔
      inst ∈ nw.leafInstanceIterator ∧ (nw.libertyCell inst).isSome = true := by
  unfold libraryLeaves
  simp only [List.mem_map, List.mem_filterMap, Option.map_eq_some', Prod.exists,
    exists_and_right, exists_eq_right]
  constructor
  · rintro ⟨lc, i, hi, lc', hlc, heq⟩
    injection heq with h1 h2
    subst h1
    exact ⟨hi, by rw [hlc]; rfl⟩
  · rintro ⟨hi, hsome⟩
    obtain ⟨lc, hlc⟩ := Option.isSome_iff_exists.1 hsome
    exact ⟨lc, inst, hi, lc, hlc, rfl⟩

/-- The lookup `inst_to_id` left by step 2 binds exactly the leaf instances
that have a library cell. -/
theorem inst_to_id_isSome (nw : Network) (top_inst inst : StaInstance) :
    (mapFind (extractVertices nw top_inst).inst_to_id inst).isSome = true ↔
      inst ∈ nw.leafInstanceIterator ∧ (nw.libertyCell inst).isSome = true := by
  rw [(extractVertices_eq nw top_inst).2.1, ← mem_libraryLeaves_fst]
  constructor
  · intro h
    by_contra hmem
    rw [mapFind_numberedMap_none _ _ _ hmem] at h
    simp at h
  · exact mapFind_numberedMap_isSome _ _ _

/-- The canonical nets met by the pin traversal are those of the pins of the
bound instances. -/
theorem mem_reachedNets (nw : Network) (i2 : List (Nat × Int)) (n : StaNet) :
    n ∈ reachedNets nw i2 ↔
      ∃ inst ∈ nw.leafInstanceIterator, (mapFind i2 inst).isSome = true ∧
        ∃ pin ∈ nw.pinIterator inst, (nw.net pin).map nw.highestConnectedNet = some n := by
  unfold reachedNets
  simp only [List.mem_flatMap]
  constructor
  · rintro ⟨inst, hinst, hn⟩
    cases hfind : mapFind i2 inst with
    | none => rw [hfind] at hn; simp at hn
    | some id =>
      rw [hfind] at hn
      simp only [List.mem_filterMap] at hn
      obtain ⟨pin, hpin, hnet⟩ := hn
      exact ⟨inst, hinst, by rw [hfind]; rfl, pin, hpin, hnet⟩
  · rintro ⟨inst, hinst, hsome, pin, hpin, hnet⟩
    refine ⟨inst, hinst, ?_⟩
    obtain ⟨id, hid⟩ := Option.isSome_iff_exists.1 hsome
    rw [hid]
    simp only [List.mem_filterMap]
    exact ⟨pin, hpin, hnet⟩

/-- Every entry of a list falls under exactly one outcome: the four counts
add up to the length. -/
theorem outcome_counts (f : StaNet → NetOutcome) (l : List StaNet) :
    (l.filter fun n => f n = NetOutcome.emitted).length +
        (l.filter fun n => f n = NetOutcome.skippedPower).length +
        (l.filter fun n => f n = NetOutcome.skippedSingle).length +
        (l.filter fun n => f n = NetOutcome.skippedNoDriver).length = l.length := by
  induction l with
  | nil => rfl
  | cons x xs ih =>
    simp only [List.filter_cons, List.length_cons]
    cases hx : f x <;> simp <;> omega

/-- Claim C25: in step 3 of `extractNetlistData` on a linked design, the
canonical nets processed are exactly those reached from a pin of a leaf
instance with a library cell, each is processed once (`processed_nets` lists
them without repetition), and each ends in exactly one of the four outcomes:
every counter counts the nets of its outcome, so that emitted + skipped-power
+ skipped-single + skipped-no-driver is the number of distinct canonical nets
reached. A power or ground net ends in skipped-power, advances no other
counter, appends no net and gets no hyperedge id. -/
theorem extractNetlistData_net_outcomes (nw : Network) (top_inst : StaInstance) :
    (∀ n, n ∈ discoveredNets nw (extractVertices nw top_inst).inst_to_id ↔
        ∃ inst ∈ nw.leafInstanceIterator, (nw.libertyCell inst).isSome = true ∧
          ∃ pin ∈ nw.pinIterator inst, (nw.net pin).map nw.highestConnectedNet = some n) ∧
      (discoveredNets nw (extractVertices nw top_inst).inst_to_id).Nodup ∧
      (linkedNetScan nw top_inst).processed_nets =
        (discoveredNets nw (extractVertices nw top_inst).inst_to_id).reverse ∧
      ((linkedNetScan nw top_inst).nets_.length : Int) +
          (linkedNetScan nw top_inst).skipped_power +
          (linkedNetScan nw top_inst).skipped_single +
          (linkedNetScan nw top_inst).skipped_no_driver =
        ((discoveredNets nw (extractVertices nw top_inst).inst_to_id).length : Int) ∧
      (discoveredNets nw (extractVertices nw top_inst).inst_to_id).length =
        (reachedNets nw (extractVertices nw top_inst).inst_to_id).toFinset.card ∧
      (∀ outcome : NetOutcome,
        (linkedNetScan nw top_inst).count outcome =
          (((discoveredNets nw (extractVertices nw top_inst).inst_to_id).filter fun n =>
            netOutcome nw (extractVertices nw top_inst).inst_to_id
              (extractVertices nw top_inst).port_to_id n = outcome).length : Int)) ∧
      ∀ n, nw.isPower n = true ∨ nw.isGround n = true →
        netOutcome nw (extractVertices nw top_inst).inst_to_id
            (extractVertices nw top_inst).port_to_id n = NetOutcome.skippedPower ∧
          mapFind (linkedNetScan nw top_inst).net_to_id_map n = none ∧
          ∀ st : NetScan,
            processNet nw (extractVertices nw top_inst).inst_to_id
                (extractVertices nw top_inst).port_to_id st n =
              { st with skipped_power := st.skipped_power + 1 } := by
  obtain ⟨hproc, hnets, _, hmap, hpower, hsingle, hnodriver⟩ :=
    extractNets_closedForm nw (extractVertices nw top_inst).inst_to_id
      (extractVertices nw top_inst).port_to_id
  have hlen : (linkedNetScan nw top_inst).nets_.length =
      ((discoveredNets nw (extractVertices nw top_inst).inst_to_id).filter fun n =>
        netOutcome nw (extractVertices nw top_inst).inst_to_id
          (extractVertices nw top_inst).port_to_id n = NetOutcome.emitted).length := by
    unfold linkedNetScan
    rw [hnets, numbered_length]
  have hcount := outcome_counts
    (netOutcome nw (extractVertices nw top_inst).inst_to_id
      (extractVertices nw top_inst).port_to_id)
    (discoveredNets nw (extractVertices nw top_inst).inst_to_id)
  refine ⟨?_, discoveredNets_nodup _ _, hproc, ?_, ?_, ?_, ?_⟩
  · intro n
    rw [mem_discoveredNets, mem_reachedNets]
    constructor
    · rintro ⟨inst, hinst, hsome, hpin⟩
      exact ⟨inst, hinst, ((inst_to_id_isSome nw top_inst inst).1 hsome).2, hpin⟩
    · rintro ⟨inst, hinst, hsome, hpin⟩
      exact ⟨inst, hinst, (inst_to_id_isSome nw top_inst inst).2 ⟨hinst, hsome⟩, hpin⟩
  · unfold linkedNetScan at hlen ⊢
    rw [hlen, hpower, hsingle, hnodriver]
    omega
  · rw [← List.toFinset_card_of_nodup (discoveredNets_nodup _ _)]
    congr 1
    ext n
    simp only [List.mem_toFinset]
    exact mem_discoveredNets _ _ _
  · intro outcome
    cases outcome
    · exact hpower
    · show ((linkedNetScan nw top_inst).nets_.length : Int) = _
      rw [hlen]
    · exact hsingle
    · exact hnodriver
  · intro n hn
    have hpg : (nw.isPower n || nw.isGround n) = true := by
      rcases hn with h | h <;> simp [h]
    have hout : netOutcome nw (extractVertices nw top_inst).inst_to_id
        (extractVertices nw top_inst).port_to_id n = NetOutcome.skippedPower := by
      unfold netOutcome
      rw [if_pos hpg]
    refine ⟨hout, ?_, fun st => processNet_power nw _ _ st n hpg⟩
    unfold linkedNetScan
    rw [hmap]
    apply mapFind_numberedMap_none
    intro hmem
    have := (List.mem_filter.1 hmem).2
    rw [hout] at this
    simp at this

/-- Witness for C25 on `designA`: the pins of the two library-backed leaves
reach the canonical nets 1, 2 and 3, all three are emitted, and the four
counts add up to 3. -/
theorem extractNetlistData_net_outcomes_witness :
    discoveredNets designA (extractVertices designA 0).inst_to_id = [1, 2, 3] ∧
    (linkedNetScan designA 0).nets_.length = 3 ∧
    ((linkedNetScan designA 0).nets_.length : Int) +
        (linkedNetScan designA 0).skipped_power +
        (linkedNetScan designA 0).skipped_single +
        (linkedNetScan designA 0).skipped_no_driver =
      ((discoveredNets designA (extractVertices designA 0).inst_to_id).length : Int) :=
  ⟨by with_unfolding_all decide, by with_unfolding_all decide,
    (extractNetlistData_net_outcomes designA 0).2.2.2.1⟩

/-! ## The roles of the connected pins -/


/-- A pin is taken as load of `v` exactly when the loop body inserts `v` into
the load set and leaves the driver alone. -/
theorem pinRole_load_iff (nw : Network) (i2 p2 : List (Nat × Int)) (cp : StaPin) (v : Int) :
    pinRole nw i2 p2 cp = PinRole.load v ↔
      ∀ st : Int × List Int, scanConnectedPin nw i2 p2 st cp = (st.1, setInsert v st.2) := by
  constructor
  · intro h st
    rw [scanConnectedPin_eq, h]
  · intro h
    have h0 := h (0, [])
    rw [scanConnectedPin_eq] at h0
    cases hrole : pinRole nw i2 p2 cp with
    | driver u =>
      rw [hrole] at h0
      simp [setInsert] at h0
    | load u =>
      rw [hrole] at h0
      simp only [setInsert, Prod.mk.injEq, List.cons.injEq, and_true, true_and] at h0
      rw [h0]
    | unresolved =>
      rw [hrole] at h0
      simp [setInsert] at h0

/-- Pins that leave the driver alone leave it alone as a sequence. -/
theorem foldl_scanConnectedPin_driver (nw : Network) (i2 p2 : List (Nat × Int))
    (pins : List StaPin) (st : Int × List Int)
    (h : ∀ cp ∈ pins, ∀ st : Int × List Int, (scanConnectedPin nw i2 p2 st cp).1 = st.1) :
    (pins.foldl (scanConnectedPin nw i2 p2) st).1 = st.1 := by
  induction pins generalizing st with
  | nil => rfl
  | cons cp rest ih =>
    rw [List.foldl_cons, ih _ (fun cp' hcp' => h cp' (List.mem_cons_of_mem _ hcp')),
      h cp (List.mem_cons_self _ _)]

/-- Claim C26: the roles found by the connected-pin loop of a net. For a pin
whose instance is bound in `inst_to_id` with vertex `v`: an output direction
makes `v` the driver, an input direction inserts `v` into the load set. For a
pin of no bound instance that is a top-level port bound in `port_to_id` with
vertex `v`: an input direction makes `v` the driver, an output direction
inserts `v` into the load set. The driver left by the loop is the vertex of
the last pin visited that sets the driver (-1 when no pin does), and the load
set holds exactly the vertices inserted by some pin. -/
theorem scanNet_pin_roles (nw : Network) (i2 p2 : List (Nat × Int)) (n : StaNet) :
    (∀ (st : Int × List Int) (cp : StaPin) (v : Int),
        (nw.instanceOf cp).bind (mapFind i2) = some v →
        ((nw.direction cp).isOutput = true →
            scanConnectedPin nw i2 p2 st cp = (v, st.2)) ∧
          ((nw.direction cp).isInput = true → (nw.direction cp).isOutput = false →
            scanConnectedPin nw i2 p2 st cp = (st.1, setInsert v st.2))) ∧
      (∀ (st : Int × List Int) (cp : StaPin) (v : Int),
        (nw.instanceOf cp).bind (mapFind i2) = none → nw.isTopLevelPort cp = true →
        (nw.port cp).bind (mapFind p2) = some v →
        ((nw.direction cp).isInput = true →
            scanConnectedPin nw i2 p2 st cp = (v, st.2)) ∧
          ((nw.direction cp).isOutput = true → (nw.direction cp).isInput = false →
            scanConnectedPin nw i2 p2 st cp = (st.1, setInsert v st.2))) ∧
      (∀ (before after : List StaPin) (cp : StaPin) (v : Int),
        nw.connectedPinIterator n = before ++ cp :: after →
        (∀ st : Int × List Int, scanConnectedPin nw i2 p2 st cp = (v, st.2)) →
        (∀ cp' ∈ after, ∀ st : Int × List Int, (scanConnectedPin nw i2 p2 st cp').1 = st.1) →
        (scanNet nw i2 p2 n).1 = v) ∧
      ((∀ cp ∈ nw.connectedPinIterator n, ∀ st : Int × List Int,
          (scanConnectedPin nw i2 p2 st cp).1 = st.1) →
        (scanNet nw i2 p2 n).1 = -1) ∧
      ∀ v, v ∈ (scanNet nw i2 p2 n).2 ↔
        ∃ cp ∈ nw.connectedPinIterator n,
          ∀ st : Int × List Int, scanConnectedPin nw i2 p2 st cp = (st.1, setInsert v st.2) := by
  refine ⟨?_, ?_, ?_, ?_, ?_⟩
  · intro st cp v hres
    constructor
    · intro hout
      unfold scanConnectedPin
      rw [hres]
      dsimp only
      rw [if_pos hout]
    · intro _ hout
      unfold scanConnectedPin
      rw [hres]
      dsimp only
      rw [if_neg (by rw [hout]; simp)]
  · intro st cp v hres htop hport
    constructor
    · intro hin
      unfold scanConnectedPin
      rw [hres]
      dsimp only
      rw [if_pos htop, hport]
      dsimp only
      rw [if_pos hin]
    · intro _ hin
      unfold scanConnectedPin
      rw [hres]
      dsimp only
      rw [if_pos htop, hport]
      dsimp only
      rw [if_neg (by rw [hin]; simp)]
  · intro before after cp v hpins hcp hafter
    unfold scanNet
    rw [hpins, List.foldl_append, List.foldl_cons,
      foldl_scanConnectedPin_driver nw i2 p2 after _ hafter, hcp]
  · intro hnone
    unfold scanNet
    rw [foldl_scanConnectedPin_driver nw i2 p2 _ _ hnone]
  · intro v
    rw [mem_scanNet_loads]
    constructor
    · rintro ⟨cp, hcp, hrole⟩
      exact ⟨cp, hcp, (pinRole_load_iff nw i2 p2 cp v).1 hrole⟩
    · rintro ⟨cp, hcp, hrole⟩
      exact ⟨cp, hcp, (pinRole_load_iff nw i2 p2 cp v).2 hrole⟩

/-- Witness for C26 on net 2 of `designA`, whose connected pins are the
output 102 of `u1` (vertex 3), the input 111 of the unbound `u2` and the
input 121 of `u3` (vertex 4): pin 102 sets the driver to 3, pin 121 inserts
4, and the loop leaves driver 3 and the load set `{4}`. -/
theorem scanNet_pin_roles_witness :
    scanNet designA (extractVertices designA 0).inst_to_id
        (extractVertices designA 0).port_to_id 2 = (3, [4]) ∧
    scanConnectedPin designA (extractVertices designA 0).inst_to_id
        (extractVertices designA 0).port_to_id (-1, []) 102 = (3, []) ∧
    scanConnectedPin designA (extractVertices designA 0).inst_to_id
        (extractVertices designA 0).port_to_id (3, []) 121 = (3, setInsert 4 []) :=
  ⟨by decide,
    ((scanNet_pin_roles designA (extractVertices designA 0).inst_to_id
      (extractVertices designA 0).port_to_id 2).1 (-1, []) 102 3 (by decide)).1 (by decide),
    ((scanNet_pin_roles designA (extractVertices designA 0).inst_to_id
      (extractVertices designA 0).port_to_id 2).1 (3, []) 121 4 (by decide)).2 (by decide)
      (by decide)⟩

/-! ## The seed option -/


/-- The evaluation does not write `seed_`. -/
theorem evaluatePartition_seed (c : TritonPartCore) :
    c.evaluatePartition.seed_ = c.seed_ := by
  unfold TritonPartCore.evaluatePartition
  split
  · rfl
  · split_ifs <;> rfl

/-- The greedy pass does not write `seed_`. -/
theorem performSimplePartition_seed (R : RandomEngine) (c : TritonPartCore) :
    (c.performSimplePartition R).seed_ = c.seed_ := by
  unfold TritonPartCore.performSimplePartition
  split <;> rfl

/-- The method `partition` does not write `seed_`. -/
theorem partition_seed (R : RandomEngine) (c : TritonPartCore) :
    (c.partition R).1.seed_ = c.seed_ := by
  unfold TritonPartCore.partition
  split
  · rfl
  · dsimp only
    rw [evaluatePartition_seed]
    split_ifs
    · rw [performSimplePartition_seed]
    · unfold TritonPartCore.performMultilevelPartition
      rw [performSimplePartition_seed]

/-- The method `extractTimingPaths` writes `timing_paths_` only. -/
theorem extractTimingPaths_fields (c : TritonPartCore) (sta : Option Sta)
    (hierarchy : InstanceTree) :
    (c.extractTimingPaths sta hierarchy).1.hypergraph_ = c.hypergraph_ ∧
      (c.extractTimingPaths sta hierarchy).1.num_parts_ = c.num_parts_ ∧
      (c.extractTimingPaths sta hierarchy).1.balance_ = c.balance_ ∧
      (c.extractTimingPaths sta hierarchy).1.seed_ = c.seed_ := by
  unfold TritonPartCore.extractTimingPaths
  split
  · exact ⟨rfl, rfl, rfl, rfl⟩
  · split_ifs <;> exact ⟨rfl, rfl, rfl, rfl⟩

/-- The core object that `runPartition` partitions holds the seed 0 of its
constructor, whatever the options say, together with the number of
partitions and the balance factor of the options; its partition vector is the
one of the placement loop with the generator seeded with 0. -/
theorem runPartition_seed (R : RandomEngine) (loaded : OpenStaAdapter) (sta : Option Sta)
    (hierarchy : InstanceTree) (opts : Options) (core : TritonPartCore)
    (h : runPartition R loaded sta hierarchy opts = some core) :
    core.seed_ = 0 ∧
      ∃ hg, loaded.buildHypergraph = some hg ∧
        core.getPartitionAssignment =
          (simpleScan R hg opts.num_parts opts.balance_constraint 0
            (List.replicate hg.GetNumVertices 0)).partition_ := by
  unfold runPartition at h
  dsimp only at h
  split_ifs at h with hbuild htiming hpart hpart
  all_goals injection h with h
  all_goals subst h
  all_goals
    cases hhg : loaded.buildHypergraph with
    | none =>
      exfalso
      apply hbuild
      unfold TritonPartCore.buildHypergraph TritonPartCore.setTimingAware
        TritonPartCore.setBalance TritonPartCore.setNumPartitions TritonPartCore.setAdapter
      dsimp only
      rw [hhg]
    | some hg =>
      obtain ⟨h1, h2, h3, h4, _⟩ := buildHypergraph_some
        ((((TritonPartCore.new.setAdapter loaded).setNumPartitions opts.num_parts).setBalance
          opts.balance_constraint).setTimingAware opts.timing_aware) loaded hg rfl hhg
      have hnp : ((((TritonPartCore.new.setAdapter loaded).setNumPartitions
          opts.num_parts).setBalance opts.balance_constraint).setTimingAware
          opts.timing_aware).num_parts_ = opts.num_parts := rfl
      have hbal : ((((TritonPartCore.new.setAdapter loaded).setNumPartitions
          opts.num_parts).setBalance opts.balance_constraint).setTimingAware
          opts.timing_aware).balance_ = opts.balance_constraint := rfl
      have hseed : ((((TritonPartCore.new.setAdapter loaded).setNumPartitions
          opts.num_parts).setBalance opts.balance_constraint).setTimingAware
          opts.timing_aware).seed_ = 0 := rfl
      rw [hnp] at h2
      rw [hbal] at h3
      rw [hseed] at h4
      first
        | (obtain ⟨e1, e2, e3, e4⟩ := extractTimingPaths_fields
            ((((TritonPartCore.new.setAdapter loaded).setNumPartitions
              opts.num_parts).setBalance opts.balance_constraint).setTimingAware
              opts.timing_aware).buildHypergraph.1 sta hierarchy
           rw [h1] at e1
           rw [h2] at e2
           rw [h3] at e3
           rw [h4] at e4
           refine ⟨by rw [partition_seed, e4], hg, rfl, ?_⟩
           unfold TritonPartCore.getPartitionAssignment
           rw [(partition_eq R _ hg e1).2, e2, e3, e4])
        | (refine ⟨by rw [partition_seed, h4], hg, rfl, ?_⟩
           unfold TritonPartCore.getPartitionAssignment
           rw [(partition_eq R _ hg h1).2, h2, h3, h4])

/-- Claim C24 fails on the code: the tool run in partition mode with
`-b 1 --seed 5` on a design of three cells of the areas 1, 3 and 3. The
option is parsed (`opts.seed = 5`), but the core object keeps the seed 0 and
the assignment left is `[0, 1, 0]`, the one of the generator seeded with 0;
seeded with 5 the placement loop gives `[0, 1, 1]`. -/
theorem runPartition_seed_not_passed :
    (parseArgs atofOne
      ["triton_part", "partition", "-v", "d.v", "-m", "top", "-l", "l.lib", "-b", "1",
        "--seed", "5"]).seed = 5 ∧
    (parseArgs atofOne
      ["triton_part", "partition", "-v", "d.v", "-m", "top", "-l", "l.lib", "-b", "1",
        "--seed", "5"]).balance_constraint = 1 ∧
    (mainPartition lcgEngine atofOne OpenStaAdapter.threeCells none hierarchyEmpty
      ["triton_part", "partition", "-v", "d.v", "-m", "top", "-l", "l.lib", "-b", "1",
        "--seed", "5"]).map (fun core => core.seed_) = some 0 ∧
    (mainPartition lcgEngine atofOne OpenStaAdapter.threeCells none hierarchyEmpty
      ["triton_part", "partition", "-v", "d.v", "-m", "top", "-l", "l.lib", "-b", "1",
        "--seed", "5"]).map (fun core => core.getPartitionAssignment) = some [0, 1, 0] ∧
    OpenStaAdapter.threeCells.buildHypergraph = some hypergraphThreeCells ∧
    (simpleScan lcgEngine hypergraphThreeCells 2 1 0 [0, 0, 0]).partition_ = [0, 1, 0] ∧
    (simpleScan lcgEngine hypergraphThreeCells 2 1 5 [0, 0, 0]).partition_ = [0, 1, 1] := by
  refine ⟨by decide, by with_unfolding_all decide, by with_unfolding_all decide,
    by with_unfolding_all decide, by with_unfolding_all decide, by with_unfolding_all decide,
    by with_unfolding_all decide⟩

/-! ## Timing paths: the vertex and hyperedge sequences -/


/-- Appending an entry to a list appends it to the list without repeats
exactly when it does not occur in the list. -/
theorem removeRepeats_concat (l : List Int) (x : Int) :
    removeRepeats (l ++ [x]) = if x ∈ l then removeRepeats l else removeRepeats l ++ [x] := by
  unfold removeRepeats
  rw [List.length_append, List.length_singleton, List.range_succ, List.filterMap_append]
  have hfirst : (List.range l.length).filterMap
      (fun i => if (l ++ [x]).getD i 0 ∈ (l ++ [x]).take i then none else (l ++ [x])[i]?) =
      (List.range l.length).filterMap
        (fun i => if l.getD i 0 ∈ l.take i then none else l[i]?) := by
    apply List.filterMap_congr
    intro i hi
    have hi' : i < l.length := List.mem_range.1 hi
    rw [List.getD_eq_getElem?_getD, List.getD_eq_getElem?_getD,
      List.getElem?_append_left hi', List.take_append_of_le_length (le_of_lt hi')]
  have hlast : [l.length].filterMap
      (fun i => if (l ++ [x]).getD i 0 ∈ (l ++ [x]).take i then none else (l ++ [x])[i]?) =
      if x ∈ l then [] else [x] := by
    have hget : (l ++ [x])[l.length]? = some x := by
      rw [List.getElem?_append_right (le_refl _)]
      simp
    have htake : (l ++ [x]).take l.length = l := by
      rw [List.take_append_of_le_length (le_refl _), List.take_length]
    simp only [List.filterMap_cons, List.filterMap_nil, List.getD_eq_getElem?_getD, hget,
      htake, Option.getD_some]
    by_cases hx : x ∈ l
    · simp [hx]
    · simp [hx]
  rw [hfirst, hlast]
  by_cases hx : x ∈ l
  · simp [hx]
  · simp [hx]

theorem removeRepeats_nil : removeRepeats [] = [] := rfl

/-- The entries of the list without repeats are those of the list. -/
theorem mem_removeRepeats (l : List Int) (x : Int) : x ∈ removeRepeats l ↔ x ∈ l := by
  induction l using List.reverseRecOn with
  | nil => simp [removeRepeats_nil]
  | append_singleton l y ih =>
    rw [removeRepeats_concat]
    by_cases hy : y ∈ l
    · rw [if_pos hy, ih]
      simp only [List.mem_append, List.mem_singleton]
      constructor
      · intro h; exact Or.inl h
      · rintro (h | h)
        · exact h
        · rw [h]; exact hy
    · rw [if_neg hy]
      simp only [List.mem_append, List.mem_singleton, ih]

/-- The list without repeats has no entry twice. -/
theorem removeRepeats_nodup (l : List Int) : (removeRepeats l).Nodup := by
  induction l using List.reverseRecOn with
  | nil => simp [removeRepeats_nil]
  | append_singleton l y ih =>
    rw [removeRepeats_concat]
    by_cases hy : y ∈ l
    · rw [if_pos hy]; exact ih
    · rw [if_neg hy]
      apply List.Nodup.append ih (List.nodup_singleton y)
      intro a ha hay
      rw [List.mem_singleton] at hay
      subst hay
      exact hy ((mem_removeRepeats l a).1 ha)

/-- What one turn of the loop over an expanded path does to the vertex
sequence and set and to the hyperedge sequence and set. -/
theorem visitPathPoint_fields (sta : Sta) (nw : Network) (i2 n2 : List (Nat × Int))
    (st : PathScan) (point : Option StaPath) :
    ((visitPathPoint sta nw i2 n2 st point).path_vertices =
        match (point.bind sta.pin).bind fun pin => (nw.instanceOf pin).bind (mapFind i2) with
        | some v => if v ∈ st.unique_vertices then st.path_vertices else st.path_vertices ++ [v]
        | none => st.path_vertices) ∧
      ((visitPathPoint sta nw i2 n2 st point).unique_vertices =
        match (point.bind sta.pin).bind fun pin => (nw.instanceOf pin).bind (mapFind i2) with
        | some v => if v ∈ st.unique_vertices then st.unique_vertices
          else setInsert v st.unique_vertices
        | none => st.unique_vertices) ∧
      ((visitPathPoint sta nw i2 n2 st point).path_arcs =
        match (point.bind sta.pin).bind fun pin => (nw.net pin).bind (mapFind n2) with
        | some e => if e ∈ st.unique_arcs then st.path_arcs else st.path_arcs ++ [e]
        | none => st.path_arcs) ∧
      ((visitPathPoint sta nw i2 n2 st point).unique_arcs =
        match (point.bind sta.pin).bind fun pin => (nw.net pin).bind (mapFind n2) with
        | some e => if e ∈ st.unique_arcs then st.unique_arcs else setInsert e st.unique_arcs
        | none => st.unique_arcs) := by
  unfold visitPathPoint
  cases hpin : point.bind sta.pin with
  | none => refine ⟨?_, ?_, ?_, ?_⟩ <;> rfl
  | some pin =>
    simp only [Option.some_bind]
    cases hvert : (nw.instanceOf pin).bind (mapFind i2) with
    | none =>
      cases harc : (nw.net pin).bind (mapFind n2) with
      | none => refine ⟨?_, ?_, ?_, ?_⟩ <;> rfl
      | some e =>
        by_cases he : e ∈ st.unique_arcs
        · simp [he]
        · simp [he]
    | some v =>
      by_cases hv : v ∈ st.unique_vertices
      · cases harc : (nw.net pin).bind (mapFind n2) with
        | none => simp [hv]
        | some e =>
          by_cases he : e ∈ st.unique_arcs
          · simp [hv, he]
          · simp [hv, he]
      · cases harc : (nw.net pin).bind (mapFind n2) with
        | none => simp [hv]
        | some e =>
          by_cases he : e ∈ st.unique_arcs
          · simp [hv, he]
          · simp [hv, he]

/-- A sequence kept without repeats beside the set of its entries: visiting
one more resolved id. -/
theorem dedup_step (l : List Int) (seq set : List Int) (r : Option Int)
    (hseq : seq = removeRepeats l) (hset : ∀ x, x ∈ set ↔ x ∈ l) :
    ((match r with
        | some x => if x ∈ set then seq else seq ++ [x]
        | none => seq) = removeRepeats (l ++ r.toList)) ∧
      ∀ y, y ∈ (match r with
        | some x => if x ∈ set then set else setInsert x set
        | none => set) ↔ y ∈ l ++ r.toList := by
  cases r with
  | none => simpa using ⟨hseq, hset⟩
  | some x =>
    simp only [Option.toList_some]
    rw [removeRepeats_concat]
    by_cases hx : x ∈ set
    · rw [if_pos hx, if_pos hx, if_pos ((hset x).1 hx)]
      refine ⟨hseq, ?_⟩
      intro y
      rw [hset y, List.mem_append, List.mem_singleton]
      constructor
      · intro h; exact Or.inl h
      · rintro (h | h)
        · exact h
        · rw [h]; exact (hset x).1 hx
    · rw [if_neg hx, if_neg hx, if_neg (fun h => hx ((hset x).2 h))]
      refine ⟨by rw [hseq], ?_⟩
      intro y
      rw [mem_setInsert, hset y, List.mem_append, List.mem_singleton]
      tauto

/-- Resolving the pins of a list extended by one point. -/
theorem filterMap_points_concat {β : Type} (sta : Sta) (f : StaPin → Option β)
    (points : List (Option StaPath)) (point : Option StaPath) :
    ((points ++ [point]).filterMap fun path_at_i => path_at_i.bind sta.pin).filterMap f =
      (points.filterMap fun path_at_i => path_at_i.bind sta.pin).filterMap f ++
        ((point.bind sta.pin).bind f).toList := by
  rw [List.filterMap_append, List.filterMap_append]
  cases hpin : point.bind sta.pin with
  | none => simp [hpin]
  | some pin =>
    cases hf : f pin with
    | none => simp [hpin, hf]
    | some b => simp [hpin, hf]

/-- The loop over an expanded path in closed form, for the points visited so
far: the two sequences are the resolved ids without repeats and the two sets
hold the ids resolved. -/
theorem foldl_visitPathPoint (sta : Sta) (nw : Network) (i2 n2 : List (Nat × Int))
    (points : List (Option StaPath)) :
    (points.foldl (visitPathPoint sta nw i2 n2)
        { path_vertices := [], unique_vertices := [], path_arcs := [],
          unique_arcs := [] }).path_vertices =
      removeRepeats (resolvedVertices nw i2
        (points.filterMap fun path_at_i => path_at_i.bind sta.pin)) ∧
    (∀ v, v ∈ (points.foldl (visitPathPoint sta nw i2 n2)
        { path_vertices := [], unique_vertices := [], path_arcs := [],
          unique_arcs := [] }).unique_vertices ↔
      v ∈ resolvedVertices nw i2
        (points.filterMap fun path_at_i => path_at_i.bind sta.pin)) ∧
    (points.foldl (visitPathPoint sta nw i2 n2)
        { path_vertices := [], unique_vertices := [], path_arcs := [],
          unique_arcs := [] }).path_arcs =
      removeRepeats (resolvedArcs nw n2
        (points.filterMap fun path_at_i => path_at_i.bind sta.pin)) ∧
    (∀ e, e ∈ (points.foldl (visitPathPoint sta nw i2 n2)
        { path_vertices := [], unique_vertices := [], path_arcs := [],
          unique_arcs := [] }).unique_arcs ↔
      e ∈ resolvedArcs nw n2
        (points.filterMap fun path_at_i => path_at_i.bind sta.pin)) := by
  induction points using List.reverseRecOn with
  | nil => simp [resolvedVertices, resolvedArcs, removeRepeats_nil]
  | append_singleton points point ih =>
    obtain ⟨hv, huv, ha, hua⟩ := ih
    rw [List.foldl_append, List.foldl_cons, List.foldl_nil]
    generalize points.foldl (visitPathPoint sta nw i2 n2)
      { path_vertices := [], unique_vertices := [], path_arcs := [], unique_arcs := [] } = st
      at hv huv ha hua ⊢
    obtain ⟨f1, f2, f3, f4⟩ := visitPathPoint_fields sta nw i2 n2 st point
    rw [f1, f2, f3, f4]
    unfold resolvedVertices resolvedArcs
    rw [filterMap_points_concat, filterMap_points_concat]
    obtain ⟨d1, d2⟩ := dedup_step _ _ _
      ((point.bind sta.pin).bind fun pin => (nw.instanceOf pin).bind (mapFind i2)) hv huv
    obtain ⟨d3, d4⟩ := dedup_step _ _ _
      ((point.bind sta.pin).bind fun pin => (nw.net pin).bind (mapFind n2)) ha hua
    exact ⟨d1, d2, d3, d4⟩

/-- The locals left by the loop over an expanded path. -/
theorem scanPath_eq (sta : Sta) (nw : Network) (i2 n2 : List (Nat × Int)) (path : StaPath) :
    (scanPath sta nw i2 n2 path).path_vertices =
        removeRepeats (resolvedVertices nw i2 (pathPins sta path)) ∧
      (scanPath sta nw i2 n2 path).path_arcs =
        removeRepeats (resolvedArcs nw n2 (pathPins sta path)) := by
  obtain ⟨hv, _, ha, _⟩ := foldl_visitPathPoint sta nw i2 n2 (sta.expanded path)
  exact ⟨hv, ha⟩

/-- One turn of the loop over the path ends appends the specified timing
path of the path end, if there is one. -/
theorem visitPathEnd_eq (sta : Sta) (nw : Network) (i2 n2 : List (Nat × Int))
    (timing_paths : List TimingPath) (path_end : Option PathEnd) :
    visitPathEnd sta nw i2 n2 timing_paths path_end =
      timing_paths ++ (specTimingPath sta nw i2 n2 path_end).toList := by
  unfold visitPathEnd specTimingPath
  cases path_end with
  | none => simp
  | some pe =>
    cases hpath : pe.path with
    | none => simp [hpath]
    | some path =>
      simp only [Option.some_bind, hpath]
      rw [(scanPath_eq sta nw i2 n2 path).1, (scanPath_eq sta nw i2 n2 path).2]
      by_cases hempty : removeRepeats (resolvedVertices nw i2 (pathPins sta path)) = []
      · simp [hempty]
      · simp [hempty]

/-- The loop over the path ends collects the specified timing paths in the
order of the path ends. -/
theorem foldl_visitPathEnd (sta : Sta) (nw : Network) (i2 n2 : List (Nat × Int))
    (path_ends : List (Option PathEnd)) (timing_paths : List TimingPath) :
    path_ends.foldl (visitPathEnd sta nw i2 n2) timing_paths =
      timing_paths ++ path_ends.filterMap (specTimingPath sta nw i2 n2) := by
  induction path_ends generalizing timing_paths with
  | nil => simp
  | cons path_end rest ih =>
    rw [List.foldl_cons, ih, visitPathEnd_eq, List.filterMap_cons]
    cases hspec : specTimingPath sta nw i2 n2 path_end with
    | none => simp
    | some tp => simp

/-- Claim C21: with a search engine present, `extractTimingPathsFromSTA`
returns, in the order of the path ends, one timing path for every path end
that has a path and whose vertex sequence is not empty, and nothing for the
others. The vertex sequence is the list of the vertex ids to which the pins
of the expanded path resolve, first pin to last pin, with every repeat after
the first occurrence removed; the hyperedge sequence is built in the same way
from the nets of the pins; the slack is the slack of the path end. The
sequences hold no id twice and hold exactly the ids resolved. -/
theorem extractTimingPathsFromSTA_paths (sta : Sta) (nw : Network)
    (inst_to_id net_to_id : List (Nat × Int)) (max_paths : Int)
    (hsearch : sta.hasSearch = true) :
    extractTimingPathsFromSTA (some sta) nw inst_to_id net_to_id max_paths =
        (sta.findPathEnds max_paths).filterMap (specTimingPath sta nw inst_to_id net_to_id) ∧
      (∀ path : StaPath,
        (scanPath sta nw inst_to_id net_to_id path).path_vertices =
            removeRepeats (resolvedVertices nw inst_to_id (pathPins sta path)) ∧
          (scanPath sta nw inst_to_id net_to_id path).path_arcs =
            removeRepeats (resolvedArcs nw net_to_id (pathPins sta path))) ∧
      (∀ (path_end : PathEnd) (path : StaPath), path_end.path = some path →
        (resolvedVertices nw inst_to_id (pathPins sta path) = [] →
            specTimingPath sta nw inst_to_id net_to_id (some path_end) = none) ∧
          (resolvedVertices nw inst_to_id (pathPins sta path) ≠ [] →
            ∃ tp, specTimingPath sta nw inst_to_id net_to_id (some path_end) = some tp ∧
              tp.slack = path_end.slack ∧
              tp.path = removeRepeats (resolvedVertices nw inst_to_id (pathPins sta path)))) ∧
      ∀ l : List Int, (removeRepeats l).Nodup ∧ ∀ x, x ∈ removeRepeats l ↔ x ∈ l := by
  refine ⟨?_, scanPath_eq sta nw inst_to_id net_to_id, ?_,
    fun l => ⟨removeRepeats_nodup l, mem_removeRepeats l⟩⟩
  · unfold extractTimingPathsFromSTA
    dsimp only
    rw [if_neg (by rw [hsearch]; simp), foldl_visitPathEnd, List.nil_append]
  · intro path_end path hpath
    have hiff : removeRepeats (resolvedVertices nw inst_to_id (pathPins sta path)) = [] ↔
        resolvedVertices nw inst_to_id (pathPins sta path) = [] := by
      constructor
      · intro h
        apply List.eq_nil_iff_forall_not_mem.2
        intro x hx
        have := (mem_removeRepeats _ x).2 hx
        rw [h] at this
        simp at this
      · intro h
        rw [h]
        rfl
    unfold specTimingPath
    simp only [Option.some_bind, hpath]
    constructor
    · intro hempty
      rw [if_pos (hiff.2 hempty)]
    · intro hne
      rw [if_neg (fun h => hne (hiff.1 h))]
      exact ⟨_, rfl, rfl, rfl⟩

/-- Witness for C21 on the path search `staA` over `designA`: of the four
path ends only the first gives a timing path, with the vertex sequence
`[3, 4]` (the port pin resolves to no vertex, `u1` is met twice), the
hyperedge sequence `[0, 1]` and the slack -0.02. -/
theorem extractTimingPathsFromSTA_paths_witness :
    extractTimingPathsFromSTA (some staA) designA (extractVertices designA 0).inst_to_id
        (linkedNetScan designA 0).net_to_id_map 100 =
      [{ path := [3, 4], arcs := [0, 1], slack := -1 / 50 }] ∧
    extractTimingPathsFromSTA (some staA) designA (extractVertices designA 0).inst_to_id
        (linkedNetScan designA 0).net_to_id_map 100 =
      (staA.findPathEnds 100).filterMap
        (specTimingPath staA designA (extractVertices designA 0).inst_to_id
          (linkedNetScan designA 0).net_to_id_map) :=
  ⟨by with_unfolding_all decide,
    (extractTimingPathsFromSTA_paths staA designA (extractVertices designA 0).inst_to_id
      (linkedNetScan designA 0).net_to_id_map 100 rfl).1⟩

/-! ## The lookups rebuilt by name -/


/-- An entry found at a position of a list is a member of the list. -/
theorem mem_of_getElem?_eq_some {β : Type} (l : List β) (i : Nat) (x : β)
    (h : l[i]? = some x) : x ∈ l := by
  induction l generalizing i with
  | nil => simp at h
  | cons y ys ih =>
    cases i with
    | zero =>
      simp only [List.getElem?_cons_zero, Option.some.injEq] at h
      rw [h]
      exact List.mem_cons_self _ _
    | succ j =>
      simp only [List.getElem?_cons_succ] at h
      exact List.mem_cons_of_mem _ (ih j h)

theorem nameFind_cons (k : String) (v : Int) (m : List (String × Int)) (s : String) :
    nameFind ((k, v) :: m) s = if k = s then some v else nameFind m s := rfl

/-- A binding found in the map built from the names of a list of records is
an older binding or the position of a record of that name. -/
theorem nameFind_nameToIdFrom {α : Type} (name : α → String) (l : List α) (start : Nat)
    (m : List (String × Int)) (s : String) (id : Int)
    (h : nameFind (nameToIdFrom name start m l) s = some id) :
    nameFind m s = some id ∨
      ∃ (i : Nat) (r : α), l[i]? = some r ∧ name r = s ∧ id = ((start + i : Nat) : Int) := by
  induction l generalizing start m with
  | nil => exact Or.inl h
  | cons r rest ih =>
    unfold nameToIdFrom at h
    rcases ih (start + 1) _ h with h1 | ⟨i, r', hi, hname, hid⟩
    · rw [nameFind_cons] at h1
      split_ifs at h1 with hr
      · right
        refine ⟨0, r, by simp, hr, ?_⟩
        injection h1 with h1
        rw [← h1]
        rfl
      · exact Or.inl h1
    · right
      refine ⟨i + 1, r', by simpa using hi, hname, ?_⟩
      rw [hid]
      congr 1
      omega

/-- A name is bound in the map built from a list of records exactly when it
was bound before or is the name of a record. -/
theorem nameFind_nameToIdFrom_isSome {α : Type} (name : α → String) (l : List α) (start : Nat)
    (m : List (String × Int)) (s : String) :
    (nameFind (nameToIdFrom name start m l) s).isSome = true ↔
      (nameFind m s).isSome = true ∨ s ∈ l.map name := by
  induction l generalizing start m with
  | nil => simp [nameToIdFrom]
  | cons r rest ih =>
    unfold nameToIdFrom
    rw [ih, nameFind_cons]
    by_cases hr : name r = s
    · simp [hr]
    · have hr' : ¬ s = name r := fun h => hr h.symm
      simp [hr, hr']

/-- Positions in a list without repeated entries are determined by the
entry. -/
theorem nodup_index_unique {β : Type} (l : List β) (hl : l.Nodup) (i j : Nat) (x : β)
    (hi : l[i]? = some x) (hj : l[j]? = some x) : i = j := by
  induction l generalizing i j with
  | nil => simp at hi
  | cons y ys ih =>
    have hy := (List.nodup_cons.1 hl)
    cases i with
    | zero =>
      cases j with
      | zero => rfl
      | succ j' =>
        exfalso
        simp only [List.getElem?_cons_zero, Option.some.injEq] at hi
        simp only [List.getElem?_cons_succ] at hj
        rw [hi] at hy
        exact hy.1 (mem_of_getElem?_eq_some _ _ _ hj)
    | succ i' =>
      cases j with
      | zero =>
        exfalso
        simp only [List.getElem?_cons_zero, Option.some.injEq] at hj
        simp only [List.getElem?_cons_succ] at hi
        rw [hj] at hy
        exact hy.1 (mem_of_getElem?_eq_some _ _ _ hi)
      | succ j' =>
        simp only [List.getElem?_cons_succ] at hi hj
        rw [ih hy.2 i' j' hi hj]

/-- With pairwise distinct names, the map built from a list of records binds
the name of every record to its position. -/
theorem nameFind_nameToId_nodup {α : Type} (name : α → String) (l : List α)
    (hl : (l.map name).Nodup) (i : Nat) (r : α) (hi : l[i]? = some r) :
    nameFind (nameToId name l) (name r) = some (i : Int) := by
  have hsome : (nameFind (nameToId name l) (name r)).isSome = true := by
    unfold nameToId
    rw [nameFind_nameToIdFrom_isSome]
    right
    exact List.mem_map.2 ⟨r, mem_of_getElem?_eq_some _ _ _ hi, rfl⟩
  obtain ⟨id, hid⟩ := Option.isSome_iff_exists.1 hsome
  rw [hid]
  unfold nameToId at hid
  rcases nameFind_nameToIdFrom name l 0 [] (name r) id hid with h | ⟨j, r', hj, hname, hidj⟩
  · simp [nameFind] at h
  · have h1 : (l.map name)[j]? = some (name r) := by
      rw [List.getElem?_map, hj, Option.map_some', hname]
    have h2 : (l.map name)[i]? = some (name r) := by
      rw [List.getElem?_map, hi, Option.map_some']
    have := nodup_index_unique _ hl j i _ h1 h2
    rw [hidj, this]
    simp

/-- The lookup built by the leaf loop of `buildInstanceToIdMap`: an instance
enumerated by the loop is bound to the id found for its path name, if one is
found. -/
theorem mapFind_instanceLoop (nw : Network) (name_to_id : List (String × Int))
    (leaves : List StaInstance) (acc : List (StaInstance × Int)) (inst : StaInstance) :
    mapFind
        (leaves.foldl
          (fun inst_to_id inst =>
            match nameFind name_to_id (nw.pathName inst) with
            | some id => mapSet inst_to_id inst id
            | none => inst_to_id)
          acc) inst =
      if inst ∈ leaves ∧ (nameFind name_to_id (nw.pathName inst)).isSome = true then
        nameFind name_to_id (nw.pathName inst)
      else mapFind acc inst := by
  induction leaves generalizing acc with
  | nil => simp
  | cons leaf rest ih =>
    rw [List.foldl_cons, ih]
    by_cases hfound : (nameFind name_to_id (nw.pathName inst)).isSome = true
    · by_cases hrest : inst ∈ rest
      · rw [if_pos ⟨hrest, hfound⟩, if_pos ⟨List.mem_cons_of_mem _ hrest, hfound⟩]
      · rw [if_neg (fun h => hrest h.1)]
        by_cases hleaf : leaf = inst
        · subst hleaf
          rw [if_pos ⟨List.mem_cons_self _ _, hfound⟩]
          obtain ⟨id, hid⟩ := Option.isSome_iff_exists.1 hfound
          rw [hid]
          simp [mapSet, mapFind]
        · rw [if_neg (by
            rintro ⟨hmem, _⟩
            rcases List.mem_cons.1 hmem with h | h
            · exact hleaf h.symm
            · exact hrest h)]
          cases hl : nameFind name_to_id (nw.pathName leaf) with
          | none => rfl
          | some id => simp [mapSet, mapFind, hleaf]
    · rw [if_neg (fun h => hfound h.2), if_neg (fun h => hfound h.2)]
      cases hl : nameFind name_to_id (nw.pathName leaf) with
      | none => rfl
      | some id =>
        by_cases hleaf : leaf = inst
        · subst hleaf
          rw [hl] at hfound
          simp at hfound
        · simp [mapSet, mapFind, hleaf]

/-- The lookup built by `buildInstanceToIdMap` on a linked design. -/
theorem mapFind_buildInstanceToIdMap (nw : Network) (top_inst : StaInstance)
    (instances : List Instance) (htop : nw.topInstance = some top_inst) (inst : StaInstance) :
    mapFind (buildInstanceToIdMap nw instances) inst =
      if inst ∈ nw.leafInstanceIterator ∧
          (nameFind (nameToId Instance.name instances) (nw.pathName inst)).isSome = true then
        nameFind (nameToId Instance.name instances) (nw.pathName inst)
      else none := by
  unfold buildInstanceToIdMap
  rw [htop]
  dsimp only
  rw [mapFind_instanceLoop]
  rfl

mutual
/-- The walk of `processNets` maps the nets of the tree in the order of the
walk. -/
theorem processNets_eq (nw : Network) (name_to_id : List (String × Int)) :
    ∀ (tree : InstanceTree) (net_to_id : List (StaNet × Int)),
      processNets nw name_to_id tree net_to_id =
        tree.nets.foldl (mapNetName nw name_to_id) net_to_id
  | InstanceTree.node _ nets children, net_to_id => by
    rw [processNets, InstanceTree.nets, List.foldl_append,
      processChildren_eq nw name_to_id children]
/-- The walk over a list of instance trees. -/
theorem processChildren_eq (nw : Network) (name_to_id : List (String × Int)) :
    ∀ (trees : List InstanceTree) (net_to_id : List (StaNet × Int)),
      processChildren nw name_to_id trees net_to_id =
        (InstanceTree.netsOfList trees).foldl (mapNetName nw name_to_id) net_to_id
  | [], net_to_id => by
    rw [processChildren, InstanceTree.netsOfList]
    rfl
  | child :: rest, net_to_id => by
    rw [processChildren, InstanceTree.netsOfList, List.foldl_append,
      processNets_eq nw name_to_id child, processChildren_eq nw name_to_id rest]
end

theorem mapFind_mapSet (m : List (Nat × Int)) (k : Nat) (v : Int) (x : Nat) :
    mapFind (mapSet m k v) x = if k = x then some v else mapFind m x := rfl

/-- With an idempotent canonicalization, every binding that the net loop
adds to the lookup binds a net to the id found for the path name of its
canonical net. -/
theorem mapFind_netLoop_value (nw : Network) (name_to_id : List (String × Int))
    (hidem : ∀ n, nw.highestConnectedNet (nw.highestConnectedNet n) = nw.highestConnectedNet n)
    (nets : List StaNet) (acc : List (StaNet × Int)) (x : StaNet) (id : Int)
    (h : mapFind (nets.foldl (mapNetName nw name_to_id) acc) x = some id) :
    mapFind acc x = some id ∨
      nameFind name_to_id (nw.netPathName (nw.highestConnectedNet x)) = some id := by
  induction nets generalizing acc with
  | nil => exact Or.inl h
  | cons net rest ih =>
    rw [List.foldl_cons] at h
    rcases ih _ h with h1 | h1
    · unfold mapNetName at h1
      cases hfind : nameFind name_to_id (nw.netPathName (nw.highestConnectedNet net)) with
      | none =>
        rw [hfind] at h1
        exact Or.inl h1
      | some id' =>
        rw [hfind] at h1
        dsimp only at h1
        rw [mapFind_mapSet, mapFind_mapSet] at h1
        split_ifs at h1 with hx1 hx2
        · right
          rw [← hx1, hidem, hfind, h1]
        · right
          rw [← hx2, hfind, h1]
        · exact Or.inl h1
    · exact Or.inr h1

/-- The nets bound by the net loop: those bound before, and every net
visited whose canonical net has a path name with an id, together with that
canonical net. -/
theorem mapFind_netLoop_isSome (nw : Network) (name_to_id : List (String × Int))
    (nets : List StaNet) (acc : List (StaNet × Int)) (x : StaNet) :
    (mapFind (nets.foldl (mapNetName nw name_to_id) acc) x).isSome = true ↔
      (mapFind acc x).isSome = true ∨
        ∃ n ∈ nets,
          (nameFind name_to_id (nw.netPathName (nw.highestConnectedNet n))).isSome = true ∧
            (x = n ∨ x = nw.highestConnectedNet n) := by
  induction nets generalizing acc with
  | nil => simp
  | cons net rest ih =>
    rw [List.foldl_cons, ih]
    unfold mapNetName
    cases hfind : nameFind name_to_id (nw.netPathName (nw.highestConnectedNet net)) with
    | none =>
      dsimp only
      constructor
      · rintro (h | ⟨n, hn, hsome, hx⟩)
        · exact Or.inl h
        · exact Or.inr ⟨n, List.mem_cons_of_mem _ hn, hsome, hx⟩
      · rintro (h | ⟨n, hn, hsome, hx⟩)
        · exact Or.inl h
        · rcases List.mem_cons.1 hn with heq | hmem
          · subst heq
            rw [hfind] at hsome
            simp at hsome
          · exact Or.inr ⟨n, hmem, hsome, hx⟩
    | some id =>
      dsimp only
      rw [mapFind_mapSet, mapFind_mapSet]
      constructor
      · rintro (h | ⟨n, hn, hsome, hx⟩)
        · split_ifs at h with hx1 hx2
          · exact Or.inr ⟨net, List.mem_cons_self _ _, by rw [hfind]; rfl, Or.inr hx1.symm⟩
          · exact Or.inr ⟨net, List.mem_cons_self _ _, by rw [hfind]; rfl, Or.inl hx2.symm⟩
          · exact Or.inl h
        · exact Or.inr ⟨n, List.mem_cons_of_mem _ hn, hsome, hx⟩
      · rintro (h | ⟨n, hn, hsome, hx⟩)
        · left
          split_ifs
          · rfl
          · rfl
          · exact h
        · rcases List.mem_cons.1 hn with heq | hmem
          · subst heq
            left
            rcases hx with hx | hx
            · split_ifs with hx1 hx2
              · rfl
              · rfl
              · exact absurd hx.symm hx2
            · rw [if_pos hx.symm]
              rfl
          · exact Or.inr ⟨n, hmem, hsome, hx⟩

/-- The lookup built by `buildNetToIdMap` on a linked design is the net loop
over the nets of the hierarchy. -/
theorem buildNetToIdMap_eq (nw : Network) (top_inst : StaInstance) (hierarchy : InstanceTree)
    (nets : List Net) (htop : nw.topInstance = some top_inst) :
    buildNetToIdMap nw hierarchy nets =
      hierarchy.nets.foldl (mapNetName nw (nameToId Net.name nets)) [] := by
  unfold buildNetToIdMap
  rw [htop]
  dsimp only
  rw [processNets_eq]

/-- Claim C22: with an idempotent canonicalization, every net that
`buildNetToIdMap` puts in the lookup has its canonical net in the lookup too,
bound to the same hyperedge id, and that id is the position of an extracted
net that carries the path name of the canonical net; on a linked design a
net of the hierarchy (or the canonical net of one) is in the lookup exactly
when the path name of its canonical net is the name of an extracted net. -/
theorem buildNetToIdMap_canonical (nw : Network) (hierarchy : InstanceTree) (nets : List Net)
    (hidem : ∀ n, nw.highestConnectedNet (nw.highestConnectedNet n) =
      nw.highestConnectedNet n) :
    (∀ (n : StaNet) (id : Int), mapFind (buildNetToIdMap nw hierarchy nets) n = some id →
        mapFind (buildNetToIdMap nw hierarchy nets) (nw.highestConnectedNet n) = some id ∧
          ∃ (i : Nat) (net : Net), nets[i]? = some net ∧
            net.name = nw.netPathName (nw.highestConnectedNet n) ∧ id = (i : Int)) ∧
      ∀ top_inst, nw.topInstance = some top_inst →
        ∀ n, (n ∈ hierarchy.nets ∨ ∃ m ∈ hierarchy.nets, nw.highestConnectedNet m = n) →
          ((mapFind (buildNetToIdMap nw hierarchy nets) n).isSome = true ↔
            nw.netPathName (nw.highestConnectedNet n) ∈ nets.map Net.name) := by
  constructor
  · intro n id h
    cases htop : nw.topInstance with
    | none =>
      unfold buildNetToIdMap at h
      rw [htop] at h
      simp [mapFind] at h
    | some top_inst =>
      rw [buildNetToIdMap_eq nw top_inst hierarchy nets htop] at h ⊢
      have hval : nameFind (nameToId Net.name nets)
          (nw.netPathName (nw.highestConnectedNet n)) = some id := by
        rcases mapFind_netLoop_value nw _ hidem _ _ n id h with h1 | h1
        · simp [mapFind] at h1
        · exact h1
      have hdom : (mapFind (hierarchy.nets.foldl (mapNetName nw (nameToId Net.name nets)) [])
          (nw.highestConnectedNet n)).isSome = true := by
        have hn : (mapFind (hierarchy.nets.foldl (mapNetName nw (nameToId Net.name nets)) [])
            n).isSome = true := by rw [h]; rfl
        rw [mapFind_netLoop_isSome] at hn ⊢
        rcases hn with hn | ⟨m, hm, hfound, hx⟩
        · simp [mapFind] at hn
        · right
          refine ⟨m, hm, hfound, Or.inr ?_⟩
          rcases hx with hx | hx
          · rw [hx]
          · rw [hx, hidem]
      obtain ⟨id', hid'⟩ := Option.isSome_iff_exists.1 hdom
      have hval' : nameFind (nameToId Net.name nets)
          (nw.netPathName (nw.highestConnectedNet (nw.highestConnectedNet n))) = some id' := by
        rcases mapFind_netLoop_value nw _ hidem _ _ _ id' hid' with h1 | h1
        · simp [mapFind] at h1
        · exact h1
      rw [hidem, hval] at hval'
      refine ⟨by rw [hid', ← hval'], ?_⟩
      unfold nameToId at hval
      rcases nameFind_nameToIdFrom Net.name nets 0 [] _ id hval with h1 | ⟨i, net, hi, hname, hid⟩
      · simp [nameFind] at h1
      · exact ⟨i, net, hi, hname, by rw [hid]; simp⟩
  · intro top_inst htop n hn
    rw [buildNetToIdMap_eq nw top_inst hierarchy nets htop]
    have hnames : (nameFind (nameToId Net.name nets)
        (nw.netPathName (nw.highestConnectedNet n))).isSome = true ↔
        nw.netPathName (nw.highestConnectedNet n) ∈ nets.map Net.name := by
      unfold nameToId
      rw [nameFind_nameToIdFrom_isSome]
      simp [nameFind]
    constructor
    · intro h
      obtain ⟨id, hid⟩ := Option.isSome_iff_exists.1 h
      rcases mapFind_netLoop_value nw _ hidem _ _ n id hid with h1 | h1
      · simp [mapFind] at h1
      · exact hnames.1 (by rw [h1]; rfl)
    · intro h
      rw [mapFind_netLoop_isSome]
      right
      rcases hn with hn | ⟨m, hm, hmn⟩
      · exact ⟨n, hn, hnames.2 h, Or.inl rfl⟩
      · refine ⟨m, hm, ?_, Or.inr hmn.symm⟩
        rw [← hmn, hidem] at h
        unfold nameToId
        rw [nameFind_nameToIdFrom_isSome]
        exact Or.inr h

/-- Witness for C22 on `designAlias`: the net 7 inside `u1`, whose canonical
net is the net 2, is bound to the hyperedge id 1, and so is the net 2. -/
theorem buildNetToIdMap_canonical_witness :
    mapFind (buildNetToIdMap designAlias hierarchyAlias (linkedNetScan designAlias 0).nets_) 7 =
      some 1 ∧
    designAlias.highestConnectedNet 7 = 2 ∧
    mapFind (buildNetToIdMap designAlias hierarchyAlias (linkedNetScan designAlias 0).nets_)
      (designAlias.highestConnectedNet 7) = some 1 :=
  ⟨by with_unfolding_all decide, by decide,
    ((buildNetToIdMap_canonical designAlias hierarchyAlias (linkedNetScan designAlias 0).nets_
      (by
        intro n
        show (if (if n = 7 then 2 else n) = 7 then 2 else (if n = 7 then 2 else n)) =
          (if n = 7 then 2 else n)
        by_cases h : n = 7
        · simp [h]
        · simp [h])).1 7 1 (by with_unfolding_all decide)).1⟩

/-! ## The lookups agree with the ids of the extraction -/


/-- On a linked design `extractNetlistData` stores the vertices of steps 1
and 2 and the nets of step 3. -/
theorem extractNetlistData_linked (a : OpenStaAdapter) (nw : Network) (top_inst : StaInstance)
    (h : a.sta_impl_ = some nw) (htop : nw.topInstance = some top_inst) :
    a.extractNetlistData.sta_impl_ = some nw ∧
      a.extractNetlistData.data_cached_ = true ∧
      a.extractNetlistData.instances_ = (extractVertices nw top_inst).instances_ ∧
      a.extractNetlistData.nets_ = (linkedNetScan nw top_inst).nets_ := by
  unfold OpenStaAdapter.extractNetlistData
  rw [h]
  dsimp only
  rw [htop]
  exact ⟨rfl, rfl, rfl, rfl⟩

/-- The vertex record stored for the `k`-th library-backed leaf. -/
theorem instances_getElem?_leaf (nw : Network) (top_inst : StaInstance) (k : Nat)
    (il : StaInstance × LibertyCell) (hk : (libraryLeaves nw)[k]? = some il) :
    (extractVertices nw top_inst).instances_[(expandedPorts nw top_inst).length + k]? =
      some (cellVertex nw (((expandedPorts nw top_inst).length : Int) + (k : Int)) il) := by
  rw [(extractVertices_eq nw top_inst).1,
    List.getElem?_append_right (by rw [numbered_length]; omega), numbered_length,
    Nat.add_sub_cancel_left, numbered_getElem?, hk]
  rfl

/-- The vertex record stored at a position below the number of ports is the
record of a port. -/
theorem instances_getElem?_port (nw : Network) (top_inst : StaInstance) (i : Nat)
    (r : Instance) (hi : i < (expandedPorts nw top_inst).length)
    (hr : (extractVertices nw top_inst).instances_[i]? = some r) :
    ∃ p ∈ expandedPorts nw top_inst, r.name = nw.portName p := by
  rw [(extractVertices_eq nw top_inst).1,
    List.getElem?_append_left (by rw [numbered_length]; exact hi), numbered_getElem?] at hr
  cases hp : (expandedPorts nw top_inst)[i]? with
  | none => rw [hp] at hr; simp at hr
  | some p =>
    rw [hp] at hr
    simp only [Option.map_some', Option.some.injEq] at hr
    exact ⟨p, mem_of_getElem?_eq_some _ _ _ hp, by rw [← hr]; rfl⟩

/-- Claim C23: on a linked design whose vertex names are pairwise distinct
and whose extracted net names are pairwise distinct, the lookups rebuilt by
name agree with the ids of the extraction: `buildInstanceToIdMap` binds
every leaf instance with a library cell to the vertex id that
`extractNetlistData` gave it, and `buildNetToIdMap` binds every canonical net
that was emitted to the hyperedge id it was given. The canonicalization of
the engine is idempotent and the hierarchy holds the net of every pin. -/
theorem id_lookups_agree (nw : Network) (top_inst : StaInstance) (hierarchy : InstanceTree)
    (htop : nw.topInstance = some top_inst)
    (hvnames : ((extractVertices nw top_inst).instances_.map Instance.name).Nodup)
    (hnnames : ((linkedNetScan nw top_inst).nets_.map Net.name).Nodup)
    (hidem : ∀ n, nw.highestConnectedNet (nw.highestConnectedNet n) =
      nw.highestConnectedNet n)
    (hhier : ∀ pin n, nw.net pin = some n → n ∈ hierarchy.nets) :
    (∀ (inst : StaInstance) (id : Int),
        mapFind (extractVertices nw top_inst).inst_to_id inst = some id →
        mapFind (buildInstanceToIdMap nw (extractVertices nw top_inst).instances_) inst =
          some id) ∧
      (∀ (n : StaNet) (id : Int),
        mapFind (linkedNetScan nw top_inst).net_to_id_map n = some id →
        mapFind (buildNetToIdMap nw hierarchy (linkedNetScan nw top_inst).nets_) n =
          some id) ∧
      (∀ inst ∈ nw.leafInstanceIterator, (nw.libertyCell inst).isSome = true →
        (mapFind (extractVertices nw top_inst).inst_to_id inst).isSome = true) ∧
      ∀ a : OpenStaAdapter, a.sta_impl_ = some nw →
        a.extractNetlistData.getInstances = (extractVertices nw top_inst).instances_ ∧
          a.extractNetlistData.getNets = (linkedNetScan nw top_inst).nets_ := by
  refine ⟨?_, ?_, ?_, ?_⟩
  · intro inst id hid
    have hmap := (extractVertices_eq nw top_inst).2.1
    rw [hmap] at hid
    obtain ⟨k, hk, hidk⟩ := mapFind_numberedMap_some _ _ _ _ hid
    rw [List.getElem?_map] at hk
    cases hil : (libraryLeaves nw)[k]? with
    | none => rw [hil] at hk; simp at hk
    | some il =>
      rw [hil] at hk
      simp only [Option.map_some', Option.some.injEq] at hk
      have hrec := instances_getElem?_leaf nw top_inst k il hil
      have hname := nameFind_nameToId_nodup Instance.name _ hvnames _ _ hrec
      have hn : (cellVertex nw (((expandedPorts nw top_inst).length : Int) + (k : Int)) il).name =
          nw.pathName inst := by rw [← hk]; rfl
      rw [hn] at hname
      have hleaf : inst ∈ nw.leafInstanceIterator :=
        ((mem_libraryLeaves_fst nw inst).1
          (List.mem_map.2 ⟨il, mem_of_getElem?_eq_some _ _ _ hil, hk⟩)).1
      rw [mapFind_buildInstanceToIdMap nw top_inst _ htop,
        if_pos ⟨hleaf, by rw [hname]; rfl⟩, hname, hidk]
      push_cast
      rfl
  · intro n id hid
    obtain ⟨_, hnets, _, hmap, _, _, _⟩ :=
      extractNets_closedForm nw (extractVertices nw top_inst).inst_to_id
        (extractVertices nw top_inst).port_to_id
    unfold linkedNetScan at hid hnnames ⊢
    rw [hmap] at hid
    obtain ⟨k, hk, hidk⟩ := mapFind_numberedMap_some _ _ _ _ hid
    have hrec : (extractNets nw (extractVertices nw top_inst).inst_to_id
        (extractVertices nw top_inst).port_to_id).nets_[k]? =
        some (netRecord nw (extractVertices nw top_inst).inst_to_id
          (extractVertices nw top_inst).port_to_id ((0 : Int) + (k : Int)) n) := by
      rw [hnets, numbered_getElem?, hk]
      rfl
    have hname := nameFind_nameToId_nodup Net.name _ hnnames _ _ hrec
    have hn : (netRecord nw (extractVertices nw top_inst).inst_to_id
        (extractVertices nw top_inst).port_to_id ((0 : Int) + (k : Int)) n).name =
        nw.netPathName n := rfl
    rw [hn] at hname
    have hdisc : n ∈ discoveredNets nw (extractVertices nw top_inst).inst_to_id :=
      (List.mem_filter.1 (mem_of_getElem?_eq_some _ _ _ hk)).1
    rw [mem_discoveredNets, mem_reachedNets] at hdisc
    obtain ⟨inst, _, _, pin, _, hpin⟩ := hdisc
    cases hpn : nw.net pin with
    | none => rw [hpn] at hpin; simp at hpin
    | some pn =>
      rw [hpn] at hpin
      simp only [Option.map_some', Option.some.injEq] at hpin
      have hcanon : nw.highestConnectedNet n = n := by rw [← hpin, hidem]
      rw [buildNetToIdMap_eq nw top_inst hierarchy _ htop]
      have hdom : (mapFind (hierarchy.nets.foldl
          (mapNetName nw (nameToId Net.name
            (extractNets nw (extractVertices nw top_inst).inst_to_id
              (extractVertices nw top_inst).port_to_id).nets_)) []) n).isSome = true := by
        rw [mapFind_netLoop_isSome]
        right
        exact ⟨pn, hhier pin pn hpn, by rw [hpin, hname]; rfl, Or.inr hpin.symm⟩
      obtain ⟨id', hid'⟩ := Option.isSome_iff_exists.1 hdom
      rcases mapFind_netLoop_value nw _ hidem _ _ n id' hid' with h1 | h1
      · simp [mapFind] at h1
      · rw [hcanon, hname] at h1
        rw [hid', ← h1, hidk]
        simp
  · intro inst hinst hlib
    exact (inst_to_id_isSome nw top_inst inst).2 ⟨hinst, hlib⟩
  · intro a ha
    obtain ⟨_, _, hi, hn⟩ := extractNetlistData_linked a nw top_inst ha htop
    exact ⟨hi, hn⟩

/-- The canonicalization of `designAlias` is idempotent. -/
theorem designAlias_idempotent (n : StaNet) :
    designAlias.highestConnectedNet (designAlias.highestConnectedNet n) =
      designAlias.highestConnectedNet n := by
  show (if (if n = 7 then 2 else n) = 7 then 2 else (if n = 7 then 2 else n)) =
    (if n = 7 then 2 else n)
  by_cases h : n = 7
  · simp [h]
  · simp [h]

/-- The hierarchy `hierarchyAlias` holds the net of every pin of
`designAlias`. -/
theorem designAlias_hierarchy (pin : StaPin) (n : StaNet)
    (hpin : designAlias.net pin = some n) : n ∈ hierarchyAlias.nets := by
  have h : (if pin = 101 ∨ pin = 1 then some 1
      else if pin = 102 ∨ pin = 111 ∨ pin = 121 then some 2
      else if pin = 122 ∨ pin = 3 then some 3 else none) = some n := hpin
  split_ifs at h <;> simp at h <;> subst h <;> decide

/-- Witness for C23 on `designAlias`: the leaf `u3` (handle 12) received the
vertex id 4 and the canonical net 2 the hyperedge id 1, and both lookups
rebuilt by name give these ids. -/
theorem id_lookups_agree_witness :
    mapFind (extractVertices designAlias 0).inst_to_id 12 = some 4 ∧
    mapFind (buildInstanceToIdMap designAlias (extractVertices designAlias 0).instances_) 12 =
      some 4 ∧
    mapFind (linkedNetScan designAlias 0).net_to_id_map 2 = some 1 ∧
    mapFind (buildNetToIdMap designAlias hierarchyAlias (linkedNetScan designAlias 0).nets_) 2 =
      some 1 :=
  ⟨by decide,
    (id_lookups_agree designAlias 0 hierarchyAlias rfl (by with_unfolding_all decide)
      (by with_unfolding_all decide)
      designAlias_idempotent designAlias_hierarchy).1 12 4 (by decide),
    by decide,
    (id_lookups_agree designAlias 0 hierarchyAlias rfl (by with_unfolding_all decide)
      (by with_unfolding_all decide)
      designAlias_idempotent designAlias_hierarchy).2.1 2 1 (by decide)⟩

/-! ## No port vertex on a timing path -/


/-- Every vertex id of a timing path returned by `extractTimingPathsFromSTA`
is bound to some instance in `inst_to_id`. -/
theorem extractTimingPathsFromSTA_vertices (sta : Option Sta) (nw : Network)
    (i2 n2 : List (Nat × Int)) (max_paths : Int) (tp : TimingPath)
    (htp : tp ∈ extractTimingPathsFromSTA sta nw i2 n2 max_paths) (v : Int) (hv : v ∈ tp.path) :
    ∃ inst, mapFind i2 inst = some v := by
  unfold extractTimingPathsFromSTA at htp
  cases sta with
  | none => simp at htp
  | some sta =>
    dsimp only at htp
    split_ifs at htp
    · simp at htp
    · rw [foldl_visitPathEnd, List.nil_append, List.mem_filterMap] at htp
      obtain ⟨path_end, _, hspec⟩ := htp
      unfold specTimingPath at hspec
      cases path_end with
      | none => simp at hspec
      | some pe =>
        cases hpath : pe.path with
        | none => simp [hpath] at hspec
        | some path =>
          simp only [Option.some_bind, hpath] at hspec
          split_ifs at hspec
          injection hspec with hspec
          rw [← hspec] at hv
          dsimp only at hv
          rw [mem_removeRepeats] at hv
          unfold resolvedVertices at hv
          rw [List.mem_filterMap] at hv
          obtain ⟨pin, _, hres⟩ := hv
          cases hinst : nw.instanceOf pin with
          | none => rw [hinst] at hres; simp at hres
          | some inst =>
            rw [hinst] at hres
            exact ⟨inst, hres⟩

/-- Claim C30: on a linked design in which no leaf instance has the path
name of a top-level port (of a bit of a bus port), the lookup built by
`buildInstanceToIdMap` binds leaf instances only and binds them to ids that
are at least the number of ports, so every vertex id in the vertex sequence
of a timing path returned by `getCriticalPaths` is at least the number of
ports: no vertex of a port appears, whatever pins the path runs through. -/
theorem getCriticalPaths_no_port_vertex (a : OpenStaAdapter) (nw : Network)
    (top_inst : StaInstance) (sta : Option Sta) (hierarchy : InstanceTree) (max_paths : Int)
    (ha : a.sta_impl_ = some nw) (htop : nw.topInstance = some top_inst)
    (hnames : ∀ inst ∈ nw.leafInstanceIterator, ∀ p ∈ expandedPorts nw top_inst,
      nw.pathName inst ≠ nw.portName p) :
    (extractVertices nw top_inst).port_count = ((expandedPorts nw top_inst).length : Int) ∧
      (∀ (inst : StaInstance) (id : Int),
        mapFind (buildInstanceToIdMap nw a.extractNetlistData.getInstances) inst = some id →
        inst ∈ nw.leafInstanceIterator ∧ (extractVertices nw top_inst).port_count ≤ id) ∧
      ∀ tp ∈ a.extractNetlistData.getCriticalPaths sta hierarchy max_paths,
        ∀ v ∈ tp.path, (extractVertices nw top_inst).port_count ≤ v := by
  obtain ⟨hsta, hcached, hinstances, _⟩ := extractNetlistData_linked a nw top_inst ha htop
  have hcount : (extractVertices nw top_inst).port_count =
      ((expandedPorts nw top_inst).length : Int) := by
    have hkeep : ∀ (leaves : List StaInstance) (st : VertexScan),
        (leaves.foldl (visitLeafInstance nw) st).port_count = st.port_count := by
      intro leaves
      induction leaves with
      | nil => intro st; rfl
      | cons leaf rest ih =>
        intro st
        rw [List.foldl_cons, ih]
        unfold visitLeafInstance
        split <;> rfl
    unfold extractVertices
    rw [hkeep, extractPorts_eq]
  have hlookup : ∀ (inst : StaInstance) (id : Int),
      mapFind (buildInstanceToIdMap nw a.extractNetlistData.getInstances) inst = some id →
      inst ∈ nw.leafInstanceIterator ∧ (extractVertices nw top_inst).port_count ≤ id := by
    intro inst id hid
    unfold OpenStaAdapter.getInstances at hid
    rw [hinstances, mapFind_buildInstanceToIdMap nw top_inst _ htop] at hid
    split_ifs at hid with hcond
    refine ⟨hcond.1, ?_⟩
    unfold nameToId at hid
    rcases nameFind_nameToIdFrom Instance.name _ 0 [] _ id hid with h | ⟨i, r, hi, hname, hidi⟩
    · simp [nameFind] at h
    · rw [hcount, hidi]
      by_contra hlt
      have hlt' : i < (expandedPorts nw top_inst).length := by
        push_cast at hlt
        omega
      obtain ⟨p, hp, hpname⟩ := instances_getElem?_port nw top_inst i r hlt' hi
      exact hnames inst hcond.1 p hp (by rw [← hname, hpname])
  refine ⟨hcount, hlookup, ?_⟩
  intro tp htp v hv
  unfold OpenStaAdapter.getCriticalPaths at htp
  rw [hsta] at htp
  dsimp only at htp
  rw [if_neg (by rw [hcached]; simp)] at htp
  obtain ⟨inst, hinst⟩ := extractTimingPathsFromSTA_vertices sta nw _ _ max_paths tp htp v hv
  exact (hlookup inst v hinst).2

/-- Witness for C30 on `designA` (three port vertices 0, 1, 2 and the leaves
`u1`, `u3` with vertex ids 3 and 4): the path of `staA` that starts at the
pin of port `a` gets the vertex sequence `[3, 4]`. -/
theorem getCriticalPaths_no_port_vertex_witness :
    (extractVertices designA 0).port_count = 3 ∧
    ((OpenStaAdapter.fresh designA).extractNetlistData.getCriticalPaths (some staA) hierarchyA
      100).map (fun tp => tp.path) = [[3, 4]] ∧
    ∀ tp ∈ (OpenStaAdapter.fresh designA).extractNetlistData.getCriticalPaths (some staA)
        hierarchyA 100,
      ∀ v ∈ tp.path, (extractVertices designA 0).port_count ≤ v :=
  ⟨by decide, by with_unfolding_all decide,
    (getCriticalPaths_no_port_vertex (OpenStaAdapter.fresh designA) designA 0 (some staA)
      hierarchyA 100 rfl rfl (by decide)).2.2⟩

/-! ## The evaluation where every access is in range -/


/-- The checked label collection succeeds from every state when no member id
is negative. -/
theorem partsInEdgeChecked_foldlM (partition_ : List Int) (members : List Int)
    (hmembers : ∀ v ∈ members, 0 ≤ v) (s0 : List Int) :
    (members.foldlM
      (fun parts_in_edge v =>
        if v < (partition_.length : Int) then
          if v < 0 then none
          else some (setInsert (partition_.getD v.toNat 0) parts_in_edge)
        else some parts_in_edge)
      s0).isSome = true := by
  induction members generalizing s0 with
  | nil => rfl
  | cons v rest ih =>
    have hv : ¬ v < 0 := not_lt.2 (hmembers v (List.mem_cons_self _ _))
    rw [List.foldlM_cons]
    by_cases hlt : v < (partition_.length : Int)
    · simp only [hlt, hv, if_true, if_false, Option.bind_eq_bind, Option.some_bind]
      exact ih (fun u hu => hmembers u (List.mem_cons_of_mem _ hu)) _
    · simp only [hlt, if_false, Option.bind_eq_bind, Option.some_bind]
      exact ih (fun u hu => hmembers u (List.mem_cons_of_mem _ hu)) _

/-- The cut loop reads no entry outside `partition_` when no member id is
negative. -/
theorem partsInEdgeChecked_isSome (partition_ : List Int) (members : List Int)
    (hmembers : ∀ v ∈ members, 0 ≤ v) :
    (partsInEdgeChecked partition_ members).isSome = true :=
  partsInEdgeChecked_foldlM partition_ members hmembers []

/-- A run of `evaluatePartition` that makes no access out of range leaves the
object that the model `evaluatePartition` computes. -/
theorem evaluatePartitionChecked_eq (c c' : TritonPartCore)
    (hrun : c.evaluatePartitionChecked = some c') : c' = c.evaluatePartition := by
  unfold TritonPartCore.evaluatePartitionChecked at hrun
  unfold TritonPartCore.evaluatePartition
  cases hhg : c.hypergraph_ with
  | none =>
    rw [hhg] at hrun
    injection hrun with hrun
    exact hrun.symm
  | some hg =>
    rw [hhg] at hrun
    dsimp only at hrun ⊢
    by_cases hne : c.partition_ = []
    · rw [if_pos hne] at hrun
      rw [if_pos hne]
      injection hrun with hrun
      exact hrun.symm
    · rw [if_neg hne] at hrun
      rw [if_neg hne]
      split_ifs at hrun
      · cases hw : evalPartWeightsChecked hg c.partition_ c.num_parts_ with
        | none => rw [hw] at hrun; simp at hrun
        | some w =>
          rw [hw] at hrun
          dsimp only at hrun
          injection hrun with hrun
          rw [← hrun]
          unfold TritonPartCore.evaluatePartition
          rw [hhg]
          dsimp only
          rw [if_neg hne]

/-- Whether a run of `evaluatePartition` stays in range depends on the
hypergraph, the assignment and the number of partitions only. -/
theorem evaluatePartitionChecked_isSome_congr (c1 c2 : TritonPartCore)
    (hhg : c2.hypergraph_ = c1.hypergraph_) (hpart : c2.partition_ = c1.partition_)
    (hnum : c2.num_parts_ = c1.num_parts_) :
    c2.evaluatePartitionChecked.isSome = c1.evaluatePartitionChecked.isSome := by
  unfold TritonPartCore.evaluatePartitionChecked
  rw [hhg, hpart, hnum]
  cases c1.hypergraph_ with
  | none => rfl
  | some hg =>
    dsimp only
    by_cases hne : c1.partition_ = []
    · rw [if_pos hne, if_pos hne]
      rfl
    · rw [if_neg hne, if_neg hne]
      split_ifs
      · cases evalPartWeightsChecked hg c1.partition_ c1.num_parts_ with
        | none => rfl
        | some w => rfl
      · rfl

/-- A run of `evaluatePartition` stays in range on every object whose
assignment has one entry per vertex with a label in `[0, num_parts_)`, when
no hyperedge holds a negative vertex id; it leaves the object that the model
`evaluatePartition` computes. -/
theorem evaluatePartitionChecked_some (c : TritonPartCore) (hg : Hypergraph)
    (hhg : c.hypergraph_ = some hg) (hcover : c.partition_.length = hg.GetNumVertices)
    (hlabels : ∀ p ∈ c.partition_, 0 ≤ p ∧ p < c.num_parts_)
    (hmembers : ∀ e ∈ hg.hyperedges, ∀ v ∈ e, 0 ≤ v) :
    c.evaluatePartitionChecked = some c.evaluatePartition := by
  unfold TritonPartCore.evaluatePartitionChecked
  rw [hhg]
  dsimp only
  by_cases hne : c.partition_ = []
  · rw [if_pos hne]
    unfold TritonPartCore.evaluatePartition
    rw [hhg]
    dsimp only
    rw [if_pos hne]
  · rw [if_neg hne]
    have hall : (List.range hg.GetNumHyperedges).all
        (fun e => (partsInEdgeChecked c.partition_ (hg.Vertices e)).isSome) = true := by
      rw [List.all_eq_true]
      intro e he
      apply partsInEdgeChecked_isSome
      intro v hv
      exact hmembers _ (mem_hyperedges_of_lt hg e (List.mem_range.1 he)) v hv
    have hprefix := evalPartWeights_prefix hg c.partition_ c.num_parts_ hcover hlabels
      hg.GetNumVertices (le_refl _)
    have hweights : evalPartWeightsChecked hg c.partition_ c.num_parts_ =
        some (evalPartWeights hg c.partition_ c.num_parts_) := hprefix.1
    rw [if_pos hall, hweights]

/-- A label outside `[0, num_parts_)` takes the run out of range: scenario A
partitioned into two partitions (assignment `[0, 1, 0, 1]`) and evaluated
again after `setNumPartitions(1)`; the balance loop writes `part_weights[1]`
of a vector with one entry. -/
theorem evaluatePartitionChecked_label_out_of_range :
    (((TritonPartCore.ofHypergraph hypergraphA 2 1 0).partition lcgEngine).1.setNumPartitions
      1).partition_ = [0, 1, 0, 1] ∧
    (((TritonPartCore.ofHypergraph hypergraphA 2 1 0).partition lcgEngine).1.setNumPartitions
      1).evaluatePartitionChecked.isSome = false := by
  refine ⟨by with_unfolding_all decide, by with_unfolding_all decide⟩

/-- Claim C16: a run of `evaluatePartition` that makes no access out of range
changes neither the hypergraph nor the assignment, and it is idempotent: a
second run in a row makes no access out of range either and leaves the object
as the first run left it, with the same cutsize and the same cut count. -/
theorem evaluatePartition_pure_idempotent (c c' : TritonPartCore)
    (hrun : c.evaluatePartitionChecked = some c') :
    c'.hypergraph_ = c.hypergraph_ ∧
      c'.getPartitionAssignment = c.getPartitionAssignment ∧
      c'.evaluatePartitionChecked = some c' ∧
      (c'.evaluatePartitionChecked.map fun c'' => c''.getCutsize) = some c'.getCutsize ∧
      (c'.evaluatePartitionChecked.map fun c'' => c''.getNumCuts) = some c'.getNumCuts ∧
      c' = c.evaluatePartition := by
  have heq := evaluatePartitionChecked_eq c c' hrun
  have hhg : c'.hypergraph_ = c.hypergraph_ := by rw [heq, evaluatePartition_hypergraph]
  have hpart : c'.partition_ = c.partition_ := by rw [heq, evaluatePartition_partition]
  have hnum : c'.num_parts_ = c.num_parts_ := by rw [heq, evaluatePartition_num_parts]
  have hsome : c'.evaluatePartitionChecked.isSome = true := by
    rw [evaluatePartitionChecked_isSome_congr c c' hhg hpart hnum, hrun]
    rfl
  obtain ⟨c'', hc''⟩ := Option.isSome_iff_exists.1 hsome
  have hsecond : c'.evaluatePartitionChecked = some c' := by
    rw [hc'', evaluatePartitionChecked_eq c' c'' hc'', heq, evaluatePartition_idem]
  refine ⟨hhg, hpart, hsecond, ?_, ?_, heq⟩
  · rw [hsecond]; rfl
  · rw [hsecond]; rfl

/-- Witness for C16 on scenario A with the assignment `[0, 1, 0, 1]` and two
partitions: the run stays in range and leaves cut count 2 and cutsize 2; the
second run stays in range and leaves the same object. -/
theorem evaluatePartition_pure_idempotent_witness :
    ({ TritonPartCore.ofHypergraph hypergraphA 2 1 0 with
        partition_ := [0, 1, 0, 1] } : TritonPartCore).evaluatePartitionChecked =
      some ({ TritonPartCore.ofHypergraph hypergraphA 2 1 0 with
        partition_ := [0, 1, 0, 1] } : TritonPartCore).evaluatePartition ∧
    ({ TritonPartCore.ofHypergraph hypergraphA 2 1 0 with
        partition_ := [0, 1, 0, 1] } : TritonPartCore).evaluatePartition.getNumCuts = 2 ∧
    ({ TritonPartCore.ofHypergraph hypergraphA 2 1 0 with
        partition_ := [0, 1, 0, 1] } : TritonPartCore).evaluatePartition.getCutsize = 2 ∧
    ({ TritonPartCore.ofHypergraph hypergraphA 2 1 0 with
        partition_ := [0, 1, 0, 1] } : TritonPartCore).evaluatePartition.evaluatePartitionChecked =
      some ({ TritonPartCore.ofHypergraph hypergraphA 2 1 0 with
        partition_ := [0, 1, 0, 1] } : TritonPartCore).evaluatePartition :=
  ⟨evaluatePartitionChecked_some _ hypergraphA rfl (by decide) (by decide) (by decide),
    by with_unfolding_all decide, by with_unfolding_all decide,
    (evaluatePartition_pure_idempotent
      { TritonPartCore.ofHypergraph hypergraphA 2 1 0 with partition_ := [0, 1, 0, 1] }
      ({ TritonPartCore.ofHypergraph hypergraphA 2 1 0 with
        partition_ := [0, 1, 0, 1] } : TritonPartCore).evaluatePartition
      (evaluatePartitionChecked_some _ hypergraphA rfl (by decide) (by decide)
        (by decide))).2.2.1⟩

/-- Claim C13, amended: on a hypergraph and a non-empty assignment covering
all its vertices with labels in `[0, num_parts_)`, `evaluatePartition` makes
no access out of range, and after it the cut count is the number of
hyperedges whose members carry more than one distinct partition label (that
is, two members with different labels) and the cutsize is the sum of the
weights of exactly those hyperedges; an assignment that gives all members of
every hyperedge one label leaves 0 cut hyperedges and cutsize 0. -/
theorem evaluatePartition_cut_count (c : TritonPartCore) (hg : Hypergraph)
    (hhg : c.hypergraph_ = some hg) (hne : c.partition_ ≠ [])
    (hcover : c.partition_.length = hg.GetNumVertices)
    (hlabels : ∀ p ∈ c.partition_, 0 ≤ p ∧ p < c.num_parts_)
    (hvalid : ∀ e ∈ hg.hyperedges, ∀ v ∈ e, 0 ≤ v ∧ v < (hg.GetNumVertices : Int)) :
    c.evaluatePartitionChecked = some c.evaluatePartition ∧
      c.evaluatePartition.getNumCuts = ((cutHyperedges hg c.partition_).length : Int) ∧
      c.evaluatePartition.getCutsize =
        ((cutHyperedges hg c.partition_).map hg.hyperedgeWeight).sum ∧
      (∀ e, e ∈ cutHyperedges hg c.partition_ ↔
        e < hg.GetNumHyperedges ∧
          ∃ u ∈ hg.Vertices e, ∃ v ∈ hg.Vertices e,
            c.partition_.getD u.toNat 0 ≠ c.partition_.getD v.toNat 0) ∧
      ((∀ e ∈ hg.hyperedges, ∀ u ∈ e, ∀ v ∈ e,
          c.partition_.getD u.toNat 0 = c.partition_.getD v.toNat 0) →
        c.evaluatePartition.getNumCuts = 0 ∧ c.evaluatePartition.getCutsize = 0) := by
  have hfold := foldl_countCut hg c.partition_ (fun e he v hv => (hvalid e he v hv).1)
  have heval : c.evaluatePartition.getNumCuts = ((cutHyperedges hg c.partition_).length : Int) ∧
      c.evaluatePartition.getCutsize =
        ((cutHyperedges hg c.partition_).map hg.hyperedgeWeight).sum := by
    unfold TritonPartCore.evaluatePartition TritonPartCore.getNumCuts TritonPartCore.getCutsize
    rw [hhg]
    dsimp only
    rw [if_neg hne, hfold]
    exact ⟨rfl, rfl⟩
  have hmem : ∀ e, e ∈ cutHyperedges hg c.partition_ ↔
      e < hg.GetNumHyperedges ∧
        ∃ u ∈ hg.Vertices e, ∃ v ∈ hg.Vertices e,
          c.partition_.getD u.toNat 0 ≠ c.partition_.getD v.toNat 0 := by
    intro e
    unfold cutHyperedges
    rw [List.mem_filter, List.mem_range, decide_eq_true_eq]
    constructor
    · rintro ⟨he, hcut⟩
      refine ⟨he, (isCutBy_iff _ _ ?_).1 hcut⟩
      intro v hv
      rw [hcover]
      exact hvalid _ (mem_hyperedges_of_lt hg e he) v hv
    · rintro ⟨he, hcut⟩
      refine ⟨he, (isCutBy_iff _ _ ?_).2 hcut⟩
      intro v hv
      rw [hcover]
      exact hvalid _ (mem_hyperedges_of_lt hg e he) v hv
  refine ⟨evaluatePartitionChecked_some c hg hhg hcover hlabels
    (fun e he v hv => (hvalid e he v hv).1), heval.1, heval.2, hmem, ?_⟩
  intro hsame
  have hnil : cutHyperedges hg c.partition_ = [] := by
    rw [List.eq_nil_iff_forall_not_mem]
    intro e he
    obtain ⟨hlt, u, hu, v, hv, huv⟩ := (hmem e).1 he
    exact huv (hsame _ (mem_hyperedges_of_lt hg e hlt) u hu v hv)
  rw [heval.1, heval.2, hnil]
  simp

/-- Witness for the amended C13 on scenario A with two partitions: the
assignment `[0, 0, 1, 1]` keeps the endpoints of `{0, 1}` and of `{2, 3}`
together and leaves 0 cut hyperedges and cutsize 0; the assignment
`[0, 1, 0, 1]` cuts both. -/
theorem evaluatePartition_cut_count_witness :
    (({ TritonPartCore.ofHypergraph hypergraphA 2 1 0 with
        partition_ := [0, 0, 1, 1] } : TritonPartCore).evaluatePartition.getNumCuts = 0 ∧
      ({ TritonPartCore.ofHypergraph hypergraphA 2 1 0 with
        partition_ := [0, 0, 1, 1] } : TritonPartCore).evaluatePartition.getCutsize = 0) ∧
    cutHyperedges hypergraphA [0, 1, 0, 1] = [0, 1] ∧
    ({ TritonPartCore.ofHypergraph hypergraphA 2 1 0 with
        partition_ := [0, 1, 0, 1] } : TritonPartCore).evaluatePartition.getNumCuts =
      ((cutHyperedges hypergraphA [0, 1, 0, 1]).length : Int) :=
  ⟨(evaluatePartition_cut_count
      { TritonPartCore.ofHypergraph hypergraphA 2 1 0 with partition_ := [0, 0, 1, 1] }
      hypergraphA rfl (by decide) (by decide) (by decide) (by decide)).2.2.2.2 (by decide),
    by decide,
    (evaluatePartition_cut_count
      { TritonPartCore.ofHypergraph hypergraphA 2 1 0 with partition_ := [0, 1, 0, 1] }
      hypergraphA rfl (by decide) (by decide) (by decide) (by decide)).2.1⟩

end par
